import Mathlib

/-!
# Barnes-Hut quadtree of the galaxy simulator

Shallow embedding of `Src/BarnesHutTree.cpp` (`Reset`, `Insert`, `Contains`,
`ComputeAcceleration`), of the solver thread of `Src/Application.cpp` and of
`Src/integration.cpp`.

The tree code is embedded twice, with the same control flow and two arithmetics.

* `Galaxy.Binary32`: `float` is IEEE 754 binary32 (`F32`).  Every `+`, `-`, `*`,
  `/` and `sqrtf` is rounded to nearest, ties to even, one operation at a time
  (no fused multiply-add, no extended precision), with signed zeros, infinities
  and NaN; comparisons with NaN are false.  The literals `0.7f`, `0.5f`, `1.0f`
  are the binary32 numbers 11744051 / 16777216, 1/2 and 1.  This is the arithmetic
  of the code; it decides the statements about containment, routing, the squares
  of the children, the accumulated aggregates and the threshold of the
  opening-angle test.
* `Galaxy.BarnesHutTree` (outside `Binary32`): `float` values are exact rationals
  and `+`, `-`, `*`, `/` are evaluated exactly; rounding, overflow and NaN are
  outside this reading.  It is the arithmetic of the statements that are made
  over the reals (the centroid as a weighted mean, the pairwise sum of the four
  corners) and is used besides for facts in which no operation rounds.  The test
  `theta < 0.7f` is modelled by `thetaBelow`, which follows the IEEE outcome of the
  division by zero; `1.0f / totalMass` is the rational quotient, 0 for a zero
  total, and every statement about massCenter there assumes positive masses.

Conventions common to both.

* `Math.h`, `Galaxy.h` and the solvers are not part of the sources.  `float3` and
  `Particle` carry the members the tree code reads, with the operations read as
  the spec describes them; `GravityAcceleration` is a parameter.
* A `const Particle&` is a particle value together with its address `addr`;
  the pointer comparison `particle_ != &particle` compares addresses.
  Particles are not modified while the tree is built or queried, so the copy
  held by a leaf equals what the pointer would read.
* `std::unique_ptr<BarnesHutTree> children[4]` is either all null (`bare`) or all
  allocated (`quad`): the source only ever assigns the four together.
-/

namespace Galaxy

/-- Modelled from the spec: the vector type float3 of Math.h (not part of the
sources), a 3D vector with members m_x, m_y, m_z; components are exact rationals. -/
@[ext]
structure float3 where
  m_x : ℚ
  m_y : ℚ
  m_z : ℚ
deriving DecidableEq

namespace float3

/-- Modelled from the spec: the single-argument constructor float3{s}, all three
components equal to s, so that oppositePoint = point + float3{length} is the upper
corner of the closed square [point, point + length] the spec describes (and that
DrawBarnesHutTree draws). -/
def splat (s : ℚ) : float3 := ⟨s, s, s⟩

/-- Modelled from the spec: component-wise sum, operator+ and operator+=. -/
def add (a b : float3) : float3 := ⟨a.m_x + b.m_x, a.m_y + b.m_y, a.m_z + b.m_z⟩

/-- Modelled from the spec: component-wise difference, operator-. -/
def sub (a b : float3) : float3 := ⟨a.m_x - b.m_x, a.m_y - b.m_y, a.m_z - b.m_z⟩

/-- Modelled from the spec: multiplication by a scalar, which is scaleR (returning
a copy) and operator*= with a float. -/
def scaleR (a : float3) (s : ℚ) : float3 := ⟨a.m_x * s, a.m_y * s, a.m_z * s⟩

/-- Modelled from the spec: method addScaled, the receiver plus v times s (the
mass-weighted accumulation of the centroid). -/
def addScaled (a v : float3) (s : ℚ) : float3 := add a (scaleR v s)

/-- Modelled from the spec: square of norm(), the Euclidean length; the norm
itself is the real square root of this rational. -/
def normSq (a : float3) : ℚ := a.m_x * a.m_x + a.m_y * a.m_y + a.m_z * a.m_z

instance : Zero float3 := ⟨⟨0, 0, 0⟩⟩

instance : Add float3 := ⟨add⟩

instance : Sub float3 := ⟨sub⟩

instance : AddCommMonoid float3 where
  add_assoc a b c := float3.ext (add_assoc _ _ _) (add_assoc _ _ _) (add_assoc _ _ _)
  zero_add a := float3.ext (zero_add _) (zero_add _) (zero_add _)
  add_zero a := float3.ext (add_zero _) (add_zero _) (add_zero _)
  add_comm a b := float3.ext (add_comm _ _) (add_comm _ _) (add_comm _ _)
  nsmul := nsmulRec

end float3

/-- Modelled from the spec: the part of a Particle (Galaxy.h, not part of the
sources) that the tree reads, position and mass, together with the address of the
object, which is what the pointer particle_ holds and compares. -/
structure Particle where
  addr : Nat
  position : float3
  mass : ℚ
deriving DecidableEq

/-- Constant cMaxTreeLevel. -/
def cMaxTreeLevel : Nat := 50

/-- Data members of a BarnesHutTree node other than the children array. -/
structure NodeFields where
  point : float3
  length : ℚ
  oppositePoint : float3
  isLeaf : Bool
  particle_ : Option Particle
  totalMass : ℚ
  massCenter : float3
deriving DecidableEq

/-- A BarnesHutTree node: bare when the four children pointers are null,
quad when the four children are allocated. -/
inductive BarnesHutTree where
  | bare (d : NodeFields)
  | quad (d : NodeFields) (c0 c1 c2 c3 : BarnesHutTree)
deriving DecidableEq

namespace BarnesHutTree

/-- Data members of the node. -/
def data : BarnesHutTree → NodeFields
  | bare d => d
  | quad d _ _ _ _ => d

/-- Replace the data members, keeping the children. -/
def setData : BarnesHutTree → NodeFields → BarnesHutTree
  | bare _, d => bare d
  | quad _ c0 c1 c2 c3, d => quad d c0 c1 c2 c3

/-- Constructor BarnesHutTree(point, length) over exact arithmetic: an empty leaf
without children, oppositePoint the exact sum point + length (the binary32 sum is
Binary32.BarnesHutTree.new). The member massCenter is not initialised by the
source; it is taken as zero (it is not read before a split assigns it). -/
def new (point : float3) (length : ℚ) : BarnesHutTree :=
  bare
    { point := point
      length := length
      oppositePoint := point + float3.splat length
      isLeaf := true
      particle_ := none
      totalMass := 0
      massCenter := 0 }

/-- Method Reset: back to an empty leaf, children kept. -/
def Reset (t : BarnesHutTree) : BarnesHutTree :=
  t.setData { t.data with isLeaf := true, particle_ := none }

/-- Test of Contains on the data members: inclusive on all four edges, x and y only. -/
def NodeContains (d : NodeFields) (p : Particle) : Bool :=
  decide (p.position.m_x ≥ d.point.m_x) && decide (p.position.m_x ≤ d.oppositePoint.m_x) &&
  decide (p.position.m_y ≥ d.point.m_y) && decide (p.position.m_y ≤ d.oppositePoint.m_y)

/-- Method Contains. -/
def Contains (t : BarnesHutTree) (p : Particle) : Bool :=
  NodeContains t.data p

end BarnesHutTree

/-- The four entries of the children array. -/
structure Quad where
  c0 : BarnesHutTree
  c1 : BarnesHutTree
  c2 : BarnesHutTree
  c3 : BarnesHutTree

namespace BarnesHutTree

/-- The loop `for i in 0..3: if children[i]->Contains(p) then children[i]->f(); break`:
the first child in array order that contains p is replaced by its image under f. -/
def route (p : Particle) (f : BarnesHutTree → BarnesHutTree) (cs : Quad) : Quad :=
  if cs.c0.Contains p then { cs with c0 := f cs.c0 }
  else if cs.c1.Contains p then { cs with c1 := f cs.c1 }
  else if cs.c2.Contains p then { cs with c2 := f cs.c2 }
  else if cs.c3.Contains p then { cs with c3 := f cs.c3 }
  else cs

/-- Children of a leaf that is being split, over exact arithmetic: allocated on the
first split (lines 52-65) with exact origins point + length / 2, reset and reused
afterwards (lines 70-73). The binary32 origins are those of
Binary32.BarnesHutTree.splitChildren. -/
def splitChildren : BarnesHutTree → Quad
  | bare d =>
    let nl := (1 / 2 : ℚ) * d.length
    let x := d.point.m_x + nl
    let y := d.point.m_y + nl
    let np1 : float3 := ⟨x, d.point.m_y, 0⟩
    let np2 : float3 := ⟨x, y, 0⟩
    let np3 : float3 := ⟨d.point.m_x, y, 0⟩
    ⟨new d.point nl, new np1 nl, new np2 nl, new np3 nl⟩
  | quad _ c0 c1 c2 c3 => ⟨c0.Reset, c1.Reset, c2.Reset, c3.Reset⟩

/-- Body of Insert over exact arithmetic, with the recursion depth bounded by a
counter. The counter is only a device for structural recursion: Insert below
supplies enough of it, and satisfies the equations of the source with Insert
itself in the recursive positions (Insert_out, Insert_store, Insert_split,
Insert_internal). totalMass and massCenter are exact sums and quotients; the
binary32 accumulation is that of Binary32.BarnesHutTree.insertAux.

An internal node without children does not arise (the split allocates them); the
source would dereference null there, the model leaves the children absent. -/
def insertAux : Nat → BarnesHutTree → Particle → Nat → BarnesHutTree
  | 0, t, _, _ => t
  | fuel + 1, t, p, level =>
    if !t.Contains p then t
    else if level > cMaxTreeLevel then t
    else
      let d := t.data
      if d.isLeaf then
        match d.particle_ with
        | none => t.setData { d with particle_ := some p }
        | some q =>
          let cs := splitChildren t
          let cs := route q (fun c => insertAux fuel c q (level + 1)) cs
          let cs := route p (fun c => insertAux fuel c p (level + 1)) cs
          let totalMass := q.mass + p.mass
          let massCenter := p.position.scaleR p.mass
          let massCenter := massCenter.addScaled q.position q.mass
          let massCenter := massCenter.scaleR (1 / totalMass)
          quad { d with isLeaf := false, totalMass := totalMass, massCenter := massCenter }
            cs.c0 cs.c1 cs.c2 cs.c3
      else
        let total := d.totalMass + p.mass
        let massCenter := d.massCenter.scaleR d.totalMass
        let massCenter := massCenter.addScaled p.position p.mass
        let massCenter := massCenter.scaleR (1 / total)
        let d1 := { d with massCenter := massCenter, totalMass := total }
        match t with
        | bare _ => bare d1
        | quad _ c0 c1 c2 c3 =>
          let cs := route p (fun c => insertAux fuel c p (level + 1)) ⟨c0, c1, c2, c3⟩
          quad d1 cs.c0 cs.c1 cs.c2 cs.c3

/-- Method Insert(p, level). A call at level L recurses only to level L + 1 and
returns at once when L exceeds cMaxTreeLevel, so 52 - L nested calls suffice. -/
def Insert (t : BarnesHutTree) (p : Particle) (level : Nat) : BarnesHutTree :=
  insertAux (cMaxTreeLevel + 2 - level) t p level

/-- Ghost companion of route: what a logging function reports for the child
that the loop selects (nothing when no child contains p). -/
def routeLog (p : Particle) (g : BarnesHutTree → List Particle) (cs : Quad) : List Particle :=
  if cs.c0.Contains p then g cs.c0
  else if cs.c1.Contains p then g cs.c1
  else if cs.c2.Contains p then g cs.c2
  else if cs.c3.Contains p then g cs.c3
  else []

/-- Ghost companion of insertAux: the particles for which a call of Insert, the
outer one or a nested one, returned at the depth check of lines 31-34. -/
def droppedAux : Nat → BarnesHutTree → Particle → Nat → List Particle
  | fuel, t, p, level =>
    if !t.Contains p then []
    else if level > cMaxTreeLevel then [p]
    else
      match fuel with
      | 0 => []
      | fuel + 1 =>
        let d := t.data
        if d.isLeaf then
          match d.particle_ with
          | none => []
          | some q =>
            let cs := splitChildren t
            let dq := routeLog q (fun c => droppedAux fuel c q (level + 1)) cs
            let cs := route q (fun c => insertAux fuel c q (level + 1)) cs
            dq ++ routeLog p (fun c => droppedAux fuel c p (level + 1)) cs
        else
          match t with
          | bare _ => []
          | quad _ c0 c1 c2 c3 =>
            routeLog p (fun c => droppedAux fuel c p (level + 1)) ⟨c0, c1, c2, c3⟩

/-- Particles dropped at the depth limit during Insert(p, level). -/
def dropped (t : BarnesHutTree) (p : Particle) (level : Nat) : List Particle :=
  droppedAux (cMaxTreeLevel + 2 - level) t p level

/-- A list of particles inserted one after another with level 0. -/
def InsertAll (t : BarnesHutTree) (ps : List Particle) : BarnesHutTree :=
  ps.foldl (fun t p => Insert t p 0) t

/-- Particles dropped at the depth limit while a list is inserted with level 0. -/
def droppedAll : BarnesHutTree → List Particle → List Particle
  | _, [] => []
  | t, p :: ps => dropped t p 0 ++ droppedAll (Insert t p 0) ps

/-- Data members of the leaves reachable from the node, that is, through the
children of nodes with isLeaf = false, in traversal order. -/
def reachableLeaves : BarnesHutTree → List NodeFields
  | bare d => if d.isLeaf then [d] else []
  | quad d c0 c1 c2 c3 =>
    if d.isLeaf then [d]
    else reachableLeaves c0 ++ reachableLeaves c1 ++ reachableLeaves c2 ++ reachableLeaves c3

/-- Particles referenced by the reachable leaves, in traversal order. -/
def storedParticles : BarnesHutTree → List Particle
  | bare d => if d.isLeaf then d.particle_.toList else []
  | quad d c0 c1 c2 c3 =>
    if d.isLeaf then d.particle_.toList
    else storedParticles c0 ++ storedParticles c1 ++ storedParticles c2 ++ storedParticles c3

/-- Nodes reachable from the node, itself included, parents before children. -/
def reachableNodes : BarnesHutTree → List BarnesHutTree
  | bare d => [bare d]
  | quad d c0 c1 c2 c3 =>
    if d.isLeaf then [quad d c0 c1 c2 c3]
    else quad d c0 c1 c2 c3 ::
      (reachableNodes c0 ++ reachableNodes c1 ++ reachableNodes c2 ++ reachableNodes c3)

end BarnesHutTree

/-- Modelled from the spec: the two overloads of GravityAcceleration declared in
Math.h, which is not part of the sources. The spec gives the softened point-mass
law a = G m r / (|r|^2 + softening^2)^(3/2), which is not rational-valued, so the
law is a parameter: direct is GravityAcceleration(vec, mass, softFactor), withNorm
is GravityAcceleration(vec, mass, softFactor, r) at r = vec.norm(). -/
structure GravityLaw where
  direct : float3 → ℚ → ℚ → float3
  withNorm : float3 → ℚ → ℚ → float3

/-- The literal 0.7f: the binary32 number nearest to 7/10, which is the rational
11744051 / 16777216 = 0.699999988079071044921875. -/
def thetaLimit : ℚ := 11744051 / 16777216

/-- Outcome of the test theta < 0.7f of ComputeAcceleration, for r = vec.norm()
and theta = length / r, both over the reals. With r > 0 the quotient is below 0.7f
when length is negative or length^2 < 0.7f^2 r^2. With r = 0 the float quotient is
+infinity (length > 0), NaN (length = 0) or -infinity (length < 0), and only the
last compares below 0.7f (see thetaBelow_iff_real for the statement with the real
square root). -/
def thetaBelow (length : ℚ) (vec : float3) : Bool :=
  if vec.normSq = 0 then decide (length < 0)
  else decide (length < 0 ∨ length ^ 2 < thetaLimit ^ 2 * vec.normSq)

namespace BarnesHutTree

/-- Body of ComputeAcceleration on the data members of a node; childrenSum is the
value of the loop over the four children (lines 169-172). -/
def accelerationAt (G : GravityLaw) (d : NodeFields) (particle : Particle) (softFactor : ℚ)
    (childrenSum : float3) : float3 :=
  match d.isLeaf, d.particle_ with
  | true, some q =>
    if q.addr ≠ particle.addr then
      G.direct (q.position - particle.position) q.mass softFactor
    else 0
  | true, none => 0
  | false, _ =>
    let vec := d.massCenter - particle.position
    if thetaBelow d.length vec then G.withNorm vec d.totalMass softFactor
    else childrenSum

/-- Method ComputeAcceleration(particle, softFactor). The accumulator starts at
zero and the children are added in array order. For an internal node without
children (which does not arise) the loop contributes nothing. -/
def ComputeAcceleration (G : GravityLaw) : BarnesHutTree → Particle → ℚ → float3
  | bare d, particle, softFactor => accelerationAt G d particle softFactor 0
  | quad d c0 c1 c2 c3, particle, softFactor =>
    accelerationAt G d particle softFactor
      (0 + ComputeAcceleration G c0 particle softFactor
         + ComputeAcceleration G c1 particle softFactor
         + ComputeAcceleration G c2 particle softFactor
         + ComputeAcceleration G c3 particle softFactor)

end BarnesHutTree

/-- Property of each of the four children. -/
def Quad.All (P : BarnesHutTree → Prop) (cs : Quad) : Prop :=
  P cs.c0 ∧ P cs.c1 ∧ P cs.c2 ∧ P cs.c3

/-- Particles referenced by the reachable leaves below the four children. -/
def Quad.stored (cs : Quad) : List Particle :=
  BarnesHutTree.storedParticles cs.c0 ++ BarnesHutTree.storedParticles cs.c1 ++
    BarnesHutTree.storedParticles cs.c2 ++ BarnesHutTree.storedParticles cs.c3

namespace BarnesHutTree

/-- The square of a node is the one its constructor sets up. -/
def GeomNode (d : NodeFields) : Prop :=
  d.oppositePoint = d.point + float3.splat d.length

/-- The four children are the quadrants the split allocates for a node. -/
def ChildGeom (d : NodeFields) (cs : Quad) : Prop :=
  (cs.c0.data.point = d.point ∧ cs.c0.data.length = 1 / 2 * d.length) ∧
  (cs.c1.data.point = ⟨d.point.m_x + 1 / 2 * d.length, d.point.m_y, 0⟩ ∧
    cs.c1.data.length = 1 / 2 * d.length) ∧
  (cs.c2.data.point = ⟨d.point.m_x + 1 / 2 * d.length, d.point.m_y + 1 / 2 * d.length, 0⟩ ∧
    cs.c2.data.length = 1 / 2 * d.length) ∧
  (cs.c3.data.point = ⟨d.point.m_x, d.point.m_y + 1 / 2 * d.length, 0⟩ ∧
    cs.c3.data.length = 1 / 2 * d.length)

/-- Geometry of a node and of everything allocated below it, reachable or not:
what the constructor and the split set up and nothing modifies afterwards. Every
tree the code can build has it (Built_geom_inv). -/
def Geom : BarnesHutTree → Prop
  | bare d => GeomNode d
  | quad d c0 c1 c2 c3 =>
    GeomNode d ∧ ChildGeom d ⟨c0, c1, c2, c3⟩ ∧ Geom c0 ∧ Geom c1 ∧ Geom c2 ∧ Geom c3

/-- Invariant of the reachable part: every stored particle lies in the square of
each node above it, and an internal node has its children allocated. -/
def Inv : BarnesHutTree → Prop
  | bare d => d.isLeaf = true ∧ ∀ q ∈ storedParticles (bare d), NodeContains d q = true
  | quad d c0 c1 c2 c3 =>
    (∀ q ∈ storedParticles (quad d c0 c1 c2 c3), NodeContains d q = true) ∧
    (d.isLeaf = false → Inv c0 ∧ Inv c1 ∧ Inv c2 ∧ Inv c3)

/-- The trees the code can build: a node fresh from the constructor, and what
Reset and Insert make of such a tree. -/
inductive Built : BarnesHutTree → Prop
  | new (point : float3) (length : ℚ) : Built (BarnesHutTree.new point length)
  | reset (t : BarnesHutTree) : Built t → Built t.Reset
  | insert (t : BarnesHutTree) (p : Particle) (level : Nat) : Built t → Built (t.Insert p level)

/-- An empty leaf: isLeaf set and no particle referenced (a node fresh from the
constructor, or after Reset). -/
def EmptyLeaf (t : BarnesHutTree) : Prop :=
  t.data.isLeaf = true ∧ t.data.particle_ = none

end BarnesHutTree

/-- The (x, y) position of the particle lies in the closed square
[point, point + length] of the node. -/
def InSquare (d : NodeFields) (p : Particle) : Prop :=
  d.point.m_x ≤ p.position.m_x ∧ p.position.m_x ≤ d.point.m_x + d.length ∧
  d.point.m_y ≤ p.position.m_y ∧ p.position.m_y ≤ d.point.m_y + d.length

/-- Sum of the masses of a list of particles. -/
def massSum (l : List Particle) : ℚ := (l.map Particle.mass).sum

/-- Sum of mass times position over a list of particles. -/
def moment (l : List Particle) : float3 := (l.map (fun q => q.position.scaleR q.mass)).sum

namespace BarnesHutTree

/-- Aggregates of the reachable internal nodes agree with the particles stored
below them: totalMass is their mass sum, and massCenter times totalMass is their
moment when their masses are positive. In a build without drops an internal node
has at least two particles below it. -/
def AggOK : BarnesHutTree → Prop
  | bare d => d.isLeaf = true
  | quad d c0 c1 c2 c3 =>
    d.isLeaf = false →
      d.totalMass = massSum (storedParticles (quad d c0 c1 c2 c3)) ∧
      2 ≤ (storedParticles (quad d c0 c1 c2 c3)).length ∧
      ((∀ q ∈ storedParticles (quad d c0 c1 c2 c3), 0 < q.mass) →
        d.massCenter.scaleR d.totalMass = moment (storedParticles (quad d c0 c1 c2 c3))) ∧
      AggOK c0 ∧ AggOK c1 ∧ AggOK c2 ∧ AggOK c3

end BarnesHutTree

/-- Modelled from the spec: the acceleration BruteforceSolver computes for one
particle (the solver is not part of the sources): the sum, over every other
particle of the list, of the direct softened term GravityAcceleration(q.position -
x.position, q.mass, softFactor); the other particles are told apart by address. -/
def bruteForceAcceleration (G : GravityLaw) (ps : List Particle) (x : Particle)
    (softFactor : ℚ) : float3 :=
  ((ps.filter (fun q => decide (q.addr ≠ x.addr))).map
    (fun q => G.direct (q.position - x.position) q.mass softFactor)).sum

namespace BarnesHutTree

/-- ComputeAcceleration for x opens every reachable internal node: none passes
the test theta < 0.7, so none is replaced by a point mass at its centroid. -/
def Opened (t : BarnesHutTree) (x : Particle) : Prop :=
  ∀ n ∈ reachableNodes t, n.data.isLeaf = false →
    thetaBelow n.data.length (n.data.massCenter - x.position) = false

end BarnesHutTree

/-- The two particles are more than δ apart in x or in y. -/
def Apart (δ : ℚ) (p q : Particle) : Prop :=
  δ < |p.position.m_x - q.position.m_x| ∨ δ < |p.position.m_y - q.position.m_y|

/-- Four particles of mass m at the corners (0,0,0), (1,0,0), (1,1,0), (0,1,0) of
the unit square, with addresses 0 to 3. -/
def cornerParticles (m : ℚ) : List Particle :=
  [⟨0, ⟨0, 0, 0⟩, m⟩, ⟨1, ⟨1, 0, 0⟩, m⟩, ⟨2, ⟨1, 1, 0⟩, m⟩, ⟨3, ⟨0, 1, 0⟩, m⟩]

/-! ### The solver thread of Application (Application.cpp) -/

/-- The members of Application that the solver thread and the keyboard handler
read and write: the started flag, the time step, the simulation time and the step
counter, together with the state the solver owns (particles and tree, type U).
The ghost counter solveCalls counts the calls of Solver::Solve. -/
structure Application (U : Type) where
  started : Bool
  deltaTime : ℚ
  simulationTime : ℚ
  numSteps : Int
  particles : U
  solveCalls : Nat

namespace Application

/-- One iteration of the loop of the solver thread started in Application::Run
(lines 172-177): solver->Solve(deltaTime); simulationTime += deltaTime; ++numSteps.
The loop condition is the constant true and the body does not read started.
Solver::Solve is declared in Solver.h, which is not part of the sources; what it
does to the particle state in one time step is the parameter Solve. -/
def solverThreadIteration {U : Type} (Solve : ℚ → U → U) (a : Application U) :
    Application U :=
  { a with
    particles := Solve a.deltaTime a.particles
    solveCalls := a.solveCalls + 1
    simulationTime := a.simulationTime + a.deltaTime
    numSteps := a.numSteps + 1 }

/-- The first n iterations of the loop of the solver thread. -/
def solverThread {U : Type} (Solve : ℚ → U → U) : Nat → Application U → Application U
  | 0, a => a
  | n + 1, a => solverThread Solve n (solverThreadIteration Solve a)

/-- Application::OnIdle (lines 364-378) on the modelled members: the body of
if (started) holds only a commented-out call of Solve, and the brightness updates
touch the render parameters only, so no modelled member changes. -/
def OnIdle {U : Type} (a : Application U) : Application U :=
  if a.started then a else a

/-- Application::OnKeyboard (lines 381-419) on the modelled members, for a key the
user interface did not consume: the bracket keys scale the time step by 1.2 and
0.8, SPACE clears started and ENTER (13) sets it. -/
def OnKeyboard {U : Type} (key : Nat) (a : Application U) : Application U :=
  let a1 := if key = 93 then { a with deltaTime := a.deltaTime * (12 / 10) } else a
  let a2 := if key = 91 then { a1 with deltaTime := a1.deltaTime * (8 / 10) } else a1
  let a3 := if key = 32 then { a2 with started := false } else a2
  if key = 13 then (if !a3.started then { a3 with started := true } else a3) else a3

end Application

/-! ### Quadrature rules (integration.cpp) -/

namespace integration

/-- Midpoint rule integration::rect over exact arithmetic in a field K: h = (b - a) / n,
hh = 0.5 * h, the sum of f(a + i * h + hh) for i = 0 .. n - 1 (empty for n ≤ 0),
then multiplied by h. -/
def rect {K : Type} [Field K] (a b : K) (n : Int) (f : K → K) : K :=
  let h := (b - a) / (n : K)
  let hh := 1 / 2 * h
  let res := (List.range n.toNat).foldl (fun (res : K) (i : Nat) => res + f (a + (i : K) * h + hh)) 0
  res * h

/-- Trapezoid rule integration::trap over exact arithmetic in a field K:
h = (b - a) / n, res starts as 0.5 * (f(a) + f(b)), the loop adds f(a + i * h) for
i = 1 .. n - 1, then res is multiplied by h. -/
def trap {K : Type} [Field K] (a b : K) (n : Int) (f : K → K) : K :=
  let h := (b - a) / (n : K)
  let res := (List.range' 1 (n.toNat - 1)).foldl (fun (res : K) (i : Nat) => res + f (a + (i : K) * h))
    (1 / 2 * (f a + f b))
  res * h

end integration

/-! ### Sample data for the concrete instances -/

/-- Root covering the unit square at the origin. -/
def unitRoot : BarnesHutTree := BarnesHutTree.new ⟨0, 0, 0⟩ 1

/-- Particle of mass 1 at the origin. -/
def particleA : Particle := ⟨1, ⟨0, 0, 0⟩, 1⟩

/-- Particle of mass 1 above the corner (1, 1) of the unit square, at height 4. -/
def particleHigh : Particle := ⟨7, ⟨1, 1, 4⟩, 1⟩

/-- The application as Run leaves it when the solver thread starts: started is
false (its initialiser), the time step is 0.00000005 (the constructor), no step has
been counted; the solver state is one coordinate of one particle. -/
def pausedApplication : Application ℚ :=
  { started := false
    deltaTime := 1 / 20000000
    simulationTime := 0
    numSteps := 0
    particles := 0
    solveCalls := 0 }

/-- A solver for the sample: the coordinate moves with velocity 1. -/
def driftSolve (dt x : ℚ) : ℚ := x + dt

/-- IEEE 754 binary32 value: a finite number (an exact rational; zero is +0), the
negative zero, an infinity with its sign bit, or NaN. -/
inductive F32 where
  | fin (q : ℚ)
  | negZero
  | inf (neg : Bool)
  | nan
deriving DecidableEq

namespace F32

/-- The rational 2^e. -/
def pow2 (e : Int) : ℚ :=
  if 0 ≤ e then ((2 ^ e.toNat : Nat) : ℚ) else 1 / ((2 ^ (-e).toNat : Nat) : ℚ)

/-- Floor of the binary logarithm of n, by repeated halving; the first argument
bounds the number of halvings. -/
def log2Aux : Nat → Nat → Nat
  | 0, _ => 0
  | fuel + 1, n => if n < 2 then 0 else log2Aux fuel (n / 2) + 1

/-- Floor of the binary logarithm of a natural number (0 for 0). -/
def log2 (n : Nat) : Nat := log2Aux n n

/-- Floor of the binary logarithm of a positive rational. -/
def ilog2 (a : ℚ) : Int :=
  let e0 : Int := (log2 a.num.natAbs : Int) - (log2 a.den : Int)
  if pow2 e0 ≤ a then e0 else e0 - 1

/-- Nearest natural number to a non-negative rational, ties to the even one. -/
def roundHalfEven (x : ℚ) : Nat :=
  let n := x.num.natAbs
  let d := x.den
  let f := n / d
  let r := n % d
  if 2 * r < d then f
  else if d < 2 * r then f + 1
  else if f % 2 = 0 then f else f + 1

/-- Magnitude of the binary32 number nearest to the positive rational a (ties to
even): 24 significant bits, exponent at least -126 (below that the spacing stays
2^-149), none when the result exceeds the largest finite binary32 number. -/
def roundMag (a : ℚ) : Option ℚ :=
  let e := max (ilog2 a) (-126)
  let quantum := pow2 (e - 23)
  let v := (roundHalfEven (a / quantum) : ℚ) * quantum
  if pow2 128 ≤ v then none else some v

/-- Rounding of an exact non-zero result to binary32, round to nearest, ties to
even; overflow gives an infinity, underflow a zero with the sign of the result. -/
def roundNE (r : ℚ) : F32 :=
  if r = 0 then fin 0
  else if 0 < r then
    match roundMag r with
    | some v => fin v
    | none => inf false
  else
    match roundMag (-r) with
    | some v => if v = 0 then negZero else fin (-v)
    | none => inf true

/-- Sign bit. -/
def signBit : F32 → Bool
  | fin q => decide (q < 0)
  | negZero => true
  | inf neg => neg
  | nan => false

/-- Value of a finite number (0 for the others). -/
def toRat : F32 → ℚ
  | fin q => q
  | _ => 0

/-- Zero with the given sign bit. -/
def zero (neg : Bool) : F32 := if neg then negZero else fin 0

/-- The value is +0 or -0. -/
def isZero : F32 → Bool
  | fin q => decide (q = 0)
  | negZero => true
  | _ => false

/-- Unary minus: flips the sign bit. -/
def neg : F32 → F32
  | fin q => if q = 0 then negZero else fin (-q)
  | negZero => fin 0
  | inf s => inf (!s)
  | nan => nan

/-- Binary32 addition. -/
def add : F32 → F32 → F32
  | nan, _ => nan
  | _, nan => nan
  | inf a, inf b => if a = b then inf a else nan
  | inf a, _ => inf a
  | _, inf b => inf b
  | negZero, negZero => negZero
  | negZero, fin q => fin q
  | fin p, negZero => fin p
  | fin p, fin q => roundNE (p + q)

/-- Binary32 subtraction. -/
def sub (x y : F32) : F32 := add x (neg y)

/-- Binary32 multiplication. -/
def mul : F32 → F32 → F32
  | nan, _ => nan
  | _, nan => nan
  | inf a, y => if y.isZero then nan else inf (xor a y.signBit)
  | x, inf b => if x.isZero then nan else inf (xor x.signBit b)
  | x, y =>
    if x.toRat * y.toRat = 0 then zero (xor x.signBit y.signBit)
    else roundNE (x.toRat * y.toRat)

/-- Binary32 division. -/
def div : F32 → F32 → F32
  | nan, _ => nan
  | _, nan => nan
  | inf _, inf _ => nan
  | inf a, y => inf (xor a y.signBit)
  | x, inf b => zero (xor x.signBit b)
  | x, y =>
    if y.isZero then
      if x.isZero then nan else inf (xor x.signBit y.signBit)
    else if x.isZero then zero (xor x.signBit y.signBit)
    else roundNE (x.toRat / y.toRat)

/-- Largest r below 2^k with r * r ≤ n, found bit by bit from bit k - 1 down. -/
def isqrtAux (n : Nat) : Nat → Nat → Nat
  | 0, r => r
  | k + 1, r => if (r + 2 ^ k) * (r + 2 ^ k) ≤ n then isqrtAux n k (r + 2 ^ k) else isqrtAux n k r

/-- Integer square root (floor). -/
def isqrt (n : Nat) : Nat := isqrtAux n (log2 n / 2 + 1) 0

/-- Magnitude of the binary32 number nearest to the square root of the positive
rational a. The square root of a binary32 number neither overflows nor falls
below the normal range. -/
def sqrtMag (a : ℚ) : ℚ :=
  let e := max (Int.fdiv (ilog2 a) 2) (-126)
  let quantum := pow2 (e - 23)
  let s := a / (quantum * quantum)
  let m := isqrt (s.num.natAbs / s.den)
  let mid := (m : ℚ) + 1 / 2
  if s < mid * mid then (m : ℚ) * quantum
  else if mid * mid < s then ((m + 1 : Nat) : ℚ) * quantum
  else if m % 2 = 0 then (m : ℚ) * quantum else ((m + 1 : Nat) : ℚ) * quantum

/-- Binary32 square root (correctly rounded, as sqrtf). -/
def sqrt : F32 → F32
  | nan => nan
  | inf s => if s then nan else inf false
  | negZero => negZero
  | fin q => if q = 0 then fin 0 else if q < 0 then nan else fin (sqrtMag q)

/-- Comparison <= of binary32 values: false when an operand is NaN, the two
zeros are equal. -/
def le : F32 → F32 → Bool
  | nan, _ => false
  | _, nan => false
  | inf a, inf b => a || !b
  | inf a, _ => a
  | _, inf b => !b
  | x, y => decide (x.toRat ≤ y.toRat)

/-- Comparison < of binary32 values: false when an operand is NaN. -/
def lt : F32 → F32 → Bool
  | nan, _ => false
  | _, nan => false
  | inf a, inf b => a && !b
  | inf a, _ => a
  | _, inf b => !b
  | x, y => decide (x.toRat < y.toRat)

/-- The value is finite: a number or a zero, not an infinity and not NaN. -/
def isFinite : F32 → Bool
  | fin _ => true
  | negZero => true
  | _ => false

/-- The value is a binary32 number: a finite value is 0 or has a magnitude m * 2^e
with m < 2^24 and -149 ≤ e, below 2^128. -/
def isBinary32 : F32 → Bool
  | fin q => decide (roundNE q = fin q)
  | _ => true

end F32

namespace Binary32

/-! ### The tree over binary32 arithmetic -/

/-- Modelled from the spec: the vector type float3 of Math.h (not part of the
sources) with binary32 components m_x, m_y, m_z. -/
@[ext]
structure float3 where
  m_x : F32
  m_y : F32
  m_z : F32
deriving DecidableEq

namespace float3

/-- Modelled from the spec: the single-argument constructor float3{s}, all three
components equal to s. -/
def splat (s : F32) : float3 := ⟨s, s, s⟩

/-- Modelled from the spec: component-wise binary32 sum, operator+ and operator+=. -/
def add (a b : float3) : float3 :=
  ⟨F32.add a.m_x b.m_x, F32.add a.m_y b.m_y, F32.add a.m_z b.m_z⟩

/-- Modelled from the spec: component-wise binary32 difference, operator-. -/
def sub (a b : float3) : float3 :=
  ⟨F32.sub a.m_x b.m_x, F32.sub a.m_y b.m_y, F32.sub a.m_z b.m_z⟩

/-- Modelled from the spec: binary32 multiplication of each component by a scalar,
which is scaleR (returning a copy) and operator*= with a float. -/
def scaleR (a : float3) (s : F32) : float3 :=
  ⟨F32.mul a.m_x s, F32.mul a.m_y s, F32.mul a.m_z s⟩

/-- Modelled from the spec: method addScaled, the receiver plus v times s, each
product and each sum rounded to binary32. -/
def addScaled (a v : float3) (s : F32) : float3 := add a (scaleR v s)

/-- Modelled from the spec: method norm, sqrtf(x*x + y*y + z*z) with every
operation rounded to binary32. -/
def norm (a : float3) : F32 :=
  F32.sqrt (F32.add (F32.add (F32.mul a.m_x a.m_x) (F32.mul a.m_y a.m_y)) (F32.mul a.m_z a.m_z))

/-- The vector of three +0, which is float3 acceleration = {}. -/
def zero : float3 := ⟨F32.fin 0, F32.fin 0, F32.fin 0⟩

end float3

/-- Modelled from the spec: the part of a Particle (Galaxy.h, not part of the
sources) that the tree reads, position and mass, together with the address of the
object, which is what the pointer particle_ holds and compares. -/
structure Particle where
  addr : Nat
  position : float3
  mass : F32
deriving DecidableEq

/-- Data members of a BarnesHutTree node other than the children array. -/
structure NodeFields where
  point : float3
  length : F32
  oppositePoint : float3
  isLeaf : Bool
  particle_ : Option Particle
  totalMass : F32
  massCenter : float3
deriving DecidableEq

/-- A BarnesHutTree node: bare when the four children pointers are null,
quad when the four children are allocated. -/
inductive BarnesHutTree where
  | bare (d : NodeFields)
  | quad (d : NodeFields) (c0 c1 c2 c3 : BarnesHutTree)
deriving DecidableEq

namespace BarnesHutTree

/-- Data members of the node. -/
def data : BarnesHutTree → NodeFields
  | bare d => d
  | quad d _ _ _ _ => d

/-- Replace the data members, keeping the children. -/
def setData : BarnesHutTree → NodeFields → BarnesHutTree
  | bare _, d => bare d
  | quad _ c0 c1 c2 c3, d => quad d c0 c1 c2 c3

/-- Constructor BarnesHutTree(point, length): an empty leaf without children;
oppositePoint = point + float3{length} is a binary32 sum in each component
(line 15). The member massCenter is not initialised by the source; it is taken as
zero (it is not read before a split assigns it). -/
def new (point : float3) (length : F32) : BarnesHutTree :=
  bare
    { point := point
      length := length
      oppositePoint := float3.add point (float3.splat length)
      isLeaf := true
      particle_ := none
      totalMass := F32.fin 0
      massCenter := float3.zero }

/-- Method Reset: back to an empty leaf, children kept. -/
def Reset (t : BarnesHutTree) : BarnesHutTree :=
  t.setData { t.data with isLeaf := true, particle_ := none }

/-- Test of Contains on the data members (lines 133-134): the binary32
comparisons v.m_x >= point.m_x, v.m_x <= oppositePoint.m_x and the same for y. -/
def NodeContains (d : NodeFields) (p : Particle) : Bool :=
  F32.le d.point.m_x p.position.m_x && F32.le p.position.m_x d.oppositePoint.m_x &&
  F32.le d.point.m_y p.position.m_y && F32.le p.position.m_y d.oppositePoint.m_y

/-- Method Contains. -/
def Contains (t : BarnesHutTree) (p : Particle) : Bool :=
  NodeContains t.data p

end BarnesHutTree

/-- The four entries of the children array. -/
structure Quad where
  c0 : BarnesHutTree
  c1 : BarnesHutTree
  c2 : BarnesHutTree
  c3 : BarnesHutTree

/-- Child number i of the children array (i < 4). -/
def Quad.get (cs : Quad) : Nat → BarnesHutTree
  | 0 => cs.c0
  | 1 => cs.c1
  | 2 => cs.c2
  | _ => cs.c3

/-- The children array with child number i replaced (unchanged for i ≥ 4). -/
def Quad.set (cs : Quad) (i : Nat) (c : BarnesHutTree) : Quad :=
  match i with
  | 0 => { cs with c0 := c }
  | 1 => { cs with c1 := c }
  | 2 => { cs with c2 := c }
  | 3 => { cs with c3 := c }
  | _ => cs

/-- How an insertion can end without the particle being stored in a leaf. -/
inductive Loss where
  | depth
  | routing
deriving DecidableEq

namespace BarnesHutTree

/-- The loop `for i in 0..3: if children[i]->Contains(p) then children[i]->f(); break`:
the first child in array order that contains p is replaced by its image under f;
when no child contains p the loop ends without a call. -/
def route (p : Particle) (f : BarnesHutTree → BarnesHutTree) (cs : Quad) : Quad :=
  if cs.c0.Contains p then { cs with c0 := f cs.c0 }
  else if cs.c1.Contains p then { cs with c1 := f cs.c1 }
  else if cs.c2.Contains p then { cs with c2 := f cs.c2 }
  else if cs.c3.Contains p then { cs with c3 := f cs.c3 }
  else cs

/-- Index of the child the routing loop selects for p: the first one in array
order whose Contains test succeeds, 4 when none does. -/
def selIdx (p : Particle) (cs : Quad) : Nat :=
  if cs.c0.Contains p then 0
  else if cs.c1.Contains p then 1
  else if cs.c2.Contains p then 2
  else if cs.c3.Contains p then 3
  else 4

/-- Children of a leaf that is being split: allocated on the first split
(lines 52-65, nl = 0.5f * length, x = point.m_x + nl, y = point.m_y + nl in
binary32), reset and reused afterwards (lines 70-73). -/
def splitChildren : BarnesHutTree → Quad
  | bare d =>
    let nl := F32.mul (F32.fin (1 / 2)) d.length
    let x := F32.add d.point.m_x nl
    let y := F32.add d.point.m_y nl
    let np1 : float3 := ⟨x, d.point.m_y, F32.fin 0⟩
    let np2 : float3 := ⟨x, y, F32.fin 0⟩
    let np3 : float3 := ⟨d.point.m_x, y, F32.fin 0⟩
    ⟨new d.point nl, new np1 nl, new np2 nl, new np3 nl⟩
  | quad _ c0 c1 c2 c3 => ⟨c0.Reset, c1.Reset, c2.Reset, c3.Reset⟩

/-- Body of Insert, with the recursion depth bounded by a counter. The counter
is only a device for structural recursion: Insert below supplies enough of it
(insertAux_enough32) and satisfies the equations of the source with Insert itself
in the recursive positions (Insert_store32, Insert_split32, Insert_internal32).
Every arithmetic operation is the binary32 one, in the order of the source:
lines 97-102 on a split, lines 110-116 on an internal node.

An internal node without children does not arise (the split allocates them); the
source would dereference null there, the model leaves the children absent. -/
def insertAux : Nat → BarnesHutTree → Particle → Nat → BarnesHutTree
  | 0, t, _, _ => t
  | fuel + 1, t, p, level =>
    if !t.Contains p then t
    else if level > cMaxTreeLevel then t
    else
      let d := t.data
      if d.isLeaf then
        match d.particle_ with
        | none => t.setData { d with particle_ := some p }
        | some q =>
          let cs := splitChildren t
          let cs := route q (fun c => insertAux fuel c q (level + 1)) cs
          let cs := route p (fun c => insertAux fuel c p (level + 1)) cs
          let totalMass := F32.add q.mass p.mass
          let massCenter := p.position.scaleR p.mass
          let massCenter := massCenter.addScaled q.position q.mass
          let massCenter := massCenter.scaleR (F32.div (F32.fin 1) totalMass)
          quad { d with isLeaf := false, totalMass := totalMass, massCenter := massCenter }
            cs.c0 cs.c1 cs.c2 cs.c3
      else
        let total := F32.add d.totalMass p.mass
        let massCenter := d.massCenter.scaleR d.totalMass
        let massCenter := massCenter.addScaled p.position p.mass
        let massCenter := massCenter.scaleR (F32.div (F32.fin 1) total)
        let d1 := { d with massCenter := massCenter, totalMass := total }
        match t with
        | bare _ => bare d1
        | quad _ c0 c1 c2 c3 =>
          let cs := route p (fun c => insertAux fuel c p (level + 1)) ⟨c0, c1, c2, c3⟩
          quad d1 cs.c0 cs.c1 cs.c2 cs.c3

/-- Method Insert(p, level). A call at level L recurses only to level L + 1 and
returns at once when L exceeds cMaxTreeLevel, so 52 - L nested calls suffice. -/
def Insert (t : BarnesHutTree) (p : Particle) (level : Nat) : BarnesHutTree :=
  insertAux (cMaxTreeLevel + 2 - level) t p level

/-- Ghost companion of route: what a logging function reports for the child that
the loop selects; when no child contains p the loop ends without a call and the
particle is logged as lost by the routing. -/
def routeLog (p : Particle) (g : BarnesHutTree → List (Loss × Particle)) (cs : Quad) :
    List (Loss × Particle) :=
  if cs.c0.Contains p then g cs.c0
  else if cs.c1.Contains p then g cs.c1
  else if cs.c2.Contains p then g cs.c2
  else if cs.c3.Contains p then g cs.c3
  else [(Loss.routing, p)]

/-- Ghost companion of insertAux: the particles whose insertion ended without
their being stored, in the outer call or a nested one: Loss.depth when a call
returned at the depth check of lines 31-34, Loss.routing when one of the loops of
lines 77-84, 87-94, 119-126 found no child that contains the particle. -/
def lossesAux : Nat → BarnesHutTree → Particle → Nat → List (Loss × Particle)
  | fuel, t, p, level =>
    if !t.Contains p then []
    else if level > cMaxTreeLevel then [(Loss.depth, p)]
    else
      match fuel with
      | 0 => []
      | fuel + 1 =>
        let d := t.data
        if d.isLeaf then
          match d.particle_ with
          | none => []
          | some q =>
            let cs := splitChildren t
            let lq := routeLog q (fun c => lossesAux fuel c q (level + 1)) cs
            let cs := route q (fun c => insertAux fuel c q (level + 1)) cs
            lq ++ routeLog p (fun c => lossesAux fuel c p (level + 1)) cs
        else
          match t with
          | bare _ => [(Loss.routing, p)]
          | quad _ c0 c1 c2 c3 =>
            routeLog p (fun c => lossesAux fuel c p (level + 1)) ⟨c0, c1, c2, c3⟩

/-- Ghost log of Insert(p, level): the insertions that ended without storing. -/
def losses (t : BarnesHutTree) (p : Particle) (level : Nat) : List (Loss × Particle) :=
  lossesAux (cMaxTreeLevel + 2 - level) t p level

/-- A list of particles inserted one after another with the given level. -/
def InsertAllAt (level : Nat) (t : BarnesHutTree) (ps : List Particle) : BarnesHutTree :=
  ps.foldl (fun t p => Insert t p level) t

/-- A list of particles inserted one after another with level 0. -/
def InsertAll (t : BarnesHutTree) (ps : List Particle) : BarnesHutTree :=
  InsertAllAt 0 t ps

/-- The routing loop run for each particle of a list in turn, the selected child
receiving Insert at the given level: what a node does to its children array while
the particles of the list pass through it. -/
def routeAll (level : Nat) (cs : Quad) (l : List Particle) : Quad :=
  l.foldl (fun cs x => route x (fun c => Insert c x level) cs) cs

/-- Ghost log of a list of insertions with the given level. -/
def lossesAllAt (level : Nat) : BarnesHutTree → List Particle → List (Loss × Particle)
  | _, [] => []
  | t, p :: ps => losses t p level ++ lossesAllAt level (Insert t p level) ps

/-- Particles dropped at the depth limit while the list is inserted with the given
level: a call of Insert for them returned at lines 31-34. -/
def droppedAllAt (level : Nat) (t : BarnesHutTree) (ps : List Particle) : List Particle :=
  ((lossesAllAt level t ps).filter (fun e => decide (e.1 = Loss.depth))).map Prod.snd

/-- Particles that fell out of a routing loop while the list is inserted with the
given level: no child of the node contained them. -/
def lostAllAt (level : Nat) (t : BarnesHutTree) (ps : List Particle) : List Particle :=
  ((lossesAllAt level t ps).filter (fun e => decide (e.1 = Loss.routing))).map Prod.snd

/-- Particles dropped at the depth limit while a list is inserted with level 0. -/
def droppedAll (t : BarnesHutTree) (ps : List Particle) : List Particle :=
  droppedAllAt 0 t ps

/-- Particles that fell out of a routing loop while a list is inserted with level 0. -/
def lostAll (t : BarnesHutTree) (ps : List Particle) : List Particle :=
  lostAllAt 0 t ps

/-- Data members of the leaves reachable from the node, that is, through the
children of nodes with isLeaf = false, in traversal order. -/
def reachableLeaves : BarnesHutTree → List NodeFields
  | bare d => if d.isLeaf then [d] else []
  | quad d c0 c1 c2 c3 =>
    if d.isLeaf then [d]
    else reachableLeaves c0 ++ reachableLeaves c1 ++ reachableLeaves c2 ++ reachableLeaves c3

/-- Particles referenced by the reachable leaves, in traversal order. -/
def storedParticles : BarnesHutTree → List Particle
  | bare d => if d.isLeaf then d.particle_.toList else []
  | quad d c0 c1 c2 c3 =>
    if d.isLeaf then d.particle_.toList
    else storedParticles c0 ++ storedParticles c1 ++ storedParticles c2 ++ storedParticles c3

/-- Nodes reachable from the node, itself included, parents before children. -/
def reachableNodes : BarnesHutTree → List BarnesHutTree
  | bare d => [bare d]
  | quad d c0 c1 c2 c3 =>
    if d.isLeaf then [quad d c0 c1 c2 c3]
    else quad d c0 c1 c2 c3 ::
      (reachableNodes c0 ++ reachableNodes c1 ++ reachableNodes c2 ++ reachableNodes c3)

end BarnesHutTree

/-- Modelled from the spec: the two overloads of GravityAcceleration declared in
Math.h, which is not part of the sources; the law is a parameter: direct is
GravityAcceleration(vec, mass, softFactor), withNorm is
GravityAcceleration(vec, mass, softFactor, r). -/
structure GravityLaw where
  direct : float3 → F32 → F32 → float3
  withNorm : float3 → F32 → F32 → F32 → float3

/-- The literal 0.7f: the binary32 number nearest to 7/10, which is
11744051 / 16777216 = 0.699999988079071044921875. -/
def theta07 : F32 := F32.fin (11744051 / 16777216)

namespace BarnesHutTree

/-- Body of ComputeAcceleration on the data members of a node; childrenSum is the
value of the loop over the four children (lines 169-172). On an internal node
vec = massCenter - particle.position, r = vec.norm() and theta = length / r are
binary32 values and the test is theta < 0.7f (lines 156-162). -/
def accelerationAt (G : GravityLaw) (d : NodeFields) (particle : Particle) (softFactor : F32)
    (childrenSum : float3) : float3 :=
  match d.isLeaf, d.particle_ with
  | true, some q =>
    if q.addr ≠ particle.addr then
      G.direct (q.position.sub particle.position) q.mass softFactor
    else float3.zero
  | true, none => float3.zero
  | false, _ =>
    let vec := d.massCenter.sub particle.position
    let r := vec.norm
    let theta := F32.div d.length r
    if F32.lt theta theta07 then G.withNorm vec d.totalMass softFactor r
    else childrenSum

/-- Method ComputeAcceleration(particle, softFactor). The accumulator starts at
zero and the children are added in array order, each sum in binary32. For an
internal node without children (which does not arise) the loop contributes
nothing. -/
def ComputeAcceleration (G : GravityLaw) : BarnesHutTree → Particle → F32 → float3
  | bare d, particle, softFactor => accelerationAt G d particle softFactor float3.zero
  | quad d c0 c1 c2 c3, particle, softFactor =>
    accelerationAt G d particle softFactor
      ((((float3.zero.add (ComputeAcceleration G c0 particle softFactor)).add
        (ComputeAcceleration G c1 particle softFactor)).add
        (ComputeAcceleration G c2 particle softFactor)).add
        (ComputeAcceleration G c3 particle softFactor))

end BarnesHutTree

/-- Property of each of the four children. -/
def Quad.All (P : BarnesHutTree → Prop) (cs : Quad) : Prop :=
  P cs.c0 ∧ P cs.c1 ∧ P cs.c2 ∧ P cs.c3

/-- Particles referenced by the reachable leaves below the four children. -/
def Quad.stored (cs : Quad) : List Particle :=
  BarnesHutTree.storedParticles cs.c0 ++ BarnesHutTree.storedParticles cs.c1 ++
    BarnesHutTree.storedParticles cs.c2 ++ BarnesHutTree.storedParticles cs.c3

namespace BarnesHutTree

/-- The square of a node is the one its constructor sets up (line 15). -/
def GeomNode (d : NodeFields) : Prop :=
  d.oppositePoint = float3.add d.point (float3.splat d.length)

/-- The four children are the quadrants the split allocates for a node
(lines 53-65), origins and side computed in binary32. -/
def ChildGeom (d : NodeFields) (cs : Quad) : Prop :=
  (cs.c0.data.point = d.point ∧ cs.c0.data.length = F32.mul (F32.fin (1 / 2)) d.length) ∧
  (cs.c1.data.point =
      ⟨F32.add d.point.m_x (F32.mul (F32.fin (1 / 2)) d.length), d.point.m_y, F32.fin 0⟩ ∧
    cs.c1.data.length = F32.mul (F32.fin (1 / 2)) d.length) ∧
  (cs.c2.data.point =
      ⟨F32.add d.point.m_x (F32.mul (F32.fin (1 / 2)) d.length),
        F32.add d.point.m_y (F32.mul (F32.fin (1 / 2)) d.length), F32.fin 0⟩ ∧
    cs.c2.data.length = F32.mul (F32.fin (1 / 2)) d.length) ∧
  (cs.c3.data.point =
      ⟨d.point.m_x, F32.add d.point.m_y (F32.mul (F32.fin (1 / 2)) d.length), F32.fin 0⟩ ∧
    cs.c3.data.length = F32.mul (F32.fin (1 / 2)) d.length)

/-- Geometry of a node and of everything allocated below it, reachable or not:
what the constructor and the split set up and nothing modifies afterwards. Every
tree the code can build has it (Built_geom32). -/
def Geom : BarnesHutTree → Prop
  | bare d => GeomNode d
  | quad d c0 c1 c2 c3 =>
    GeomNode d ∧ ChildGeom d ⟨c0, c1, c2, c3⟩ ∧ Geom c0 ∧ Geom c1 ∧ Geom c2 ∧ Geom c3

/-- Every reachable leaf that references a particle contains it according to
Contains. -/
def LeafOK : BarnesHutTree → Prop
  | bare d => d.isLeaf = true → ∀ q, d.particle_ = some q → NodeContains d q = true
  | quad d c0 c1 c2 c3 =>
    (d.isLeaf = true → ∀ q, d.particle_ = some q → NodeContains d q = true) ∧
    (d.isLeaf = false → LeafOK c0 ∧ LeafOK c1 ∧ LeafOK c2 ∧ LeafOK c3)

/-- The trees the code can build: a node fresh from the constructor, and what
Reset and Insert make of such a tree. -/
inductive Built : BarnesHutTree → Prop
  | new (point : float3) (length : F32) : Built (BarnesHutTree.new point length)
  | reset (t : BarnesHutTree) : Built t → Built t.Reset
  | insert (t : BarnesHutTree) (p : Particle) (level : Nat) : Built t → Built (t.Insert p level)

/-- An empty leaf: isLeaf set and no particle referenced (a node fresh from the
constructor, or after Reset). -/
def EmptyLeaf (t : BarnesHutTree) : Prop :=
  t.data.isLeaf = true ∧ t.data.particle_ = none

end BarnesHutTree

/-- The children array as a list: empty when the pointers are null. -/
def childList : BarnesHutTree → List BarnesHutTree
  | BarnesHutTree.bare _ => []
  | BarnesHutTree.quad _ c0 c1 c2 c3 => [c0, c1, c2, c3]

/-- Same (x, y) coordinates. -/
def SameXY (p q : Particle) : Prop :=
  p.position.m_x = q.position.m_x ∧ p.position.m_y = q.position.m_y

/-- totalMass and massCenter that a split assigns (lines 97-102) when the leaf
held q and p is inserted. -/
def splitAggregates (q p : Particle) : F32 × float3 :=
  (F32.add q.mass p.mass,
    ((p.position.scaleR p.mass).addScaled q.position q.mass).scaleR
      (F32.div (F32.fin 1) (F32.add q.mass p.mass)))

/-- totalMass and massCenter of an internal node after the update of lines 110-116
for the particle p. -/
def updateAggregates (a : F32 × float3) (p : Particle) : F32 × float3 :=
  (F32.add a.1 p.mass,
    ((a.2.scaleR a.1).addScaled p.position p.mass).scaleR
      (F32.div (F32.fin 1) (F32.add a.1 p.mass)))

/-- Binary32 sum of the masses of a list of particles, accumulated from the left in
the order of the list: ((m1 + m2) + m3) + ... -/
def massAccumulated : List Particle → F32
  | [] => F32.fin 0
  | q :: rest => rest.foldl (fun m x => F32.add m x.mass) q.mass

/-- totalMass and massCenter accumulated in binary32 over a list of at least two
particles in the order of the list: the split for the first two, one update for
each further one. -/
def aggregatesOf : List Particle → Option (F32 × float3)
  | q :: p :: rest => some (rest.foldl updateAggregates (splitAggregates q p))
  | _ => none

/-! ### Sample data for the concrete instances over binary32 -/

/-- Vector with the given finite components. -/
def vec (x y z : ℚ) : float3 := ⟨F32.fin x, F32.fin y, F32.fin z⟩

/-- Root covering the unit square at the origin. -/
def unitRoot : BarnesHutTree := BarnesHutTree.new (vec 0 0 0) (F32.fin 1)

/-- Particle of mass 1 at the origin. -/
def bodyA : Particle := ⟨1, vec 0 0 0, F32.fin 1⟩

/-- A second particle of mass 1 at the origin. -/
def bodyB : Particle := ⟨2, vec 0 0 0, F32.fin 1⟩

/-- Particle of mass 1 at the corner (1, 1). -/
def bodyC : Particle := ⟨3, vec 1 1 0, F32.fin 1⟩

/-- Particle of mass 1 at the corner (1, 0). -/
def bodyE : Particle := ⟨5, vec 1 0 0, F32.fin 1⟩

/-- Particle of mass 2^24 at the corner (1, 1). -/
def bodyHeavy : Particle := ⟨6, vec 1 1 0, F32.fin 16777216⟩

/-- Particle of mass 1 at (0.1f, 0.3f); 0.1f is 13421773 / 134217728. -/
def tenthA : Particle := ⟨7, vec (13421773 / 134217728) (5033165 / 16777216) 0, F32.fin 1⟩

/-- A second particle of mass 1 at (0.1f, 0.3f). -/
def tenthB : Particle := ⟨8, vec (13421773 / 134217728) (5033165 / 16777216) 0, F32.fin 1⟩

/-- Particle of mass 1 at the centre (1/2, 1/2) of the unit square. -/
def bodyCentre : Particle := ⟨9, vec (1 / 2) (1 / 2) 0, F32.fin 1⟩

/-- Particle of mass -1 at the corner (1, 1). -/
def bodyMinus : Particle := ⟨10, vec 1 1 0, F32.fin (-1)⟩

/-- Data members of the unit root when it is internal with total mass 2. -/
def unitNode : NodeFields :=
  { point := vec 0 0 0
    length := F32.fin 1
    oppositePoint := vec 1 1 1
    isLeaf := false
    particle_ := none
    totalMass := F32.fin 2
    massCenter := vec 0 0 0 }

/-- Child 0 of the split of the unit square. -/
def unitChild0 : BarnesHutTree := BarnesHutTree.new (vec 0 0 0) (F32.fin (1 / 2))

/-- Child 1 of the split of the unit square. -/
def unitChild1 : BarnesHutTree := BarnesHutTree.new (vec (1 / 2) 0 0) (F32.fin (1 / 2))

/-- Child 2 of the split of the unit square. -/
def unitChild2 : BarnesHutTree := BarnesHutTree.new (vec (1 / 2) (1 / 2) 0) (F32.fin (1 / 2))

/-- Child 3 of the split of the unit square. -/
def unitChild3 : BarnesHutTree := BarnesHutTree.new (vec 0 (1 / 2) 0) (F32.fin (1 / 2))

/-- Particle of mass 1 at (0.75, 0). -/
def thinQ : Particle := ⟨11, vec (3 / 4) 0 0, F32.fin 1⟩

/-- Particle of mass 1 at (0.75, 2^-24). -/
def thinP : Particle := ⟨12, vec (3 / 4) (1 / 16777216) 0, F32.fin 1⟩

/-- Particle of mass 1 at (0.75 + 2^-24, 0), on the right edge of thinLeaf. -/
def thinR : Particle := ⟨13, vec (12582913 / 16777216) 0 0, F32.fin 1⟩

/-- A leaf with origin (0.75, 0) and side 2^-24, one unit in the last place of
0.75, that holds thinQ: the square of a node 24 levels below a unit root. -/
def thinLeaf : BarnesHutTree :=
  BarnesHutTree.Insert (BarnesHutTree.new (vec (3 / 4) 0 0) (F32.fin (1 / 16777216))) thinQ 0

/-- An internal node of side 0.7f with total mass 2 and centroid (1, 0, 0), its
four children empty leaves. -/
def openNode : BarnesHutTree :=
  BarnesHutTree.quad
    { point := vec 0 0 0
      length := theta07
      oppositePoint := float3.add (vec 0 0 0) (float3.splat theta07)
      isLeaf := false
      particle_ := none
      totalMass := F32.fin 2
      massCenter := vec 1 0 0 }
    (BarnesHutTree.new (vec 0 0 0) (F32.fin (1 / 4)))
    (BarnesHutTree.new (vec (1 / 4) 0 0) (F32.fin (1 / 4)))
    (BarnesHutTree.new (vec (1 / 4) (1 / 4) 0) (F32.fin (1 / 4)))
    (BarnesHutTree.new (vec 0 (1 / 4) 0) (F32.fin (1 / 4)))

/-- Particle of mass 1 at (3, 4, 0), far from the unit square. -/
def bodyFar : Particle := ⟨14, vec 3 4 0, F32.fin 1⟩

/-- Root with origin (1024, 1024) and side 2^-12, two units in the last place of
1024. -/
def offsetRoot : BarnesHutTree := BarnesHutTree.new (vec 1024 1024 0) (F32.fin (1 / 4096))

/-- Particle of mass 1 at the origin (1024, 1024) of offsetRoot. -/
def offsetA : Particle := ⟨15, vec 1024 1024 0, F32.fin 1⟩

/-- Particle of mass 254 at (1024, 1024 + 2^-12), on the upper edge of offsetRoot. -/
def offsetB : Particle := ⟨16, vec 1024 (4194305 / 4096) 0, F32.fin 254⟩

/-- Particle of mass 1 above the corner (1, 1), at height 4. -/
def bodyHigh : Particle := ⟨17, vec 1 1 4, F32.fin 1⟩

/-- Particle of mass 1 at (0.75f, 0.3f); 0.3f is 5033165 / 16777216. -/
def nearA : Particle := ⟨1, vec (3 / 4) (5033165 / 16777216) 0, F32.fin 1⟩

/-- Particle of mass 1 one unit in the last place to the right of nearA, at
(0.75 + 2^-24, 0.3f). -/
def nearB : Particle := ⟨2, vec (12582913 / 16777216) (5033165 / 16777216) 0, F32.fin 1⟩

end Binary32

namespace float3

theorem add_def (a b : float3) :
    a + b = ⟨a.m_x + b.m_x, a.m_y + b.m_y, a.m_z + b.m_z⟩ := rfl

theorem sub_def (a b : float3) :
    a - b = ⟨a.m_x - b.m_x, a.m_y - b.m_y, a.m_z - b.m_z⟩ := rfl

theorem zero_def : (0 : float3) = ⟨0, 0, 0⟩ := rfl

end float3

namespace BarnesHutTree

@[simp]
theorem data_bare (d : NodeFields) : (bare d).data = d := rfl

@[simp]
theorem data_quad (d : NodeFields) (c0 c1 c2 c3 : BarnesHutTree) :
    (quad d c0 c1 c2 c3).data = d := rfl

@[simp]
theorem data_setData (t : BarnesHutTree) (d : NodeFields) : (t.setData d).data = d := by
  cases t <;> rfl

theorem Geom_node (t : BarnesHutTree) (h : Geom t) : GeomNode t.data := by
  cases t with
  | bare d => exact h
  | quad d c0 c1 c2 c3 => exact h.1

theorem Geom_setData (t : BarnesHutTree) (d : NodeFields) (h : Geom t)
    (hp : d.point = t.data.point) (hl : d.length = t.data.length)
    (ho : d.oppositePoint = t.data.oppositePoint) : Geom (t.setData d) := by
  cases t with
  | bare d0 =>
    simp only [setData, Geom, GeomNode, data_bare] at *
    rw [ho, hp, hl]; exact h
  | quad d0 c0 c1 c2 c3 =>
    simp only [setData, Geom, GeomNode, ChildGeom, data_quad] at *
    rw [ho, hp, hl]; exact h

theorem Geom_Reset (t : BarnesHutTree) (h : Geom t) : Geom t.Reset :=
  Geom_setData t _ h rfl rfl rfl

theorem Geom_new (point : float3) (length : ℚ) : Geom (new point length) := by
  simp [new, Geom, GeomNode]

theorem EmptyLeaf_Reset (t : BarnesHutTree) : EmptyLeaf t.Reset := by
  simp [EmptyLeaf, Reset]

theorem EmptyLeaf_new (point : float3) (length : ℚ) : EmptyLeaf (new point length) := by
  simp [EmptyLeaf, new]

theorem stored_of_leaf (t : BarnesHutTree) (h : t.data.isLeaf = true) :
    storedParticles t = t.data.particle_.toList := by
  cases t <;> simp_all [storedParticles]

theorem stored_EmptyLeaf (t : BarnesHutTree) (h : EmptyLeaf t) : storedParticles t = [] := by
  rw [stored_of_leaf t h.1, h.2]; rfl

theorem Inv_of_leaf (t : BarnesHutTree) (h : t.data.isLeaf = true)
    (hc : ∀ q ∈ t.data.particle_, NodeContains t.data q = true) : Inv t := by
  cases t with
  | bare d =>
    simp only [data_bare] at h hc
    simp [Inv, storedParticles, h]; exact hc
  | quad d c0 c1 c2 c3 =>
    simp only [data_quad] at h hc
    simp [Inv, storedParticles, h]; exact hc

theorem Inv_EmptyLeaf (t : BarnesHutTree) (h : EmptyLeaf t) : Inv t :=
  Inv_of_leaf t h.1 (by simp [h.2])

theorem Inv_stored (t : BarnesHutTree) (h : Inv t) :
    ∀ q ∈ storedParticles t, NodeContains t.data q = true := by
  cases t with
  | bare d => exact h.2
  | quad d c0 c1 c2 c3 => exact h.1

/-- The frame of a node: the members that fix its square. -/
theorem Contains_congr (s t : BarnesHutTree) (p : Particle)
    (hp : s.data.point = t.data.point) (ho : s.data.oppositePoint = t.data.oppositePoint) :
    s.Contains p = t.Contains p := by
  simp [Contains, NodeContains, hp, ho]

/-! ### The routing loop -/

theorem route_all (P : BarnesHutTree → Prop) (p : Particle) (f : BarnesHutTree → BarnesHutTree)
    (cs : Quad) (h : cs.All P) (hf : ∀ c, P c → c.Contains p = true → P (f c)) :
    (route p f cs).All P := by
  obtain ⟨h0, h1, h2, h3⟩ := h
  unfold route
  split_ifs with a0 a1 a2 a3
  · exact ⟨hf _ h0 a0, h1, h2, h3⟩
  · exact ⟨h0, hf _ h1 a1, h2, h3⟩
  · exact ⟨h0, h1, hf _ h2 a2, h3⟩
  · exact ⟨h0, h1, h2, hf _ h3 a3⟩
  · exact ⟨h0, h1, h2, h3⟩

theorem route_childGeom (d : NodeFields) (p : Particle) (f : BarnesHutTree → BarnesHutTree)
    (cs : Quad) (h : ChildGeom d cs)
    (hf : ∀ c, (f c).data.point = c.data.point ∧ (f c).data.length = c.data.length) :
    ChildGeom d (route p f cs) := by
  obtain ⟨h0, h1, h2, h3⟩ := h
  unfold route
  split_ifs with a0 a1 a2 a3
  · exact ⟨by rw [(hf _).1, (hf _).2]; exact h0, h1, h2, h3⟩
  · exact ⟨h0, by rw [(hf _).1, (hf _).2]; exact h1, h2, h3⟩
  · exact ⟨h0, h1, by rw [(hf _).1, (hf _).2]; exact h2, h3⟩
  · exact ⟨h0, h1, h2, by rw [(hf _).1, (hf _).2]; exact h3⟩
  · exact ⟨h0, h1, h2, h3⟩

/-- Bookkeeping of the routing loop: the particle ends up stored or logged,
below the child the loop selected, and nothing else changes. -/
theorem route_perm (P : BarnesHutTree → Prop) (p : Particle)
    (f : BarnesHutTree → BarnesHutTree) (g : BarnesHutTree → List Particle) (cs : Quad)
    (h : cs.All P)
    (hc : cs.c0.Contains p = true ∨ cs.c1.Contains p = true ∨ cs.c2.Contains p = true ∨
      cs.c3.Contains p = true)
    (hf : ∀ c, P c → c.Contains p = true →
      (storedParticles (f c) ++ g c).Perm (p :: storedParticles c)) :
    ((route p f cs).stored ++ routeLog p g cs).Perm (p :: cs.stored) := by
  obtain ⟨h0, h1, h2, h3⟩ := h
  unfold route routeLog Quad.stored
  split_ifs with a0 a1 a2 a3
  · have e := hf _ h0 a0
    rw [List.perm_iff_count] at e ⊢
    intro a
    have := e a
    simp only [List.count_append, List.count_cons] at this ⊢
    omega
  · have e := hf _ h1 a1
    rw [List.perm_iff_count] at e ⊢
    intro a
    have := e a
    simp only [List.count_append, List.count_cons] at this ⊢
    omega
  · have e := hf _ h2 a2
    rw [List.perm_iff_count] at e ⊢
    intro a
    have := e a
    simp only [List.count_append, List.count_cons] at this ⊢
    omega
  · have e := hf _ h3 a3
    rw [List.perm_iff_count] at e ⊢
    intro a
    have := e a
    simp only [List.count_append, List.count_cons] at this ⊢
    omega
  · simp_all

/-- The four quadrants cover the closed square of their parent. -/
theorem covering (d : NodeFields) (cs : Quad) (p : Particle) (hd : GeomNode d)
    (hg : ChildGeom d cs) (hc : cs.All (fun c => GeomNode c.data))
    (h : NodeContains d p = true) :
    cs.c0.Contains p = true ∨ cs.c1.Contains p = true ∨ cs.c2.Contains p = true ∨
      cs.c3.Contains p = true := by
  obtain ⟨⟨p0, l0⟩, ⟨p1, l1⟩, ⟨p2, l2⟩, ⟨p3, l3⟩⟩ := hg
  obtain ⟨g0, g1, g2, g3⟩ := hc
  simp only [Contains, NodeContains, GeomNode, Bool.and_eq_true, decide_eq_true_eq] at *
  rw [g0, g1, g2, g3, p0, p1, p2, p3, l0, l1, l2, l3]
  rw [hd] at h
  simp only [float3.add_def, float3.splat] at h ⊢
  obtain ⟨⟨⟨hx0, hx1⟩, hy0⟩, hy1⟩ := h
  rcases le_total p.position.m_x (d.point.m_x + 1 / 2 * d.length) with hx | hx <;>
    rcases le_total p.position.m_y (d.point.m_y + 1 / 2 * d.length) with hy | hy
  · left
    exact ⟨⟨⟨hx0, hx⟩, hy0⟩, hy⟩
  · right; right; right
    exact ⟨⟨⟨hx0, hx⟩, hy⟩, by linarith⟩
  · right; left
    exact ⟨⟨⟨hx, by linarith⟩, hy0⟩, hy⟩
  · right; right; left
    exact ⟨⟨⟨hx, by linarith⟩, hy⟩, by linarith⟩

theorem splitChildren_spec (t : BarnesHutTree) (h : Geom t) :
    ChildGeom t.data (splitChildren t) ∧ (splitChildren t).All Geom ∧
      (splitChildren t).All EmptyLeaf := by
  cases t with
  | bare d =>
    refine ⟨?_, ?_, ?_⟩
    · simp [splitChildren, ChildGeom, new]
    · exact ⟨Geom_new _ _, Geom_new _ _, Geom_new _ _, Geom_new _ _⟩
    · exact ⟨EmptyLeaf_new _ _, EmptyLeaf_new _ _, EmptyLeaf_new _ _, EmptyLeaf_new _ _⟩
  | quad d c0 c1 c2 c3 =>
    obtain ⟨-, hg, g0, g1, g2, g3⟩ := h
    refine ⟨?_, ?_, ?_⟩
    · simpa [splitChildren, ChildGeom, Reset] using hg
    · exact ⟨Geom_Reset _ g0, Geom_Reset _ g1, Geom_Reset _ g2, Geom_Reset _ g3⟩
    · exact ⟨EmptyLeaf_Reset _, EmptyLeaf_Reset _, EmptyLeaf_Reset _, EmptyLeaf_Reset _⟩

/-! ### Unfolding Insert -/

theorem insertAux_out (n : Nat) (t : BarnesHutTree) (p : Particle) (level : Nat)
    (h : t.Contains p = false ∨ level > cMaxTreeLevel) : insertAux n t p level = t := by
  cases n with
  | zero => rfl
  | succ n =>
    rcases h with h | h
    · simp [insertAux, h]
    · simp [insertAux, h]

theorem insertAux_store (n : Nat) (t : BarnesHutTree) (p : Particle) (level : Nat)
    (hc : t.Contains p = true) (hl : level ≤ cMaxTreeLevel) (hleaf : t.data.isLeaf = true)
    (hn : t.data.particle_ = none) :
    insertAux (n + 1) t p level = t.setData { t.data with particle_ := some p } := by
  simp [insertAux, hc, Nat.not_lt.mpr hl, hleaf, hn]

theorem insertAux_split (n : Nat) (t : BarnesHutTree) (p q : Particle) (level : Nat)
    (hc : t.Contains p = true) (hl : level ≤ cMaxTreeLevel) (hleaf : t.data.isLeaf = true)
    (hq : t.data.particle_ = some q) :
    insertAux (n + 1) t p level =
      quad { t.data with
              isLeaf := false
              totalMass := q.mass + p.mass
              massCenter :=
                (((p.position.scaleR p.mass).addScaled q.position q.mass).scaleR
                  (1 / (q.mass + p.mass))) }
        (route p (fun c => insertAux n c p (level + 1))
          (route q (fun c => insertAux n c q (level + 1)) (splitChildren t))).c0
        (route p (fun c => insertAux n c p (level + 1))
          (route q (fun c => insertAux n c q (level + 1)) (splitChildren t))).c1
        (route p (fun c => insertAux n c p (level + 1))
          (route q (fun c => insertAux n c q (level + 1)) (splitChildren t))).c2
        (route p (fun c => insertAux n c p (level + 1))
          (route q (fun c => insertAux n c q (level + 1)) (splitChildren t))).c3 := by
  simp [insertAux, hc, Nat.not_lt.mpr hl, hleaf, hq]

theorem insertAux_internal (n : Nat) (d : NodeFields) (c0 c1 c2 c3 : BarnesHutTree)
    (p : Particle) (level : Nat)
    (hc : (quad d c0 c1 c2 c3).Contains p = true) (hl : level ≤ cMaxTreeLevel)
    (hleaf : d.isLeaf = false) :
    insertAux (n + 1) (quad d c0 c1 c2 c3) p level =
      quad { d with
              massCenter :=
                (((d.massCenter.scaleR d.totalMass).addScaled p.position p.mass).scaleR
                  (1 / (d.totalMass + p.mass)))
              totalMass := d.totalMass + p.mass }
        (route p (fun c => insertAux n c p (level + 1)) ⟨c0, c1, c2, c3⟩).c0
        (route p (fun c => insertAux n c p (level + 1)) ⟨c0, c1, c2, c3⟩).c1
        (route p (fun c => insertAux n c p (level + 1)) ⟨c0, c1, c2, c3⟩).c2
        (route p (fun c => insertAux n c p (level + 1)) ⟨c0, c1, c2, c3⟩).c3 := by
  simp [insertAux, hc, Nat.not_lt.mpr hl, hleaf]

theorem insertAux_internal_bare (n : Nat) (d : NodeFields) (p : Particle) (level : Nat)
    (hc : (bare d).Contains p = true) (hl : level ≤ cMaxTreeLevel)
    (hleaf : d.isLeaf = false) :
    insertAux (n + 1) (bare d) p level =
      bare { d with
              massCenter :=
                (((d.massCenter.scaleR d.totalMass).addScaled p.position p.mass).scaleR
                  (1 / (d.totalMass + p.mass)))
              totalMass := d.totalMass + p.mass } := by
  simp [insertAux, hc, Nat.not_lt.mpr hl, hleaf]

theorem droppedAux_out (n : Nat) (t : BarnesHutTree) (p : Particle) (level : Nat)
    (h : t.Contains p = false) : droppedAux n t p level = [] := by
  cases n <;> simp [droppedAux, h]

theorem droppedAux_deep (n : Nat) (t : BarnesHutTree) (p : Particle) (level : Nat)
    (hc : t.Contains p = true) (h : level > cMaxTreeLevel) : droppedAux n t p level = [p] := by
  cases n <;> simp [droppedAux, h, hc]

theorem droppedAux_store (n : Nat) (t : BarnesHutTree) (p : Particle) (level : Nat)
    (hl : level ≤ cMaxTreeLevel) (hleaf : t.data.isLeaf = true)
    (hn : t.data.particle_ = none) : droppedAux n t p level = [] := by
  cases n <;> simp [droppedAux, Nat.not_lt.mpr hl, hleaf, hn]

theorem droppedAux_split (n : Nat) (t : BarnesHutTree) (p q : Particle) (level : Nat)
    (hc : t.Contains p = true) (hl : level ≤ cMaxTreeLevel) (hleaf : t.data.isLeaf = true)
    (hq : t.data.particle_ = some q) :
    droppedAux (n + 1) t p level =
      routeLog q (fun c => droppedAux n c q (level + 1)) (splitChildren t) ++
        routeLog p (fun c => droppedAux n c p (level + 1))
          (route q (fun c => insertAux n c q (level + 1)) (splitChildren t)) := by
  simp [droppedAux, hc, Nat.not_lt.mpr hl, hleaf, hq]

theorem droppedAux_internal (n : Nat) (d : NodeFields) (c0 c1 c2 c3 : BarnesHutTree)
    (p : Particle) (level : Nat)
    (hc : (quad d c0 c1 c2 c3).Contains p = true) (hl : level ≤ cMaxTreeLevel)
    (hleaf : d.isLeaf = false) :
    droppedAux (n + 1) (quad d c0 c1 c2 c3) p level =
      routeLog p (fun c => droppedAux n c p (level + 1)) ⟨c0, c1, c2, c3⟩ := by
  simp [droppedAux, hc, Nat.not_lt.mpr hl, hleaf]

theorem insertAux_frame (n : Nat) (t : BarnesHutTree) (p : Particle) (level : Nat) :
    (insertAux n t p level).data.point = t.data.point ∧
      (insertAux n t p level).data.length = t.data.length ∧
      (insertAux n t p level).data.oppositePoint = t.data.oppositePoint := by
  by_cases hc : t.Contains p = true
  swap
  · rw [insertAux_out n t p level (Or.inl (by simpa using hc))]; simp
  by_cases hl : level ≤ cMaxTreeLevel
  swap
  · rw [insertAux_out n t p level (Or.inr (by omega))]; simp
  cases n with
  | zero => simp [insertAux]
  | succ n =>
    by_cases hleaf : t.data.isLeaf = true
    · cases hq : t.data.particle_ with
      | none => rw [insertAux_store n t p level hc hl hleaf hq]; simp
      | some q => rw [insertAux_split n t p q level hc hl hleaf hq]; simp
    · have hleaf : t.data.isLeaf = false := by simpa using hleaf
      cases t with
      | bare d => rw [insertAux_internal_bare n d p level hc hl hleaf]; simp
      | quad d c0 c1 c2 c3 => rw [insertAux_internal n d c0 c1 c2 c3 p level hc hl hleaf]; simp

/-! ### Insert keeps the geometry and the reachable-part invariant -/

theorem insertAux_geom (n : Nat) :
    ∀ (t : BarnesHutTree) (p : Particle) (level : Nat), Geom t → Geom (insertAux n t p level) := by
  induction n with
  | zero => intro t p level h; exact h
  | succ n ih =>
    intro t p level h
    by_cases hc : t.Contains p = true
    swap
    · rw [insertAux_out _ t p level (Or.inl (by simpa using hc))]; exact h
    by_cases hl : level ≤ cMaxTreeLevel
    swap
    · rw [insertAux_out _ t p level (Or.inr (by omega))]; exact h
    have hfr : ∀ (x : Particle) (c : BarnesHutTree),
        (insertAux n c x (level + 1)).data.point = c.data.point ∧
          (insertAux n c x (level + 1)).data.length = c.data.length := fun x c =>
      ⟨(insertAux_frame n c x (level + 1)).1, (insertAux_frame n c x (level + 1)).2.1⟩
    by_cases hleaf : t.data.isLeaf = true
    · cases hq : t.data.particle_ with
      | none =>
        rw [insertAux_store n t p level hc hl hleaf hq]
        exact Geom_setData t _ h rfl rfl rfl
      | some q =>
        rw [insertAux_split n t p q level hc hl hleaf hq]
        obtain ⟨hg, hall, -⟩ := splitChildren_spec t h
        have hg2 := route_childGeom t.data p (fun c => insertAux n c p (level + 1)) _
          (route_childGeom t.data q (fun c => insertAux n c q (level + 1)) _ hg (hfr q)) (hfr p)
        have hall2 := route_all Geom p (fun c => insertAux n c p (level + 1)) _
          (route_all Geom q (fun c => insertAux n c q (level + 1)) _ hall
            (fun c hc _ => ih c q _ hc)) (fun c hc _ => ih c p _ hc)
        exact ⟨Geom_node t h, hg2, hall2.1, hall2.2.1, hall2.2.2.1, hall2.2.2.2⟩
    · have hleaf : t.data.isLeaf = false := by simpa using hleaf
      cases t with
      | bare d =>
        rw [insertAux_internal_bare n d p level hc hl hleaf]
        exact h
      | quad d c0 c1 c2 c3 =>
        rw [insertAux_internal n d c0 c1 c2 c3 p level hc hl hleaf]
        obtain ⟨hd, hg, g0, g1, g2, g3⟩ := h
        have hg2 := route_childGeom d p (fun c => insertAux n c p (level + 1)) _ hg (hfr p)
        have hall2 := route_all Geom p (fun c => insertAux n c p (level + 1)) ⟨c0, c1, c2, c3⟩
          ⟨g0, g1, g2, g3⟩ (fun c hc _ => ih c p _ hc)
        exact ⟨hd, hg2, hall2.1, hall2.2.1, hall2.2.2.1, hall2.2.2.2⟩

theorem Quad.all_and {P Q : BarnesHutTree → Prop} {cs : Quad} (hp : cs.All P) (hq : cs.All Q) :
    cs.All (fun c => P c ∧ Q c) :=
  ⟨⟨hp.1, hq.1⟩, ⟨hp.2.1, hq.2.1⟩, ⟨hp.2.2.1, hq.2.2.1⟩, ⟨hp.2.2.2, hq.2.2.2⟩⟩

theorem Quad.all_imp {P Q : BarnesHutTree → Prop} {cs : Quad} (hp : cs.All P)
    (h : ∀ c, P c → Q c) : cs.All Q :=
  ⟨h _ hp.1, h _ hp.2.1, h _ hp.2.2.1, h _ hp.2.2.2⟩

theorem Quad.stored_of_empty {cs : Quad} (h : cs.All EmptyLeaf) : cs.stored = [] := by
  simp [Quad.stored, stored_EmptyLeaf _ h.1, stored_EmptyLeaf _ h.2.1,
    stored_EmptyLeaf _ h.2.2.1, stored_EmptyLeaf _ h.2.2.2]

theorem stored_quad_internal (d : NodeFields) (c0 c1 c2 c3 : BarnesHutTree)
    (h : d.isLeaf = false) :
    storedParticles (quad d c0 c1 c2 c3) = Quad.stored ⟨c0, c1, c2, c3⟩ := by
  simp [storedParticles, Quad.stored, h]

theorem stored_bare_internal (d : NodeFields) (h : d.isLeaf = false) :
    storedParticles (bare d) = [] := by
  simp [storedParticles, h]

theorem insertAux_internal_ex (n : Nat) (d : NodeFields) (c0 c1 c2 c3 : BarnesHutTree)
    (p : Particle) (level : Nat)
    (hc : (quad d c0 c1 c2 c3).Contains p = true) (hl : level ≤ cMaxTreeLevel)
    (hleaf : d.isLeaf = false) :
    ∃ d1 : NodeFields, d1.isLeaf = false ∧ d1.point = d.point ∧ d1.length = d.length ∧
      d1.oppositePoint = d.oppositePoint ∧ d1.totalMass = d.totalMass + p.mass ∧
      d1.massCenter = (((d.massCenter.scaleR d.totalMass).addScaled p.position p.mass).scaleR
                  (1 / (d.totalMass + p.mass))) ∧
      insertAux (n + 1) (quad d c0 c1 c2 c3) p level =
        quad d1
          (route p (fun c => insertAux n c p (level + 1)) ⟨c0, c1, c2, c3⟩).c0
          (route p (fun c => insertAux n c p (level + 1)) ⟨c0, c1, c2, c3⟩).c1
          (route p (fun c => insertAux n c p (level + 1)) ⟨c0, c1, c2, c3⟩).c2
          (route p (fun c => insertAux n c p (level + 1)) ⟨c0, c1, c2, c3⟩).c3 := by
  refine ⟨_, ?_, ?_, ?_, ?_, ?_, ?_, insertAux_internal n d c0 c1 c2 c3 p level hc hl hleaf⟩
  all_goals first | rfl | exact hleaf

theorem insertAux_split_ex (n : Nat) (t : BarnesHutTree) (p q : Particle) (level : Nat)
    (hc : t.Contains p = true) (hl : level ≤ cMaxTreeLevel) (hleaf : t.data.isLeaf = true)
    (hq : t.data.particle_ = some q) :
    ∃ d1 : NodeFields, d1.isLeaf = false ∧ d1.point = t.data.point ∧
      d1.length = t.data.length ∧
      d1.oppositePoint = t.data.oppositePoint ∧ d1.totalMass = q.mass + p.mass ∧
      d1.massCenter = (((p.position.scaleR p.mass).addScaled q.position q.mass).scaleR
                  (1 / (q.mass + p.mass))) ∧
      insertAux (n + 1) t p level =
        quad d1
          (route p (fun c => insertAux n c p (level + 1))
            (route q (fun c => insertAux n c q (level + 1)) (splitChildren t))).c0
          (route p (fun c => insertAux n c p (level + 1))
            (route q (fun c => insertAux n c q (level + 1)) (splitChildren t))).c1
          (route p (fun c => insertAux n c p (level + 1))
            (route q (fun c => insertAux n c q (level + 1)) (splitChildren t))).c2
          (route p (fun c => insertAux n c p (level + 1))
            (route q (fun c => insertAux n c q (level + 1)) (splitChildren t))).c3 := by
  refine ⟨_, ?_, ?_, ?_, ?_, ?_, ?_, insertAux_split n t p q level hc hl hleaf hq⟩
  all_goals rfl

/-- Insert keeps the invariants, and the inserted particle is accounted for: it
is stored in a reachable leaf or logged as dropped, and every particle stored
before is still stored or logged as dropped. -/
theorem insertAux_inv (n : Nat) :
    ∀ (t : BarnesHutTree) (p : Particle) (level : Nat), Geom t → Inv t →
      cMaxTreeLevel + 2 ≤ level + n →
      Inv (insertAux n t p level) ∧
        (storedParticles (insertAux n t p level) ++ droppedAux n t p level).Perm
          ((if t.Contains p = true then [p] else []) ++ storedParticles t) := by
  induction n with
  | zero =>
    intro t p level hg hi hn
    have hl : level > cMaxTreeLevel := by omega
    refine ⟨hi, ?_⟩
    by_cases hc : t.Contains p = true
    · rw [droppedAux_deep 0 t p level hc hl]
      simp only [insertAux, hc, if_true]
      exact List.perm_append_comm
    · have hc : t.Contains p = false := by simpa using hc
      rw [droppedAux_out 0 t p level hc]
      simp [insertAux, hc]
  | succ n ih =>
    intro t p level hg hi hn
    by_cases hc : t.Contains p = true
    swap
    · have hc : t.Contains p = false := by simpa using hc
      rw [insertAux_out _ t p level (Or.inl hc), droppedAux_out _ t p level hc]
      simp [hc, hi]
    by_cases hl : level ≤ cMaxTreeLevel
    swap
    · have hl : level > cMaxTreeLevel := by omega
      rw [insertAux_out _ t p level (Or.inr hl), droppedAux_deep _ t p level hc hl]
      refine ⟨hi, ?_⟩
      simp only [hc, if_true]
      exact List.perm_append_comm
    have hn1 : cMaxTreeLevel + 2 ≤ level + 1 + n := by omega
    simp only [hc, if_true]
    by_cases hleaf : t.data.isLeaf = true
    · cases hq : t.data.particle_ with
      | none =>
        rw [insertAux_store n t p level hc hl hleaf hq, droppedAux_store _ t p level hl hleaf hq]
        have hs : storedParticles t = [] := stored_EmptyLeaf t ⟨hleaf, hq⟩
        have hs2 : storedParticles (t.setData { t.data with particle_ := some p }) = [p] := by
          rw [stored_of_leaf _ (by simpa using hleaf)]; simp
        refine ⟨?_, by rw [hs, hs2]⟩
        apply Inv_of_leaf _ (by simpa using hleaf)
        intro x hx
        simp only [data_setData, Option.mem_def, Option.some.injEq] at hx
        subst hx
        simpa [Contains, NodeContains] using hc
      | some q =>
        rw [insertAux_split n t p q level hc hl hleaf hq, droppedAux_split n t p q level hc hl hleaf hq]
        obtain ⟨hcg, hgeo, hemp⟩ := splitChildren_spec t hg
        have hst : storedParticles t = [q] := by rw [stored_of_leaf t hleaf, hq]; rfl
        have hqc : NodeContains t.data q = true := Inv_stored t hi q (by rw [hst]; simp)
        -- first loop: the particle of the leaf
        have hA0 : (splitChildren t).All (fun c => Geom c ∧ Inv c) :=
          Quad.all_and hgeo (Quad.all_imp hemp Inv_EmptyLeaf)
        have hcov0 := covering t.data _ q (Geom_node t hg) hcg
          (Quad.all_imp hgeo Geom_node) hqc
        have hperm1 := route_perm (fun c => Geom c ∧ Inv c) q
          (fun c => insertAux n c q (level + 1)) (fun c => droppedAux n c q (level + 1))
          (splitChildren t) hA0 hcov0 (fun c hc' hcc => by
            have := (ih c q (level + 1) hc'.1 hc'.2 hn1).2
            simpa [hcc] using this)
        have hA1 := route_all (fun c => Geom c ∧ Inv c) q
          (fun c => insertAux n c q (level + 1)) _ hA0
          (fun c hc' _ => ⟨insertAux_geom n c q _ hc'.1, (ih c q (level + 1) hc'.1 hc'.2 hn1).1⟩)
        have hcg1 := route_childGeom t.data q (fun c => insertAux n c q (level + 1)) _ hcg
          (fun c => ⟨(insertAux_frame n c q (level + 1)).1, (insertAux_frame n c q (level + 1)).2.1⟩)
        -- second loop: the new particle
        have hcov1 := covering t.data _ p (Geom_node t hg) hcg1
          (Quad.all_imp hA1 (fun c h => Geom_node c h.1)) hc
        have hperm2 := route_perm (fun c => Geom c ∧ Inv c) p
          (fun c => insertAux n c p (level + 1)) (fun c => droppedAux n c p (level + 1))
          _ hA1 hcov1 (fun c hc' hcc => by
            have := (ih c p (level + 1) hc'.1 hc'.2 hn1).2
            simpa [hcc] using this)
        have hA2 := route_all (fun c => Geom c ∧ Inv c) p
          (fun c => insertAux n c p (level + 1)) _ hA1
          (fun c hc' _ => ⟨insertAux_geom n c p _ hc'.1, (ih c p (level + 1) hc'.1 hc'.2 hn1).1⟩)
        rw [Quad.stored_of_empty hemp] at hperm1
        rw [stored_quad_internal _ _ _ _ _ rfl, hst]
        have hfin : (Quad.stored (route p (fun c => insertAux n c p (level + 1))
              (route q (fun c => insertAux n c q (level + 1)) (splitChildren t))) ++
            (routeLog q (fun c => droppedAux n c q (level + 1)) (splitChildren t) ++
              routeLog p (fun c => droppedAux n c p (level + 1))
                (route q (fun c => insertAux n c q (level + 1)) (splitChildren t)))).Perm
            ([p] ++ [q]) := by
          rw [List.perm_iff_count] at hperm1 hperm2 ⊢
          intro a
          have e1 := hperm1 a
          have e2 := hperm2 a
          simp only [List.count_append, List.count_cons, List.count_nil] at e1 e2 ⊢
          omega
        refine ⟨⟨?_, fun _ => ⟨hA2.1.2, hA2.2.1.2, hA2.2.2.1.2, hA2.2.2.2.2⟩⟩, hfin⟩
        intro x hx
        rw [stored_quad_internal _ _ _ _ _ rfl] at hx
        have hx2 : x ∈ [p] ++ [q] := hfin.subset (List.mem_append_left _ hx)
        simp only [List.singleton_append, List.mem_cons, List.mem_singleton,
          List.not_mem_nil, or_false] at hx2
        rcases hx2 with rfl | rfl
        · simpa [Contains, NodeContains] using hc
        · simpa [NodeContains] using hqc
    · have hleaf : t.data.isLeaf = false := by simpa using hleaf
      cases t with
      | bare d =>
        exact absurd hi.1 (by simpa using hleaf)
      | quad d c0 c1 c2 c3 =>
        simp only [data_quad] at hleaf
        obtain ⟨d1, hl1, hp1, -, ho1, -, -, heq⟩ :=
          insertAux_internal_ex n d c0 c1 c2 c3 p level hc hl hleaf
        rw [heq, droppedAux_internal n d c0 c1 c2 c3 p level hc hl hleaf]
        obtain ⟨hd, hcg, g0, g1, g2, g3⟩ := hg
        obtain ⟨hcont, hch⟩ := hi
        obtain ⟨i0, i1, i2, i3⟩ := hch hleaf
        have hA0 : Quad.All (fun c => Geom c ∧ Inv c) ⟨c0, c1, c2, c3⟩ :=
          ⟨⟨g0, i0⟩, ⟨g1, i1⟩, ⟨g2, i2⟩, ⟨g3, i3⟩⟩
        have hcov := covering d ⟨c0, c1, c2, c3⟩ p hd hcg
          ⟨Geom_node _ g0, Geom_node _ g1, Geom_node _ g2, Geom_node _ g3⟩ hc
        have hperm := route_perm (fun c => Geom c ∧ Inv c) p
          (fun c => insertAux n c p (level + 1)) (fun c => droppedAux n c p (level + 1))
          _ hA0 hcov (fun c hc' hcc => by
            have := (ih c p (level + 1) hc'.1 hc'.2 hn1).2
            simpa [hcc] using this)
        have hA1 := route_all (fun c => Geom c ∧ Inv c) p
          (fun c => insertAux n c p (level + 1)) _ hA0
          (fun c hc' _ => ⟨insertAux_geom n c p _ hc'.1, (ih c p (level + 1) hc'.1 hc'.2 hn1).1⟩)
        rw [stored_quad_internal _ _ _ _ _ hl1, stored_quad_internal _ _ _ _ _ hleaf]
        refine ⟨⟨?_, fun _ => ⟨hA1.1.2, hA1.2.1.2, hA1.2.2.1.2, hA1.2.2.2.2⟩⟩, hperm⟩
        intro x hx
        rw [stored_quad_internal _ _ _ _ _ hl1] at hx
        have hx2 := hperm.subset (List.mem_append_left _ hx)
        rcases List.mem_cons.mp hx2 with rfl | hx3
        · simpa [Contains, NodeContains, hp1, ho1] using hc
        · have := hcont x (by rw [stored_quad_internal _ _ _ _ _ hleaf]; exact hx3)
          simpa [NodeContains, hp1, ho1] using this

/-! ### Insert and InsertAll -/

theorem Insert_frame (t : BarnesHutTree) (p : Particle) (level : Nat) :
    (Insert t p level).data.point = t.data.point ∧
      (Insert t p level).data.length = t.data.length ∧
      (Insert t p level).data.oppositePoint = t.data.oppositePoint :=
  insertAux_frame _ t p level

theorem Insert_contains (t : BarnesHutTree) (p x : Particle) (level : Nat) :
    (Insert t p level).Contains x = t.Contains x :=
  Contains_congr _ _ _ (Insert_frame t p level).1 (Insert_frame t p level).2.2

theorem Insert_geom (t : BarnesHutTree) (p : Particle) (level : Nat) (h : Geom t) :
    Geom (Insert t p level) :=
  insertAux_geom _ t p level h

theorem Insert_inv (t : BarnesHutTree) (p : Particle) (level : Nat) (hg : Geom t) (hi : Inv t) :
    Inv (Insert t p level) ∧
      (storedParticles (Insert t p level) ++ dropped t p level).Perm
        ((if t.Contains p = true then [p] else []) ++ storedParticles t) :=
  insertAux_inv _ t p level hg hi (by omega)

theorem InsertAll_nil (t : BarnesHutTree) : InsertAll t [] = t := rfl

theorem InsertAll_cons (t : BarnesHutTree) (p : Particle) (ps : List Particle) :
    InsertAll t (p :: ps) = InsertAll (Insert t p 0) ps := rfl

theorem InsertAll_append (t : BarnesHutTree) (ps qs : List Particle) :
    InsertAll t (ps ++ qs) = InsertAll (InsertAll t ps) qs := by
  simp [InsertAll, List.foldl_append]

theorem InsertAll_frame (ps : List Particle) : ∀ t : BarnesHutTree,
    (InsertAll t ps).data.point = t.data.point ∧
      (InsertAll t ps).data.length = t.data.length ∧
      (InsertAll t ps).data.oppositePoint = t.data.oppositePoint := by
  induction ps with
  | nil => intro t; exact ⟨rfl, rfl, rfl⟩
  | cons p ps ih =>
    intro t
    rw [InsertAll_cons]
    obtain ⟨h1, h2, h3⟩ := ih (Insert t p 0)
    obtain ⟨e1, e2, e3⟩ := Insert_frame t p 0
    exact ⟨h1.trans e1, h2.trans e2, h3.trans e3⟩

theorem InsertAll_geom (ps : List Particle) : ∀ t : BarnesHutTree, Geom t →
    Geom (InsertAll t ps) := by
  induction ps with
  | nil => intro t h; exact h
  | cons p ps ih => intro t h; exact ih _ (Insert_geom t p 0 h)

/-- Bookkeeping of a whole build: what is stored in the end, together with
what was dropped at the depth limit, is what was inserted inside the root square
on top of what was stored before. -/
theorem InsertAll_inv (ps : List Particle) : ∀ t : BarnesHutTree, Geom t → Inv t →
    Inv (InsertAll t ps) ∧
      (storedParticles (InsertAll t ps) ++ droppedAll t ps).Perm
        (ps.filter (fun p => t.Contains p) ++ storedParticles t) := by
  induction ps with
  | nil => intro t _ hi; exact ⟨hi, by simp [InsertAll, droppedAll]⟩
  | cons p ps ih =>
    intro t hg hi
    obtain ⟨hi1, hp1⟩ := Insert_inv t p 0 hg hi
    obtain ⟨hi2, hp2⟩ := ih (Insert t p 0) (Insert_geom t p 0 hg) hi1
    refine ⟨hi2, ?_⟩
    rw [InsertAll_cons]
    have hfilt : ps.filter (fun x => (Insert t p 0).Contains x) =
        ps.filter (fun x => t.Contains x) := by
      congr 1; funext x; rw [Insert_contains]
    rw [hfilt] at hp2
    simp only [droppedAll, List.filter_cons]
    rw [List.perm_iff_count] at hp1 hp2 ⊢
    intro a
    have e1 := hp1 a
    have e2 := hp2 a
    by_cases hc : t.Contains p = true
    · simp only [hc, if_true, List.count_append, List.count_cons, List.count_nil] at e1 e2 ⊢
      omega
    · simp only [hc, Bool.false_eq_true, if_false, List.count_append, List.count_cons,
        List.count_nil, List.nil_append] at e1 e2 ⊢
      omega

theorem NodeContains_iff (d : NodeFields) (p : Particle) (hg : GeomNode d) :
    NodeContains d p = true ↔ InSquare d p := by
  unfold GeomNode at hg
  simp only [NodeContains, InSquare, hg, float3.add_def, float3.splat, Bool.and_eq_true,
    decide_eq_true_eq, ge_iff_le]
  tauto

/-! ### Insert unfolds as the source reads

The recursion counter of insertAux never runs out: Insert satisfies the
equations of the source, with Insert itself in the recursive positions. -/

theorem Insert_eq_succ (t : BarnesHutTree) (p : Particle) (level : Nat)
    (hl : level ≤ cMaxTreeLevel) :
    Insert t p level = insertAux (cMaxTreeLevel + 2 - (level + 1) + 1) t p level := by
  unfold Insert
  congr 1
  omega

/-- The result does not depend on the counter once it covers the levels that are
left: any counter of at least 52 - level gives the value of Insert. -/
theorem insertAux_enough (n : Nat) :
    ∀ (t : BarnesHutTree) (p : Particle) (level : Nat), cMaxTreeLevel + 2 ≤ level + n →
      insertAux n t p level = Insert t p level := by
  have key : ∀ (n m : Nat) (t : BarnesHutTree) (p : Particle) (level : Nat),
      cMaxTreeLevel + 2 ≤ level + n → cMaxTreeLevel + 2 ≤ level + m →
      insertAux n t p level = insertAux m t p level := by
    intro n
    induction n with
    | zero =>
      intro m t p level hn _
      rw [insertAux_out 0 t p level (Or.inr (by omega)),
        insertAux_out m t p level (Or.inr (by omega))]
    | succ n ih =>
      intro m t p level hn hm
      by_cases hl : level ≤ cMaxTreeLevel
      swap
      · rw [insertAux_out _ t p level (Or.inr (by omega)),
          insertAux_out m t p level (Or.inr (by omega))]
      obtain ⟨m, rfl⟩ : ∃ k, m = k + 1 := ⟨m - 1, by omega⟩
      have hfun : ∀ x : Particle, (fun c => insertAux n c x (level + 1)) =
          (fun c => insertAux m c x (level + 1)) :=
        fun x => funext (fun c => ih m c x (level + 1) (by omega) (by omega))
      simp only [insertAux, hfun]
  intro t p level hn
  exact key n _ t p level hn (by omega)

theorem Insert_split (t : BarnesHutTree) (p q : Particle) (level : Nat)
    (hc : t.Contains p = true) (hl : level ≤ cMaxTreeLevel) (hleaf : t.data.isLeaf = true)
    (hq : t.data.particle_ = some q) :
    Insert t p level =
      quad { t.data with
              isLeaf := false
              totalMass := q.mass + p.mass
              massCenter :=
                (((p.position.scaleR p.mass).addScaled q.position q.mass).scaleR
                  (1 / (q.mass + p.mass))) }
        (route p (fun c => Insert c p (level + 1))
          (route q (fun c => Insert c q (level + 1)) (splitChildren t))).c0
        (route p (fun c => Insert c p (level + 1))
          (route q (fun c => Insert c q (level + 1)) (splitChildren t))).c1
        (route p (fun c => Insert c p (level + 1))
          (route q (fun c => Insert c q (level + 1)) (splitChildren t))).c2
        (route p (fun c => Insert c p (level + 1))
          (route q (fun c => Insert c q (level + 1)) (splitChildren t))).c3 := by
  rw [Insert_eq_succ t p level hl]
  exact insertAux_split _ t p q level hc hl hleaf hq

theorem Insert_internal (d : NodeFields) (c0 c1 c2 c3 : BarnesHutTree)
    (p : Particle) (level : Nat)
    (hc : (quad d c0 c1 c2 c3).Contains p = true) (hl : level ≤ cMaxTreeLevel)
    (hleaf : d.isLeaf = false) :
    Insert (quad d c0 c1 c2 c3) p level =
      quad { d with
              massCenter :=
                (((d.massCenter.scaleR d.totalMass).addScaled p.position p.mass).scaleR
                  (1 / (d.totalMass + p.mass)))
              totalMass := d.totalMass + p.mass }
        (route p (fun c => Insert c p (level + 1)) ⟨c0, c1, c2, c3⟩).c0
        (route p (fun c => Insert c p (level + 1)) ⟨c0, c1, c2, c3⟩).c1
        (route p (fun c => Insert c p (level + 1)) ⟨c0, c1, c2, c3⟩).c2
        (route p (fun c => Insert c p (level + 1)) ⟨c0, c1, c2, c3⟩).c3 := by
  rw [Insert_eq_succ _ p level hl]
  exact insertAux_internal _ d c0 c1 c2 c3 p level hc hl hleaf

theorem Inv_Reset (t : BarnesHutTree) : Inv t.Reset :=
  Inv_EmptyLeaf _ (EmptyLeaf_Reset t)

/-- Every tree the code can build has the geometry Geom and satisfies the
invariant Inv of its reachable part. -/
theorem Built_geom_inv (t : BarnesHutTree) (h : Built t) : Geom t ∧ Inv t := by
  induction h with
  | new point length => exact ⟨Geom_new _ _, Inv_EmptyLeaf _ (EmptyLeaf_new _ _)⟩
  | reset t _ ih => exact ⟨Geom_Reset t ih.1, Inv_Reset t⟩
  | insert t p level _ ih => exact ⟨Insert_geom t p level ih.1, (Insert_inv t p level ih.1 ih.2).1⟩

end BarnesHutTree

/-! ### Aggregates -/

theorem massSum_perm {l1 l2 : List Particle} (h : l1.Perm l2) : massSum l1 = massSum l2 :=
  (h.map _).sum_eq

theorem moment_perm {l1 l2 : List Particle} (h : l1.Perm l2) : moment l1 = moment l2 :=
  (h.map _).sum_eq

theorem massSum_cons (p : Particle) (l : List Particle) :
    massSum (p :: l) = p.mass + massSum l := by
  simp [massSum]

theorem moment_cons (p : Particle) (l : List Particle) :
    moment (p :: l) = p.position.scaleR p.mass + moment l := by
  simp [moment]

theorem massSum_pos (l : List Particle) (h : ∀ q ∈ l, 0 < q.mass) (hne : l ≠ []) :
    0 < massSum l := by
  induction l with
  | nil => exact absurd rfl hne
  | cons p l ih =>
    rw [massSum_cons]
    have hp := h p (List.mem_cons_self _ _)
    by_cases hl : l = []
    · subst hl; simpa [massSum] using hp
    · have := ih (fun q hq => h q (List.mem_cons_of_mem _ hq)) hl
      linarith

namespace BarnesHutTree

theorem route_all_log (P : BarnesHutTree → Prop) (p : Particle)
    (f : BarnesHutTree → BarnesHutTree) (g : BarnesHutTree → List Particle) (cs : Quad)
    (h : cs.All P) (hlog : routeLog p g cs = [])
    (hf : ∀ c, P c → c.Contains p = true → g c = [] → P (f c)) :
    (route p f cs).All P := by
  obtain ⟨h0, h1, h2, h3⟩ := h
  unfold routeLog at hlog
  unfold route
  split_ifs at hlog ⊢ with a0 a1 a2 a3
  · exact ⟨hf _ h0 a0 hlog, h1, h2, h3⟩
  · exact ⟨h0, hf _ h1 a1 hlog, h2, h3⟩
  · exact ⟨h0, h1, hf _ h2 a2 hlog, h3⟩
  · exact ⟨h0, h1, h2, hf _ h3 a3 hlog⟩
  · exact ⟨h0, h1, h2, h3⟩

theorem AggOK_of_leaf (t : BarnesHutTree) (h : t.data.isLeaf = true) : AggOK t := by
  cases t with
  | bare d => exact h
  | quad d c0 c1 c2 c3 =>
    intro h2
    simp only [data_quad] at h
    rw [h] at h2
    exact absurd h2 (by decide)

theorem scale_split (p q : Particle) (h : q.mass + p.mass ≠ 0) :
    (((p.position.scaleR p.mass).addScaled q.position q.mass).scaleR
        (1 / (q.mass + p.mass))).scaleR (q.mass + p.mass) =
      p.position.scaleR p.mass + (q.position.scaleR q.mass + 0) := by
  ext <;> simp [float3.scaleR, float3.addScaled, float3.add, float3.add_def, float3.zero_def] <;>
    field_simp

theorem scale_update (mc : float3) (tm : ℚ) (p : Particle) (m : float3)
    (hm : mc.scaleR tm = m) (h : tm + p.mass ≠ 0) :
    (((mc.scaleR tm).addScaled p.position p.mass).scaleR (1 / (tm + p.mass))).scaleR
        (tm + p.mass) =
      p.position.scaleR p.mass + m := by
  subst hm
  ext <;> simp [float3.scaleR, float3.addScaled, float3.add, float3.add_def] <;>
    field_simp <;> ring

/-- An insertion that drops nothing keeps the aggregates exact. -/
theorem insertAux_agg (n : Nat) :
    ∀ (t : BarnesHutTree) (p : Particle) (level : Nat), Geom t → Inv t → AggOK t →
      cMaxTreeLevel + 2 ≤ level + n → droppedAux n t p level = [] →
      AggOK (insertAux n t p level) := by
  induction n with
  | zero => intro t p level _ _ ha _ _; exact ha
  | succ n ih =>
    intro t p level hg hi ha hn hdrop
    obtain ⟨-, hperm⟩ := insertAux_inv (n + 1) t p level hg hi hn
    rw [hdrop, List.append_nil] at hperm
    by_cases hc : t.Contains p = true
    swap
    · rw [insertAux_out _ t p level (Or.inl (by simpa using hc))]; exact ha
    by_cases hl : level ≤ cMaxTreeLevel
    swap
    · rw [insertAux_out _ t p level (Or.inr (by omega))]; exact ha
    have hn1 : cMaxTreeLevel + 2 ≤ level + 1 + n := by omega
    simp only [hc, if_true] at hperm
    by_cases hleaf : t.data.isLeaf = true
    · cases hq : t.data.particle_ with
      | none =>
        rw [insertAux_store n t p level hc hl hleaf hq]
        exact AggOK_of_leaf _ (by simpa using hleaf)
      | some q =>
        have hst : storedParticles t = [q] := by rw [stored_of_leaf t hleaf, hq]; rfl
        rw [hst] at hperm
        rw [droppedAux_split n t p q level hc hl hleaf hq] at hdrop
        obtain ⟨hdq, hdp⟩ := List.append_eq_nil.mp hdrop
        obtain ⟨d1, hl1, -, -, -, htm, hmc, heq⟩ :=
          insertAux_split_ex n t p q level hc hl hleaf hq
        rw [heq] at hperm ⊢
        obtain ⟨-, hgeo, hemp⟩ := splitChildren_spec t hg
        have hA0 : (splitChildren t).All (fun c => Geom c ∧ Inv c ∧ AggOK c) :=
          Quad.all_and hgeo (Quad.all_and (Quad.all_imp hemp Inv_EmptyLeaf)
            (Quad.all_imp hemp (fun c h => AggOK_of_leaf c h.1)))
        have hA1 := route_all_log (fun c => Geom c ∧ Inv c ∧ AggOK c) q
          (fun c => insertAux n c q (level + 1)) (fun c => droppedAux n c q (level + 1))
          _ hA0 hdq (fun c hc' _ hd => ⟨insertAux_geom n c q _ hc'.1,
            (insertAux_inv n c q (level + 1) hc'.1 hc'.2.1 hn1).1,
            ih c q (level + 1) hc'.1 hc'.2.1 hc'.2.2 hn1 hd⟩)
        have hA2 := route_all_log (fun c => Geom c ∧ Inv c ∧ AggOK c) p
          (fun c => insertAux n c p (level + 1)) (fun c => droppedAux n c p (level + 1))
          _ hA1 hdp (fun c hc' _ hd => ⟨insertAux_geom n c p _ hc'.1,
            (insertAux_inv n c p (level + 1) hc'.1 hc'.2.1 hn1).1,
            ih c p (level + 1) hc'.1 hc'.2.1 hc'.2.2 hn1 hd⟩)
        intro _
        refine ⟨?_, ?_, ?_, hA2.1.2.2, hA2.2.1.2.2, hA2.2.2.1.2.2, hA2.2.2.2.2.2⟩
        · rw [massSum_perm hperm, htm]
          simp [massSum, add_comm]
        · rw [hperm.length_eq]; simp
        · intro hpos
          rw [moment_perm hperm, htm, hmc]
          have hp0 := hpos p (hperm.symm.subset (by simp))
          have hq0 := hpos q (hperm.symm.subset (by simp))
          rw [scale_split p q (by linarith)]
          simp [moment]
    · have hleaf : t.data.isLeaf = false := by simpa using hleaf
      cases t with
      | bare d => exact absurd hi.1 (by simpa using hleaf)
      | quad d c0 c1 c2 c3 =>
        simp only [data_quad] at hleaf
        rw [droppedAux_internal n d c0 c1 c2 c3 p level hc hl hleaf] at hdrop
        obtain ⟨d1, hl1, -, -, -, htm, hmc, heq⟩ :=
          insertAux_internal_ex n d c0 c1 c2 c3 p level hc hl hleaf
        rw [heq] at hperm ⊢
        obtain ⟨-, -, g0, g1, g2, g3⟩ := hg
        obtain ⟨i0, i1, i2, i3⟩ := hi.2 hleaf
        obtain ⟨hm, hlen, hcen, a0, a1, a2, a3⟩ := ha hleaf
        have hA0 : Quad.All (fun c => Geom c ∧ Inv c ∧ AggOK c) ⟨c0, c1, c2, c3⟩ :=
          ⟨⟨g0, i0, a0⟩, ⟨g1, i1, a1⟩, ⟨g2, i2, a2⟩, ⟨g3, i3, a3⟩⟩
        have hA1 := route_all_log (fun c => Geom c ∧ Inv c ∧ AggOK c) p
          (fun c => insertAux n c p (level + 1)) (fun c => droppedAux n c p (level + 1))
          _ hA0 hdrop (fun c hc' _ hd => ⟨insertAux_geom n c p _ hc'.1,
            (insertAux_inv n c p (level + 1) hc'.1 hc'.2.1 hn1).1,
            ih c p (level + 1) hc'.1 hc'.2.1 hc'.2.2 hn1 hd⟩)
        intro _
        refine ⟨?_, ?_, ?_, hA1.1.2.2, hA1.2.1.2.2, hA1.2.2.1.2.2, hA1.2.2.2.2.2⟩
        · rw [massSum_perm hperm, htm, hm]
          simp [massSum, add_comm]
        · rw [hperm.length_eq]; simp; omega
        · intro hpos
          have hpos1 : ∀ x ∈ [p] ++ storedParticles (quad d c0 c1 c2 c3), 0 < x.mass :=
            fun x hx => hpos x (hperm.symm.subset hx)
          have hp0 := hpos1 p (by simp)
          have hs0 : ∀ x ∈ storedParticles (quad d c0 c1 c2 c3), 0 < x.mass :=
            fun x hx => hpos1 x (List.mem_append_right _ hx)
          have hne : storedParticles (quad d c0 c1 c2 c3) ≠ [] := by
            intro h0; rw [h0] at hlen; simp at hlen
          have htpos := massSum_pos _ hs0 hne
          rw [← hm] at htpos
          rw [moment_perm hperm, htm, hmc, scale_update _ _ p _ (hcen hs0) (by linarith)]
          simp [moment]

theorem Insert_agg (t : BarnesHutTree) (p : Particle) (level : Nat) (hg : Geom t) (hi : Inv t)
    (ha : AggOK t) (hd : dropped t p level = []) : AggOK (Insert t p level) :=
  insertAux_agg _ t p level hg hi ha (by omega) hd

theorem InsertAll_agg (ps : List Particle) : ∀ t : BarnesHutTree, Geom t → Inv t → AggOK t →
    droppedAll t ps = [] → AggOK (InsertAll t ps) := by
  induction ps with
  | nil => intro t _ _ ha _; exact ha
  | cons p ps ih =>
    intro t hg hi ha hd
    simp only [droppedAll, List.append_eq_nil] at hd
    exact ih _ (Insert_geom t p 0 hg) (Insert_inv t p 0 hg hi).1
      (Insert_agg t p 0 hg hi ha hd.1) hd.2

theorem reachable_self (t : BarnesHutTree) : t ∈ reachableNodes t := by
  cases t with
  | bare d => simp [reachableNodes]
  | quad d c0 c1 c2 c3 =>
    by_cases h : d.isLeaf = true <;> simp [reachableNodes, h]

theorem reachable_geom (t : BarnesHutTree) (hg : Geom t) :
    ∀ n ∈ reachableNodes t, Geom n := by
  induction t with
  | bare d =>
    intro n hn
    simp only [reachableNodes, List.mem_singleton] at hn
    subst hn
    exact hg
  | quad d c0 c1 c2 c3 ih0 ih1 ih2 ih3 =>
    intro n hn
    obtain ⟨-, -, g0, g1, g2, g3⟩ := id hg
    by_cases hleaf : d.isLeaf = true
    · simp only [reachableNodes, hleaf, if_true, List.mem_singleton] at hn
      subst hn
      exact hg
    · have hleaf : d.isLeaf = false := by simpa using hleaf
      simp only [reachableNodes, hleaf, Bool.false_eq_true, if_false, List.mem_cons,
        List.mem_append] at hn
      rcases hn with rfl | ((hn | hn) | hn) | hn
      · exact hg
      · exact ih0 g0 n hn
      · exact ih1 g1 n hn
      · exact ih2 g2 n hn
      · exact ih3 g3 n hn

/-- The invariants hold at every reachable node, and what is stored below a
reachable node is stored below the root, in the same order. -/
theorem reachable_inv (t : BarnesHutTree) (hi : Inv t) (ha : AggOK t) :
    ∀ n ∈ reachableNodes t, Inv n ∧ AggOK n ∧
      (storedParticles n).Sublist (storedParticles t) := by
  induction t with
  | bare d =>
    intro n hn
    simp only [reachableNodes, List.mem_singleton] at hn
    subst hn
    exact ⟨hi, ha, List.Sublist.refl _⟩
  | quad d c0 c1 c2 c3 ih0 ih1 ih2 ih3 =>
    intro n hn
    by_cases hleaf : d.isLeaf = true
    · simp only [reachableNodes, hleaf, if_true, List.mem_singleton] at hn
      subst hn
      exact ⟨hi, ha, List.Sublist.refl _⟩
    · have hleaf : d.isLeaf = false := by simpa using hleaf
      simp only [reachableNodes, hleaf, Bool.false_eq_true, if_false, List.mem_cons,
        List.mem_append] at hn
      obtain ⟨i0, i1, i2, i3⟩ := hi.2 hleaf
      obtain ⟨-, -, -, a0, a1, a2, a3⟩ := ha hleaf
      have hs : storedParticles (quad d c0 c1 c2 c3) =
          storedParticles c0 ++ storedParticles c1 ++ storedParticles c2 ++ storedParticles c3 := by
        simp [storedParticles, hleaf]
      rcases hn with rfl | ((hn | hn) | hn) | hn
      · exact ⟨hi, ha, List.Sublist.refl _⟩
      · obtain ⟨h1, h2, h3⟩ := ih0 i0 a0 n hn
        refine ⟨h1, h2, ?_⟩
        rw [hs, List.append_assoc, List.append_assoc]
        exact h3.trans (List.sublist_append_left _ _)
      · obtain ⟨h1, h2, h3⟩ := ih1 i1 a1 n hn
        refine ⟨h1, h2, ?_⟩
        rw [hs, List.append_assoc, List.append_assoc]
        exact (h3.trans (List.sublist_append_left _ _)).trans (List.sublist_append_right _ _)
      · obtain ⟨h1, h2, h3⟩ := ih2 i2 a2 n hn
        refine ⟨h1, h2, ?_⟩
        rw [hs, List.append_assoc]
        exact (h3.trans (List.sublist_append_left _ _)).trans (List.sublist_append_right _ _)
      · obtain ⟨h1, h2, h3⟩ := ih3 i3 a3 n hn
        refine ⟨h1, h2, ?_⟩
        rw [hs]
        exact h3.trans (List.sublist_append_right _ _)

theorem AggOK_internal (n : BarnesHutTree) (ha : AggOK n) (hleaf : n.data.isLeaf = false) :
    n.data.totalMass = massSum (storedParticles n) ∧ 2 ≤ (storedParticles n).length ∧
      ((∀ q ∈ storedParticles n, 0 < q.mass) →
        n.data.massCenter.scaleR n.data.totalMass = moment (storedParticles n)) := by
  cases n with
  | bare d =>
    have ha : d.isLeaf = true := ha
    simp only [data_bare] at hleaf
    rw [hleaf] at ha
    exact absurd ha (by decide)
  | quad d c0 c1 c2 c3 =>
    obtain ⟨h1, h2, h3, -⟩ := ha hleaf
    exact ⟨h1, h2, h3⟩

end BarnesHutTree

/-! ### The opening-angle test -/

theorem normSq_nonneg (v : float3) : 0 ≤ v.normSq := by
  unfold float3.normSq
  nlinarith [mul_self_nonneg v.m_x, mul_self_nonneg v.m_y, mul_self_nonneg v.m_z]

/-- The rational test thetaBelow is the test theta < 0.7f with r the real square
root of the squared norm: for r > 0 it is length / r < 0.7f, and for r = 0 (where
the float quotient is infinite or NaN) it holds only for negative length. -/
theorem thetaBelow_iff_real (length : ℚ) (vec : float3) :
    thetaBelow length vec = true ↔
      (0 < Real.sqrt (vec.normSq : ℝ) ∧
        (length : ℝ) / Real.sqrt (vec.normSq : ℝ) < (thetaLimit : ℝ)) ∨
      (Real.sqrt (vec.normSq : ℝ) = 0 ∧ length < 0) := by
  have hn : (0 : ℝ) ≤ (vec.normSq : ℝ) := by exact_mod_cast normSq_nonneg vec
  have hc : (0 : ℝ) < (thetaLimit : ℝ) := by
    have : (0 : ℚ) < thetaLimit := by unfold thetaLimit; norm_num
    exact_mod_cast this
  by_cases h0 : vec.normSq = 0
  · have hr : Real.sqrt (vec.normSq : ℝ) = 0 := by rw [h0]; simp
    simp [thetaBelow, h0, hr]
  · have hpos : (0 : ℝ) < (vec.normSq : ℝ) := lt_of_le_of_ne hn (by exact_mod_cast Ne.symm h0)
    have hr : 0 < Real.sqrt (vec.normSq : ℝ) := Real.sqrt_pos.mpr hpos
    have hsq : Real.sqrt (vec.normSq : ℝ) * Real.sqrt (vec.normSq : ℝ) = (vec.normSq : ℝ) :=
      Real.mul_self_sqrt hn
    simp only [thetaBelow, h0, if_false, decide_eq_true_eq, hr, true_and, ne_of_gt hr, false_and,
      or_false]
    rw [div_lt_iff₀ hr]
    have hcr : 0 < (thetaLimit : ℝ) * Real.sqrt (vec.normSq : ℝ) := mul_pos hc hr
    have hprod : ((thetaLimit : ℝ) * Real.sqrt (vec.normSq : ℝ)) ^ 2 =
        (thetaLimit : ℝ) ^ 2 * (vec.normSq : ℝ) := by
      rw [mul_pow, sq (Real.sqrt (vec.normSq : ℝ)), hsq]
    constructor
    · rintro (h | h)
      · have : (length : ℝ) < 0 := by exact_mod_cast h
        linarith
      · have h2 : (length : ℝ) ^ 2 < (thetaLimit : ℝ) ^ 2 * (vec.normSq : ℝ) := by
          exact_mod_cast h
        rw [← hprod] at h2
        exact lt_of_pow_lt_pow_left₀ 2 (le_of_lt hcr) h2
    · intro h
      by_cases hl : length < 0
      · exact Or.inl hl
      · right
        have hl2 : (0 : ℝ) ≤ (length : ℝ) := by exact_mod_cast not_lt.mp hl
        have : (length : ℝ) ^ 2 < (thetaLimit : ℝ) ^ 2 * (vec.normSq : ℝ) := by
          rw [← hprod]
          exact pow_lt_pow_left₀ h hl2 (by norm_num)
        exact_mod_cast this

/-! ### When every node is opened, the tree sum is the pairwise sum -/

theorem bruteForce_append (G : GravityLaw) (l1 l2 : List Particle) (x : Particle) (s : ℚ) :
    bruteForceAcceleration G (l1 ++ l2) x s =
      bruteForceAcceleration G l1 x s + bruteForceAcceleration G l2 x s := by
  simp [bruteForceAcceleration, List.filter_append]

theorem bruteForce_nil (G : GravityLaw) (x : Particle) (s : ℚ) :
    bruteForceAcceleration G [] x s = 0 := rfl

theorem bruteForce_perm (G : GravityLaw) {l1 l2 : List Particle} (h : l1.Perm l2)
    (x : Particle) (s : ℚ) :
    bruteForceAcceleration G l1 x s = bruteForceAcceleration G l2 x s :=
  ((h.filter _).map _).sum_eq

namespace BarnesHutTree

theorem reachable_children (d : NodeFields) (c0 c1 c2 c3 : BarnesHutTree)
    (h : d.isLeaf = false) :
    reachableNodes (quad d c0 c1 c2 c3) = quad d c0 c1 c2 c3 ::
      (reachableNodes c0 ++ reachableNodes c1 ++ reachableNodes c2 ++ reachableNodes c3) := by
  simp [reachableNodes, h]

/-- If ComputeAcceleration opens every reachable internal node, its result is the
pairwise sum of the direct terms of the stored particles other than the query
particle. -/
theorem compute_of_opened (G : GravityLaw) (x : Particle) (s : ℚ) :
    ∀ t : BarnesHutTree, Opened t x →
      ComputeAcceleration G t x s = bruteForceAcceleration G (storedParticles t) x s := by
  intro t
  induction t with
  | bare d =>
    intro ho
    by_cases hleaf : d.isLeaf = true
    · cases hq : d.particle_ with
      | none => simp [ComputeAcceleration, accelerationAt, storedParticles, hleaf, hq,
          bruteForceAcceleration]
      | some q =>
        by_cases ha : q.addr = x.addr
        · simp [ComputeAcceleration, accelerationAt, storedParticles, hleaf, hq,
            bruteForceAcceleration, ha]
        · simp [ComputeAcceleration, accelerationAt, storedParticles, hleaf, hq,
            bruteForceAcceleration, ha]
    · have hleaf : d.isLeaf = false := by simpa using hleaf
      have ht := ho (bare d) (reachable_self _) hleaf
      simp only [data_bare] at ht
      simp [ComputeAcceleration, accelerationAt, storedParticles, hleaf, ht,
        bruteForceAcceleration]
  | quad d c0 c1 c2 c3 ih0 ih1 ih2 ih3 =>
    intro ho
    by_cases hleaf : d.isLeaf = true
    · cases hq : d.particle_ with
      | none => simp [ComputeAcceleration, accelerationAt, storedParticles, hleaf, hq,
          bruteForceAcceleration]
      | some q =>
        by_cases ha : q.addr = x.addr
        · simp [ComputeAcceleration, accelerationAt, storedParticles, hleaf, hq,
            bruteForceAcceleration, ha]
        · simp [ComputeAcceleration, accelerationAt, storedParticles, hleaf, hq,
            bruteForceAcceleration, ha]
    · have hleaf : d.isLeaf = false := by simpa using hleaf
      have ht := ho (quad d c0 c1 c2 c3) (reachable_self _) hleaf
      simp only [data_quad] at ht
      have hsub : ∀ c, c ∈ [c0, c1, c2, c3] → Opened c x := by
        intro c hc n hn
        apply ho n
        rw [reachable_children d c0 c1 c2 c3 hleaf]
        simp only [List.mem_cons, List.mem_singleton, List.not_mem_nil, or_false] at hc
        rcases hc with rfl | rfl | rfl | rfl <;> simp [hn]
      have e0 := ih0 (hsub c0 (by simp))
      have e1 := ih1 (hsub c1 (by simp))
      have e2 := ih2 (hsub c2 (by simp))
      have e3 := ih3 (hsub c3 (by simp))
      rw [stored_quad_internal d c0 c1 c2 c3 hleaf]
      simp only [ComputeAcceleration, accelerationAt, hleaf, ht, Quad.stored,
        bruteForce_append, e0, e1, e2, e3, zero_add]
      simp

end BarnesHutTree

/-! ### A node whose square holds the query particle is opened (planar case) -/

theorem moment_x_bounds (l : List Particle) (a b : ℚ)
    (h : ∀ q ∈ l, 0 < q.mass ∧ a ≤ q.position.m_x ∧ q.position.m_x ≤ b) :
    a * massSum l ≤ (moment l).m_x ∧ (moment l).m_x ≤ b * massSum l := by
  induction l with
  | nil => simp [massSum, moment, float3.zero_def]
  | cons p l ih =>
    obtain ⟨h1, h2⟩ := ih (fun q hq => h q (List.mem_cons_of_mem _ hq))
    obtain ⟨hm, ha, hb⟩ := h p (List.mem_cons_self _ _)
    rw [massSum_cons, moment_cons]
    simp only [float3.add_def, float3.scaleR]
    constructor <;> nlinarith

theorem moment_y_bounds (l : List Particle) (a b : ℚ)
    (h : ∀ q ∈ l, 0 < q.mass ∧ a ≤ q.position.m_y ∧ q.position.m_y ≤ b) :
    a * massSum l ≤ (moment l).m_y ∧ (moment l).m_y ≤ b * massSum l := by
  induction l with
  | nil => simp [massSum, moment, float3.zero_def]
  | cons p l ih =>
    obtain ⟨h1, h2⟩ := ih (fun q hq => h q (List.mem_cons_of_mem _ hq))
    obtain ⟨hm, ha, hb⟩ := h p (List.mem_cons_self _ _)
    rw [massSum_cons, moment_cons]
    simp only [float3.add_def, float3.scaleR]
    constructor <;> nlinarith

theorem moment_z_eq (l : List Particle) (z : ℚ) (h : ∀ q ∈ l, q.position.m_z = z) :
    (moment l).m_z = z * massSum l := by
  induction l with
  | nil => simp [massSum, moment, float3.zero_def]
  | cons p l ih =>
    have h1 := ih (fun q hq => h q (List.mem_cons_of_mem _ hq))
    have h2 := h p (List.mem_cons_self _ _)
    rw [massSum_cons, moment_cons]
    simp only [float3.add_def, float3.scaleR, h1, h2]
    ring

/-- The test theta < 0.7f fails when the centroid is within the side length of the
query position in x and in y and at the same height: theta is at least 1/sqrt 2. -/
theorem thetaBelow_near (length : ℚ) (v : float3) (hx : |v.m_x| ≤ length)
    (hy : |v.m_y| ≤ length) (hz : v.m_z = 0) : thetaBelow length v = false := by
  have hl : 0 ≤ length := le_trans (abs_nonneg _) hx
  have hx2 : v.m_x * v.m_x ≤ length * length := by
    have := abs_le.mp hx
    nlinarith
  have hy2 : v.m_y * v.m_y ≤ length * length := by
    have := abs_le.mp hy
    nlinarith
  unfold thetaBelow
  split_ifs with h0
  · simpa using hl
  · simp only [decide_eq_false_iff_not, not_or, not_lt]
    refine ⟨hl, ?_⟩
    unfold float3.normSq thetaLimit
    rw [hz]
    nlinarith

namespace BarnesHutTree

theorem opened_of_contains (n : BarnesHutTree) (x : Particle) (hg : GeomNode n.data)
    (hi : Inv n) (ha : AggOK n) (hleaf : n.data.isLeaf = false)
    (hpos : ∀ q ∈ storedParticles n, 0 < q.mass)
    (hz : ∀ q ∈ storedParticles n, q.position.m_z = x.position.m_z)
    (hx : NodeContains n.data x = true) :
    thetaBelow n.data.length (n.data.massCenter - x.position) = false := by
  obtain ⟨htm, hlen, hcen⟩ := AggOK_internal n ha hleaf
  have hcen := hcen hpos
  have hne : storedParticles n ≠ [] := by
    intro h0; rw [h0] at hlen; simp at hlen
  have htpos : 0 < n.data.totalMass := by rw [htm]; exact massSum_pos _ hpos hne
  have hin : ∀ q ∈ storedParticles n, InSquare n.data q := fun q hq =>
    (NodeContains_iff n.data q hg).mp (Inv_stored n hi q hq)
  have hxin := (NodeContains_iff n.data x hg).mp hx
  obtain ⟨bx1, bx2⟩ := moment_x_bounds (storedParticles n) n.data.point.m_x
    (n.data.point.m_x + n.data.length) (fun q hq => ⟨hpos q hq, (hin q hq).1, (hin q hq).2.1⟩)
  obtain ⟨by1, by2⟩ := moment_y_bounds (storedParticles n) n.data.point.m_y
    (n.data.point.m_y + n.data.length)
    (fun q hq => ⟨hpos q hq, (hin q hq).2.2.1, (hin q hq).2.2.2⟩)
  have bz := moment_z_eq (storedParticles n) x.position.m_z hz
  rw [← hcen] at bx1 bx2 by1 by2 bz
  rw [← htm] at bx1 bx2 by1 by2 bz
  simp only [float3.scaleR] at bx1 bx2 by1 by2 bz
  have cx1 : n.data.point.m_x ≤ n.data.massCenter.m_x := by
    by_contra hc; push_neg at hc; nlinarith
  have cx2 : n.data.massCenter.m_x ≤ n.data.point.m_x + n.data.length := by
    by_contra hc; push_neg at hc; nlinarith
  have cy1 : n.data.point.m_y ≤ n.data.massCenter.m_y := by
    by_contra hc; push_neg at hc; nlinarith
  have cy2 : n.data.massCenter.m_y ≤ n.data.point.m_y + n.data.length := by
    by_contra hc; push_neg at hc; nlinarith
  have cz : n.data.massCenter.m_z = x.position.m_z := by
    have h0 : (n.data.massCenter.m_z - x.position.m_z) * n.data.totalMass = 0 := by
      rw [sub_mul, bz]; ring
    rcases mul_eq_zero.mp h0 with h1 | h1
    · linarith
    · exact absurd h1 (ne_of_gt htpos)
  obtain ⟨x1, x2, y1, y2⟩ := hxin
  apply thetaBelow_near
  · simp only [float3.sub_def]
    rw [abs_le]; constructor <;> linarith
  · simp only [float3.sub_def]
    rw [abs_le]; constructor <;> linarith
  · simp only [float3.sub_def]
    linarith

end BarnesHutTree

/-! ### Well separated particles are never dropped -/

theorem Apart_symm (δ : ℚ) : Symmetric (Apart δ) := by
  intro p q h
  unfold Apart at h ⊢
  rw [abs_sub_comm q.position.m_x, abs_sub_comm q.position.m_y]
  exact h

namespace BarnesHutTree

theorem not_apart_of_contains (d : NodeFields) (δ : ℚ) (p q : Particle) (hg : GeomNode d)
    (hl : d.length ≤ δ) (hp : NodeContains d p = true) (hq : NodeContains d q = true) :
    ¬ Apart δ p q := by
  obtain ⟨p1, p2, p3, p4⟩ := (NodeContains_iff d p hg).mp hp
  obtain ⟨q1, q2, q3, q4⟩ := (NodeContains_iff d q hg).mp hq
  intro h
  rcases h with h | h
  · have : |p.position.m_x - q.position.m_x| ≤ d.length := by
      rw [abs_le]; constructor <;> linarith
    linarith
  · have : |p.position.m_y - q.position.m_y| ≤ d.length := by
      rw [abs_le]; constructor <;> linarith
    linarith

theorem routeLog_nil (P : BarnesHutTree → Prop) (p : Particle)
    (g : BarnesHutTree → List Particle) (cs : Quad) (h : cs.All P)
    (hg : ∀ c, P c → c.Contains p = true → g c = []) : routeLog p g cs = [] := by
  obtain ⟨h0, h1, h2, h3⟩ := h
  unfold routeLog
  split_ifs with a0 a1 a2 a3
  · exact hg _ h0 a0
  · exact hg _ h1 a1
  · exact hg _ h2 a2
  · exact hg _ h3 a3
  · rfl

theorem childGeom_length (d : NodeFields) (cs : Quad) (h : ChildGeom d cs) :
    cs.All (fun c => c.data.length = 1 / 2 * d.length) :=
  ⟨h.1.2, h.2.1.2, h.2.2.1.2, h.2.2.2.2⟩

theorem half_bound (l δ : ℚ) (level : Nat) (hl : level < cMaxTreeLevel)
    (h : l ≤ δ * 2 ^ (cMaxTreeLevel - level)) :
    1 / 2 * l ≤ δ * 2 ^ (cMaxTreeLevel - (level + 1)) := by
  have e : cMaxTreeLevel - level = (cMaxTreeLevel - (level + 1)) + 1 := by omega
  rw [e, pow_succ] at h
  linarith

theorem route_map (P Q : BarnesHutTree → Prop) (p : Particle)
    (f : BarnesHutTree → BarnesHutTree) (cs : Quad) (h : cs.All P)
    (hpq : ∀ c, P c → Q c) (hf : ∀ c, P c → c.Contains p = true → Q (f c)) :
    (route p f cs).All Q := by
  obtain ⟨h0, h1, h2, h3⟩ := h
  unfold route
  split_ifs with a0 a1 a2 a3
  · exact ⟨hf _ h0 a0, hpq _ h1, hpq _ h2, hpq _ h3⟩
  · exact ⟨hpq _ h0, hf _ h1 a1, hpq _ h2, hpq _ h3⟩
  · exact ⟨hpq _ h0, hpq _ h1, hf _ h2 a2, hpq _ h3⟩
  · exact ⟨hpq _ h0, hpq _ h1, hpq _ h2, hf _ h3 a3⟩
  · exact ⟨hpq _ h0, hpq _ h1, hpq _ h2, hpq _ h3⟩

theorem children_sublist (d : NodeFields) (c0 c1 c2 c3 : BarnesHutTree)
    (h : d.isLeaf = false) :
    Quad.All (fun c => (storedParticles c).Sublist (storedParticles (quad d c0 c1 c2 c3)))
      ⟨c0, c1, c2, c3⟩ := by
  have hs : storedParticles (quad d c0 c1 c2 c3) =
      storedParticles c0 ++ (storedParticles c1 ++ (storedParticles c2 ++ storedParticles c3)) := by
    simp [storedParticles, h]
  refine ⟨?_, ?_, ?_, ?_⟩ <;> (show List.Sublist _ _) <;> rw [hs]
  · exact List.sublist_append_left _ _
  · exact (List.sublist_append_left _ _).trans (List.sublist_append_right _ _)
  · exact ((List.sublist_append_left _ _).trans (List.sublist_append_right _ _)).trans
      (List.sublist_append_right _ _)
  · exact ((List.sublist_append_right _ _).trans (List.sublist_append_right _ _)).trans
      (List.sublist_append_right _ _)

/-- An insertion among particles that are pairwise more than δ apart, into a node
of side at most δ * 2^(50 - level), drops nothing: two particles never reach a
common node at level 50. -/
theorem droppedAux_separated (δ : ℚ) (n : Nat) :
    ∀ (t : BarnesHutTree) (p : Particle) (level : Nat), Geom t → Inv t → AggOK t →
      level ≤ cMaxTreeLevel → cMaxTreeLevel + 2 ≤ level + n →
      t.data.length ≤ δ * 2 ^ (cMaxTreeLevel - level) →
      (∀ q ∈ storedParticles t, Apart δ p q) → (storedParticles t).Pairwise (Apart δ) →
      droppedAux n t p level = [] := by
  induction n with
  | zero => intro t p level _ _ _ hl hf _ _ _; omega
  | succ n ih =>
    intro t p level hg hi ha hl hf hlen hap hpw
    by_cases hc : t.Contains p = true
    swap
    · exact droppedAux_out _ t p level (by simpa using hc)
    by_cases hleaf : t.data.isLeaf = true
    · cases hq : t.data.particle_ with
      | none => exact droppedAux_store _ t p level hl hleaf hq
      | some q =>
        have hst : storedParticles t = [q] := by rw [stored_of_leaf t hleaf, hq]; rfl
        have hqc : NodeContains t.data q = true := Inv_stored t hi q (by rw [hst]; simp)
        have hapq : Apart δ p q := hap q (by rw [hst]; simp)
        by_cases h50 : level = cMaxTreeLevel
        · subst h50
          simp only [Nat.sub_self, pow_zero, mul_one] at hlen
          exact absurd hapq (not_apart_of_contains t.data δ p q (Geom_node t hg) hlen hc hqc)
        have hlt : level < cMaxTreeLevel := by omega
        obtain ⟨n, rfl⟩ : ∃ k, n = k + 1 := ⟨n - 1, by omega⟩
        rw [droppedAux_split _ t p q level hc hl hleaf hq]
        obtain ⟨hcg, hgeo, hemp⟩ := splitChildren_spec t hg
        have hA0 : (splitChildren t).All (fun c => (Geom c ∧ EmptyLeaf c) ∧
            c.data.length = 1 / 2 * t.data.length) :=
          Quad.all_and (Quad.all_and hgeo hemp) (childGeom_length _ _ hcg)
        have hdq : routeLog q (fun c => droppedAux (n + 1) c q (level + 1))
            (splitChildren t) = [] :=
          routeLog_nil _ q _ _ hA0
            (fun c hc' _ => droppedAux_store _ c q (level + 1) (by omega) hc'.1.2.1 hc'.1.2.2)
        have hA1 := route_map _ (fun c => (Geom c ∧ Inv c ∧ AggOK c) ∧
            c.data.length = 1 / 2 * t.data.length ∧ (storedParticles c).Sublist [q]) q
          (fun c => insertAux (n + 1) c q (level + 1)) (splitChildren t) hA0
          (fun c h => ⟨⟨h.1.1, Inv_EmptyLeaf c h.1.2, AggOK_of_leaf c h.1.2.1⟩, h.2,
            by rw [stored_EmptyLeaf c h.1.2]; exact List.nil_sublist _⟩)
          (fun c h hcc => by
            beta_reduce
            rw [insertAux_store n c q (level + 1) hcc (by omega) h.1.2.1 h.1.2.2]
            have hl2 : (c.setData { c.data with particle_ := some q }).data.isLeaf = true := by
              simpa using h.1.2.1
            refine ⟨⟨Geom_setData _ _ h.1.1 rfl rfl rfl, ?_, AggOK_of_leaf _ hl2⟩, ?_, ?_⟩
            · apply Inv_of_leaf _ hl2
              intro x hx
              simp only [data_setData, Option.mem_def, Option.some.injEq] at hx
              subst hx
              simpa [Contains, NodeContains] using hcc
            · simpa using h.2
            · rw [stored_of_leaf _ hl2]
              simp)
        rw [hdq, List.nil_append]
        apply routeLog_nil _ p _ _ hA1
        intro c h _
        apply ih c p (level + 1) h.1.1 h.1.2.1 h.1.2.2 (by omega) (by omega)
        · rw [h.2.1]; exact half_bound _ _ _ hlt hlen
        · intro x hx
          have := h.2.2.subset hx
          simp only [List.mem_singleton] at this
          subst this
          exact hapq
        · exact List.Pairwise.sublist h.2.2 (List.pairwise_singleton _ _)
    · have hleaf : t.data.isLeaf = false := by simpa using hleaf
      cases t with
      | bare d => exact absurd hi.1 (by simpa using hleaf)
      | quad d c0 c1 c2 c3 =>
        simp only [data_quad] at hleaf hlen
        obtain ⟨hm, hlen2, -, a0, a1, a2, a3⟩ := ha hleaf
        by_cases h50 : level = cMaxTreeLevel
        · subst h50
          simp only [Nat.sub_self, pow_zero, mul_one] at hlen
          exfalso
          match hs : storedParticles (quad d c0 c1 c2 c3), hlen2 with
          | [], h => simp [hs] at h
          | [a], h => simp [hs] at h
          | a :: b :: rest, _ =>
            rw [hs] at hpw
            have hab : Apart δ a b := (List.pairwise_cons.mp hpw).1 b (by simp)
            have hca := Inv_stored _ hi a (by rw [hs]; simp)
            have hcb := Inv_stored _ hi b (by rw [hs]; simp)
            exact not_apart_of_contains d δ a b hg.1 hlen hca hcb hab
        have hlt : level < cMaxTreeLevel := by omega
        rw [droppedAux_internal n d c0 c1 c2 c3 p level hc hl hleaf]
        obtain ⟨hd, hcg, g0, g1, g2, g3⟩ := hg
        obtain ⟨i0, i1, i2, i3⟩ := hi.2 hleaf
        have hA : Quad.All (fun c => ((Geom c ∧ Inv c ∧ AggOK c) ∧
            c.data.length = 1 / 2 * d.length) ∧
            (storedParticles c).Sublist (storedParticles (quad d c0 c1 c2 c3)))
            ⟨c0, c1, c2, c3⟩ :=
          Quad.all_and (Quad.all_and ⟨⟨g0, i0, a0⟩, ⟨g1, i1, a1⟩, ⟨g2, i2, a2⟩, ⟨g3, i3, a3⟩⟩
            (childGeom_length _ _ hcg)) (children_sublist d c0 c1 c2 c3 hleaf)
        apply routeLog_nil _ p _ _ hA
        intro c h _
        apply ih c p (level + 1) h.1.1.1 h.1.1.2.1 h.1.1.2.2 (by omega) (by omega)
        · rw [h.1.2]; exact half_bound _ _ _ hlt hlen
        · exact fun x hx => hap x (h.2.subset hx)
        · exact List.Pairwise.sublist h.2 hpw

theorem dropped_separated (δ : ℚ) (t : BarnesHutTree) (p : Particle) (hg : Geom t) (hi : Inv t)
    (ha : AggOK t) (hlen : t.data.length ≤ δ * 2 ^ cMaxTreeLevel)
    (hap : ∀ q ∈ storedParticles t, Apart δ p q) (hpw : (storedParticles t).Pairwise (Apart δ)) :
    dropped t p 0 = [] :=
  droppedAux_separated δ _ t p 0 hg hi ha (by decide) (by decide) hlen hap hpw

/-- A build from particles that are pairwise more than δ apart, in a root of side
at most δ * 2^50, drops nothing. -/
theorem droppedAll_separated (δ : ℚ) (ps : List Particle) : ∀ t : BarnesHutTree,
    Geom t → Inv t → AggOK t → t.data.length ≤ δ * 2 ^ cMaxTreeLevel →
    (storedParticles t ++ ps).Pairwise (Apart δ) → droppedAll t ps = [] := by
  induction ps with
  | nil => intro t _ _ _ _ _; rfl
  | cons p ps ih =>
    intro t hg hi ha hlen hpw
    have hpw0 := hpw
    rw [List.pairwise_append] at hpw
    obtain ⟨hs, hps, hcross⟩ := hpw
    have hdp : dropped t p 0 = [] :=
      dropped_separated δ t p hg hi ha hlen
        (fun q hq => Apart_symm δ (hcross q hq p (List.mem_cons_self _ _))) hs
    obtain ⟨hi1, hperm⟩ := Insert_inv t p 0 hg hi
    rw [hdp, List.append_nil] at hperm
    have hnext : (storedParticles (Insert t p 0) ++ ps).Pairwise (Apart δ) := by
      have h1 : (storedParticles t ++ ps).Pairwise (Apart δ) :=
        List.Pairwise.sublist
          (List.Sublist.append_left (List.sublist_cons_self p ps) _) hpw0
      have h2 : (p :: (storedParticles t ++ ps)).Pairwise (Apart δ) :=
        (List.Perm.pairwise_iff (fun {a b} h => Apart_symm δ h) List.perm_middle).mp hpw0
      by_cases hc : t.Contains p = true
      · simp only [hc, if_true] at hperm
        exact (List.Perm.pairwise_iff (fun {a b} h => Apart_symm δ h)
          (hperm.append_right ps)).mpr (by simpa using h2)
      · simp only [hc, Bool.false_eq_true, if_false, List.nil_append] at hperm
        exact (List.Perm.pairwise_iff (fun {a b} h => Apart_symm δ h)
          (hperm.append_right ps)).mpr h1
    simp only [droppedAll, hdp, List.nil_append]
    exact ih _ (Insert_geom t p 0 hg) hi1 (Insert_agg t p 0 hg hi ha hdp)
      (by rw [(Insert_frame t p 0).2.1]; exact hlen) hnext

/-- A node whose side is at most δ cannot be internal in a build without drops
from particles more than δ apart: it would hold two of them in its square. -/
theorem small_node_is_leaf (δ : ℚ) (n : BarnesHutTree) (hg : GeomNode n.data) (hi : Inv n)
    (ha : AggOK n) (hlen : n.data.length ≤ δ) (hpw : (storedParticles n).Pairwise (Apart δ)) :
    n.data.isLeaf = true := by
  by_contra hleaf
  have hleaf : n.data.isLeaf = false := by simpa using hleaf
  have h2 := (AggOK_internal n ha hleaf).2.1
  match hs : storedParticles n, h2 with
  | [], h => simp [hs] at h
  | [a], h => simp [hs] at h
  | a :: b :: rest, _ =>
    rw [hs] at hpw
    have hab : Apart δ a b := (List.pairwise_cons.mp hpw).1 b (by simp)
    have hca := Inv_stored _ hi a (by rw [hs]; simp)
    have hcb := Inv_stored _ hi b (by rw [hs]; simp)
    exact not_apart_of_contains n.data δ a b hg hlen hca hcb hab

theorem reachable_length (t : BarnesHutTree) (hg : Geom t) (h0 : 0 ≤ t.data.length) :
    ∀ n ∈ reachableNodes t, n = t ∨ n.data.length ≤ 1 / 2 * t.data.length := by
  induction t with
  | bare d =>
    intro n hn
    simp only [reachableNodes, List.mem_singleton] at hn
    exact Or.inl hn
  | quad d c0 c1 c2 c3 ih0 ih1 ih2 ih3 =>
    intro n hn
    obtain ⟨-, hcg, g0, g1, g2, g3⟩ := hg
    obtain ⟨l0, l1, l2, l3⟩ := childGeom_length _ _ hcg
    simp only [data_quad] at h0 ⊢
    by_cases hleaf : d.isLeaf = true
    · simp only [reachableNodes, hleaf, if_true, List.mem_singleton] at hn
      exact Or.inl hn
    · have hleaf : d.isLeaf = false := by simpa using hleaf
      simp only [reachableNodes, hleaf, Bool.false_eq_true, if_false, List.mem_cons,
        List.mem_append] at hn
      have key : ∀ c : BarnesHutTree, c.data.length = 1 / 2 * d.length →
          (n = c ∨ n.data.length ≤ 1 / 2 * c.data.length) →
          n.data.length ≤ 1 / 2 * d.length := by
        intro c hc h
        rcases h with rfl | h
        · rw [hc]
        · rw [hc] at h; linarith
      rcases hn with rfl | ((hn | hn) | hn) | hn
      · exact Or.inl rfl
      · exact Or.inr (key c0 l0 (ih0 g0 (by rw [l0]; linarith) n hn))
      · exact Or.inr (key c1 l1 (ih1 g1 (by rw [l1]; linarith) n hn))
      · exact Or.inr (key c2 l2 (ih2 g2 (by rw [l2]; linarith) n hn))
      · exact Or.inr (key c3 l3 (ih3 g3 (by rw [l3]; linarith) n hn))

theorem corners_apart (m : ℚ) : (cornerParticles m).Pairwise (Apart (1 / 2)) := by
  simp only [cornerParticles, List.pairwise_cons, List.mem_cons, List.mem_singleton,
    List.not_mem_nil, forall_eq_or_imp, forall_eq, Apart, List.Pairwise.nil, and_true,
    false_implies, implies_true]
  norm_num [abs_of_neg, abs_of_pos]

theorem corners_facts (m : ℚ) (x : Particle) (hx : x ∈ cornerParticles m) :
    x.mass = m ∧ x.position.m_z = 0 ∧ (new ⟨0, 0, 0⟩ 1).Contains x = true := by
  simp only [cornerParticles, List.mem_cons, List.mem_singleton, List.not_mem_nil,
    or_false] at hx
  rcases hx with rfl | rfl | rfl | rfl <;>
    simp [Contains, NodeContains, new, float3.add_def, float3.splat]

/-- C5. Four-corner scenario: four particles of equal positive mass m at the
corners of the unit square are inserted in any order with level 0 into an empty
root with origin (0,0,0) and side 1. For every softening s and each of the four
particles, ComputeAcceleration at the root equals the brute-force sum of the direct
terms GravityAcceleration(p_j - p_i, m, s) over the other three particles: every
internal node is opened. -/
theorem four_corners (G : GravityLaw) (m s : ℚ) (hm : 0 < m) (ps : List Particle)
    (hperm : ps.Perm (cornerParticles m)) :
    ∀ x ∈ ps,
      ComputeAcceleration G (InsertAll (new ⟨0, 0, 0⟩ 1) ps) x s =
        bruteForceAcceleration G ps x s ∧
      Opened (InsertAll (new ⟨0, 0, 0⟩ 1) ps) x := by
  have hg0 : Geom (new ⟨0, 0, 0⟩ 1) := Geom_new _ _
  have he0 : EmptyLeaf (new ⟨0, 0, 0⟩ 1) := EmptyLeaf_new _ _
  have hfacts : ∀ x ∈ ps, x.mass = m ∧ x.position.m_z = 0 ∧
      (new ⟨0, 0, 0⟩ 1).Contains x = true :=
    fun x hx => corners_facts m x (hperm.subset hx)
  have hpw : ps.Pairwise (Apart (1 / 2)) :=
    (List.Perm.pairwise_iff (fun {a b} h => Apart_symm _ h) hperm).mpr (corners_apart m)
  have hdrop : droppedAll (new ⟨0, 0, 0⟩ 1) ps = [] :=
    droppedAll_separated (1 / 2) ps _ hg0 (Inv_EmptyLeaf _ he0) (AggOK_of_leaf _ he0.1)
      (by norm_num [new, cMaxTreeLevel]) (by rw [stored_EmptyLeaf _ he0]; simpa using hpw)
  obtain ⟨hi, hst⟩ := InsertAll_inv ps _ hg0 (Inv_EmptyLeaf _ he0)
  rw [hdrop, List.append_nil, stored_EmptyLeaf _ he0, List.append_nil,
    List.filter_eq_self.mpr (fun x hx => (hfacts x hx).2.2)] at hst
  have ha := InsertAll_agg ps _ hg0 (Inv_EmptyLeaf _ he0) (AggOK_of_leaf _ he0.1) hdrop
  have hgT := InsertAll_geom ps _ hg0
  have hlenT : (InsertAll (new ⟨0, 0, 0⟩ 1) ps).data.length = 1 :=
    (InsertAll_frame ps _).2.1
  have hpwT : (storedParticles (InsertAll (new ⟨0, 0, 0⟩ 1) ps)).Pairwise (Apart (1 / 2)) :=
    (List.Perm.pairwise_iff (fun {a b} h => Apart_symm _ h) hst).mpr hpw
  intro x hx
  have hopen : Opened (InsertAll (new ⟨0, 0, 0⟩ 1) ps) x := by
    intro n hn hleaf
    obtain ⟨hin, han, hsub⟩ := reachable_inv _ hi ha n hn
    have hgn := Geom_node n (reachable_geom _ hgT n hn)
    rcases reachable_length _ hgT (by rw [hlenT]; norm_num) n hn with rfl | hsmall
    · apply opened_of_contains _ x hgn hin han hleaf
      · intro q hq
        rw [(hfacts q (hst.subset hq)).1]; exact hm
      · intro q hq
        rw [(hfacts q (hst.subset hq)).2.1, (hfacts x hx).2.1]
      · have := (hfacts x hx).2.2
        rw [← Contains_congr _ _ x (InsertAll_frame ps _).1 (InsertAll_frame ps _).2.2] at this
        exact this
    · rw [hlenT] at hsmall
      have := small_node_is_leaf (1 / 2) n hgn hin han (by linarith)
        (List.Pairwise.sublist hsub hpwT)
      rw [this] at hleaf
      exact absurd hleaf (by decide)
  exact ⟨by rw [compute_of_opened G x s _ hopen, bruteForce_perm G hst], hopen⟩

/-- Instance of C5: unit masses, the corners inserted in the order 2, 0, 3, 1;
the acceleration of the particle at (1, 1) is the sum of the three direct terms. -/
theorem four_corners_witness :
    (0 : ℚ) < 1 ∧
    ([⟨2, ⟨1, 1, 0⟩, 1⟩, ⟨0, ⟨0, 0, 0⟩, 1⟩, ⟨3, ⟨0, 1, 0⟩, 1⟩, ⟨1, ⟨1, 0, 0⟩, 1⟩] :
      List Particle).Perm (cornerParticles 1) ∧
    ∀ (G : GravityLaw) (s : ℚ),
      ComputeAcceleration G
          (InsertAll (new ⟨0, 0, 0⟩ 1)
            [⟨2, ⟨1, 1, 0⟩, 1⟩, ⟨0, ⟨0, 0, 0⟩, 1⟩, ⟨3, ⟨0, 1, 0⟩, 1⟩, ⟨1, ⟨1, 0, 0⟩, 1⟩])
          ⟨2, ⟨1, 1, 0⟩, 1⟩ s =
        G.direct ⟨-1, -1, 0⟩ 1 s + (G.direct ⟨-1, 0, 0⟩ 1 s + (G.direct ⟨0, -1, 0⟩ 1 s + 0)) :=
  ⟨by decide, by decide, fun G s =>
    ((four_corners G 1 s (by decide) _ (by decide) ⟨2, ⟨1, 1, 0⟩, 1⟩ (by simp)).1).trans
      (by simp [bruteForceAcceleration, float3.sub_def])⟩

/-- An internal node that passes the test theta < 0.7 is replaced by the point
mass totalMass at massCenter, whatever is stored below it. -/
theorem compute_point_mass (G : GravityLaw) (t : BarnesHutTree) (x : Particle) (s : ℚ)
    (hleaf : t.data.isLeaf = false)
    (ht : thetaBelow t.data.length (t.data.massCenter - x.position) = true) :
    ComputeAcceleration G t x s =
      G.withNorm (t.data.massCenter - x.position) t.data.totalMass s := by
  cases t with
  | bare d =>
    simp only [data_bare] at hleaf ht
    simp [ComputeAcceleration, accelerationAt, hleaf, ht]
  | quad d c0 c1 c2 c3 =>
    simp only [data_quad] at hleaf ht
    simp [ComputeAcceleration, accelerationAt, hleaf, ht]

/-- C3 fails on the code. Two distinct particles of mass 1 are inserted into the
unit root: one at the origin, one above the corner (1, 1) at height 4. Both are
stored in leaves, the root has totalMass 2 and centroid (1/2, 1/2, 2). For the
particle at the origin r^2 = 9/2, so theta = 1 / r is below 0.7f (and below 0.7)
and its acceleration is the point-mass term of the whole root, with totalMass 2
that counts the particle's own mass 1: the Contains test that places a particle in
a node reads x and y only, the distance to the centroid reads z as well. -/
theorem self_interaction_not_excluded :
    particleA.addr ≠ particleHigh.addr ∧ 0 < particleA.mass ∧ 0 < particleHigh.mass ∧
    storedParticles (InsertAll unitRoot [particleA, particleHigh]) = [particleA, particleHigh] ∧
    (InsertAll unitRoot [particleA, particleHigh]).data.totalMass =
      particleA.mass + particleHigh.mass ∧
    (0 < Real.sqrt ((⟨1 / 2, 1 / 2, 2⟩ : float3).normSq : ℝ) ∧
      ((1 : ℚ) : ℝ) / Real.sqrt ((⟨1 / 2, 1 / 2, 2⟩ : float3).normSq : ℝ) <
        (thetaLimit : ℝ) ∧
      ((1 : ℚ) : ℝ) / Real.sqrt ((⟨1 / 2, 1 / 2, 2⟩ : float3).normSq : ℝ) < 7 / 10) ∧
    ∀ (G : GravityLaw) (s : ℚ),
      ComputeAcceleration G (InsertAll unitRoot [particleA, particleHigh]) particleA s =
        G.withNorm ⟨1 / 2, 1 / 2, 2⟩ 2 s :=
  ⟨by decide, by decide, by decide, by decide!, by decide!,
    (by
      have h := ((thetaBelow_iff_real 1 ⟨1 / 2, 1 / 2, 2⟩).mp (by decide!)).resolve_right
        (fun h => absurd h.2 (by decide))
      exact ⟨h.1, h.2, lt_trans h.2 (by simp only [thetaLimit]; push_cast; norm_num)⟩),
    fun G s =>
      (compute_point_mass G (InsertAll unitRoot [particleA, particleHigh]) particleA s
        (by decide!) (by decide!)).trans
        (by
          have h1 : (InsertAll unitRoot [particleA, particleHigh]).data.massCenter -
              particleA.position = ⟨1 / 2, 1 / 2, 2⟩ := by decide!
          have h2 : (InsertAll unitRoot [particleA, particleHigh]).data.totalMass = 2 := by
            decide!
          rw [h1, h2])⟩

/-! ### Reset, the split of a leaf, and the routing loop -/

/-- C13. Reset postcondition and frame: after Reset the node is an empty leaf
(isLeaf = true, no particle reference) and every other member is unchanged: point,
length, oppositePoint, totalMass, massCenter, and the children array with the
whole subtrees below it (no child is deallocated or reset). Reset is idempotent. -/
theorem Reset_postcondition (t : BarnesHutTree) :
    ((Reset t).data.isLeaf = true ∧ (Reset t).data.particle_ = none) ∧
    ((Reset t).data.point = t.data.point ∧ (Reset t).data.length = t.data.length ∧
      (Reset t).data.oppositePoint = t.data.oppositePoint ∧
      (Reset t).data.totalMass = t.data.totalMass ∧
      (Reset t).data.massCenter = t.data.massCenter) ∧
    (∀ d : NodeFields, t = bare d → Reset t = bare { d with isLeaf := true, particle_ := none }) ∧
    (∀ (d : NodeFields) (c0 c1 c2 c3 : BarnesHutTree), t = quad d c0 c1 c2 c3 →
      Reset t = quad { d with isLeaf := true, particle_ := none } c0 c1 c2 c3) ∧
    Reset (Reset t) = Reset t := by
  refine ⟨⟨?_, ?_⟩, ⟨?_, ?_, ?_, ?_, ?_⟩, ?_, ?_, ?_⟩
  · simp [Reset]
  · simp [Reset]
  · simp [Reset]
  · simp [Reset]
  · simp [Reset]
  · simp [Reset]
  · simp [Reset]
  · rintro d rfl; rfl
  · rintro d c0 c1 c2 c3 rfl; rfl
  · cases t <;> rfl

end BarnesHutTree

namespace Application

/-! ### The solver thread and the started flag -/

theorem solverThreadIteration_spec {U : Type} (Solve : ℚ → U → U) (a : Application U) :
    (solverThreadIteration Solve a).solveCalls = a.solveCalls + 1 ∧
    (solverThreadIteration Solve a).particles = Solve a.deltaTime a.particles ∧
    (solverThreadIteration Solve a).simulationTime = a.simulationTime + a.deltaTime ∧
    (solverThreadIteration Solve a).numSteps = a.numSteps + 1 ∧
    (solverThreadIteration Solve a).started = a.started ∧
    (solverThreadIteration Solve a).deltaTime = a.deltaTime :=
  ⟨rfl, rfl, rfl, rfl, rfl, rfl⟩

theorem solverThreadIteration_started_irrelevant {U : Type} (Solve : ℚ → U → U)
    (a : Application U) (s : Bool) :
    solverThreadIteration Solve { a with started := s } =
      { solverThreadIteration Solve a with started := s } := rfl

theorem solverThread_counts {U : Type} (Solve : ℚ → U → U) (n : Nat) :
    ∀ a : Application U,
      (solverThread Solve n a).solveCalls = a.solveCalls + n ∧
      (solverThread Solve n a).numSteps = a.numSteps + n ∧
      (solverThread Solve n a).simulationTime = a.simulationTime + n * a.deltaTime ∧
      (solverThread Solve n a).started = a.started ∧
      (solverThread Solve n a).deltaTime = a.deltaTime := by
  induction n with
  | zero => intro a; simp [solverThread]
  | succ n ih =>
    intro a
    obtain ⟨h1, h2, h3, h4, h5⟩ := ih (solverThreadIteration Solve a)
    obtain ⟨e1, -, e3, e4, e5, e6⟩ := solverThreadIteration_spec Solve a
    simp only [solverThread]
    rw [h1, h2, h3, h4, h5, e1, e3, e4, e5, e6]
    refine ⟨by omega, by push_cast; ring, by push_cast; ring, rfl, rfl⟩

theorem OnIdle_eq {U : Type} (a : Application U) : OnIdle a = a := by
  unfold OnIdle; split_ifs <;> rfl

theorem OnKeyboard_space {U : Type} (a : Application U) :
    (OnKeyboard 32 a).started = false ∧ (OnKeyboard 32 a).deltaTime = a.deltaTime ∧
    (OnKeyboard 32 a).simulationTime = a.simulationTime ∧
    (OnKeyboard 32 a).numSteps = a.numSteps ∧ (OnKeyboard 32 a).particles = a.particles := by
  simp [OnKeyboard]

theorem OnKeyboard_enter {U : Type} (a : Application U) :
    (OnKeyboard 13 a).started = true := by
  cases h : a.started <;> simp [OnKeyboard, h]

/-- C14. Pause gating fails in the code: in the state in which Run starts the solver
thread (started = false, time step 0.00000005, nothing counted), one iteration of
the loop of the solver thread calls Solve once, advances simulationTime by the time
step, increments numSteps, and hands the particle state to the solver, which moves
it; started is still false afterwards, and the same happens after SPACE has
cleared it. -/
theorem pause_gating_violated :
    pausedApplication.started = false ∧
    (solverThreadIteration driftSolve pausedApplication).started = false ∧
    (solverThreadIteration driftSolve pausedApplication).solveCalls =
      pausedApplication.solveCalls + 1 ∧
    (solverThreadIteration driftSolve pausedApplication).simulationTime = 1 / 20000000 ∧
    (solverThreadIteration driftSolve pausedApplication).simulationTime ≠
      pausedApplication.simulationTime ∧
    (solverThreadIteration driftSolve pausedApplication).numSteps = 1 ∧
    (solverThreadIteration driftSolve pausedApplication).numSteps ≠
      pausedApplication.numSteps ∧
    (solverThreadIteration driftSolve pausedApplication).particles ≠
      pausedApplication.particles ∧
    (OnKeyboard 32 pausedApplication).started = false ∧
    (solverThreadIteration driftSolve (OnKeyboard 32 pausedApplication)).numSteps = 1 := by
  refine ⟨rfl, rfl, rfl, ?_, ?_, rfl, ?_, ?_, ?_, ?_⟩ <;> decide!

end Application

namespace integration

/-! ### Exactness of the quadrature rules on affine integrands -/

theorem rect_sum_affine {K : Type} [Field K] [CharZero K] (a h hh c d : K) (f : K → K)
    (hf : ∀ x, f x = c * x + d) (m : Nat) :
    (List.range m).foldl (fun (res : K) (i : Nat) => res + f (a + (i : K) * h + hh)) 0 =
      (m : K) * (c * a + c * hh + d) + c * h * ((m : K) * ((m : K) - 1) / 2) := by
  induction m with
  | zero => simp
  | succ m ih =>
    rw [List.range_succ, List.foldl_append, ih]
    simp only [List.foldl_cons, List.foldl_nil, hf]
    push_cast
    field_simp
    ring

theorem trap_sum_affine {K : Type} [Field K] [CharZero K] (a h c d init : K) (f : K → K)
    (hf : ∀ x, f x = c * x + d) (k : Nat) :
    (List.range' 1 k).foldl (fun (res : K) (i : Nat) => res + f (a + (i : K) * h)) init =
      init + (k : K) * (c * a + d) + c * h * ((k : K) * ((k : K) + 1) / 2) := by
  induction k with
  | zero => simp
  | succ k ih =>
    rw [List.range'_1_concat, List.foldl_append, ih]
    simp only [List.foldl_cons, List.foldl_nil, hf]
    push_cast
    field_simp
    ring

/-- C15. Exactness of quadrature on affine integrands: over exact arithmetic in a
field of characteristic zero (the reals, the rationals), for all a and b, every
n ≥ 1 and every affine f(x) = c * x + d, both integration::rect and
integration::trap return exactly (b - a) * (f(a) + f(b)) / 2. -/
theorem quadrature_exact_on_affine {K : Type} [Field K] [CharZero K] (a b c d : K)
    (n : Int) (f : K → K) (hn : 1 ≤ n) (hf : ∀ x, f x = c * x + d) :
    rect a b n f = (b - a) * (f a + f b) / 2 ∧ trap a b n f = (b - a) * (f a + f b) / 2 := by
  obtain ⟨m, rfl⟩ : ∃ m : Nat, n = (m : Int) + 1 := ⟨(n - 1).toNat, by omega⟩
  have hm : (((m : Int) + 1 : Int) : K) = (m : K) + 1 := by push_cast; ring
  have hne : (m : K) + 1 ≠ 0 := by exact_mod_cast Nat.succ_ne_zero m
  have ht : ((m : Int) + 1).toNat = m + 1 := by omega
  constructor
  · simp only [rect]
    rw [ht, rect_sum_affine a _ _ c d f hf, hm, hf a, hf b]
    push_cast
    field_simp
    ring
  · simp only [trap]
    rw [ht, Nat.add_sub_cancel, trap_sum_affine a _ c d _ f hf, hm, hf a, hf b]
    field_simp
    ring

/-- Instance of C15: f(x) = 3 * x + 1 on [0, 2] with n = 4 over the rationals; both
rules return 8. -/
theorem quadrature_exact_on_affine_witness :
    (1 : Int) ≤ 4 ∧ (∀ x : ℚ, (fun y : ℚ => 3 * y + 1) x = 3 * x + 1) ∧
    rect (0 : ℚ) 2 4 (fun y => 3 * y + 1) =
      (2 - 0) * ((fun y : ℚ => 3 * y + 1) 0 + (fun y : ℚ => 3 * y + 1) 2) / 2 ∧
    trap (0 : ℚ) 2 4 (fun y => 3 * y + 1) =
      (2 - 0) * ((fun y : ℚ => 3 * y + 1) 0 + (fun y : ℚ => 3 * y + 1) 2) / 2 :=
  ⟨by decide, fun _ => rfl,
    quadrature_exact_on_affine (0 : ℚ) 2 3 1 4 (fun y => 3 * y + 1) (by decide) (fun _ => rfl)⟩

theorem rect_sample_value : rect (0 : ℚ) 2 4 (fun y => 3 * y + 1) = 8 := by decide!

theorem trap_sample_value : trap (0 : ℚ) 2 4 (fun y => 3 * y + 1) = 8 := by decide!

end integration

namespace Binary32

namespace BarnesHutTree

/-! ### The tree over binary32: unfolding Insert -/

@[simp]
theorem data_bare32 (d : NodeFields) : (bare d).data = d := rfl

@[simp]
theorem data_quad32 (d : NodeFields) (c0 c1 c2 c3 : BarnesHutTree) :
    (quad d c0 c1 c2 c3).data = d := rfl

@[simp]
theorem data_setData32 (t : BarnesHutTree) (d : NodeFields) : (t.setData d).data = d := by
  cases t <;> rfl

theorem EmptyLeaf_Reset32 (t : BarnesHutTree) : EmptyLeaf t.Reset := by
  simp [EmptyLeaf, Reset]

theorem EmptyLeaf_new32 (point : float3) (length : F32) : EmptyLeaf (new point length) := by
  simp [EmptyLeaf, new]

theorem stored_of_leaf32 (t : BarnesHutTree) (h : t.data.isLeaf = true) :
    storedParticles t = t.data.particle_.toList := by
  cases t <;> simp_all [storedParticles]

theorem stored_EmptyLeaf32 (t : BarnesHutTree) (h : EmptyLeaf t) : storedParticles t = [] := by
  rw [stored_of_leaf32 t h.1, h.2]; rfl

theorem stored_quad_internal32 (d : NodeFields) (c0 c1 c2 c3 : BarnesHutTree)
    (h : d.isLeaf = false) :
    storedParticles (quad d c0 c1 c2 c3) = Quad.stored ⟨c0, c1, c2, c3⟩ := by
  simp [storedParticles, Quad.stored, h]

theorem stored_bare_internal32 (d : NodeFields) (h : d.isLeaf = false) :
    storedParticles (bare d) = [] := by
  simp [storedParticles, h]

/-- The frame of a node: the members that fix its square. -/
theorem Contains_congr32 (s t : BarnesHutTree) (p : Particle)
    (hp : s.data.point = t.data.point) (ho : s.data.oppositePoint = t.data.oppositePoint) :
    s.Contains p = t.Contains p := by
  simp [Contains, NodeContains, hp, ho]

theorem Contains_setData32 (t : BarnesHutTree) (d : NodeFields) (p : Particle)
    (hp : d.point = t.data.point) (ho : d.oppositePoint = t.data.oppositePoint) :
    (t.setData d).Contains p = t.Contains p :=
  Contains_congr32 _ _ _ (by simpa using hp) (by simpa using ho)

theorem Contains_Reset32 (t : BarnesHutTree) (p : Particle) : t.Reset.Contains p = t.Contains p :=
  Contains_setData32 t _ p rfl rfl

theorem splitChildren_setData32 (t : BarnesHutTree) (d : NodeFields)
    (hp : d.point = t.data.point) (hl : d.length = t.data.length) :
    splitChildren (t.setData d) = splitChildren t := by
  cases t with
  | bare d0 =>
    simp only [data_bare32] at hp hl
    simp only [setData, splitChildren, hp, hl]
  | quad d0 c0 c1 c2 c3 => rfl

theorem splitChildren_empty32 (t : BarnesHutTree) : (splitChildren t).All EmptyLeaf := by
  cases t with
  | bare d => exact ⟨EmptyLeaf_new32 _ _, EmptyLeaf_new32 _ _, EmptyLeaf_new32 _ _,
      EmptyLeaf_new32 _ _⟩
  | quad d c0 c1 c2 c3 => exact ⟨EmptyLeaf_Reset32 _, EmptyLeaf_Reset32 _, EmptyLeaf_Reset32 _,
      EmptyLeaf_Reset32 _⟩

/-! ### The routing loop -/

theorem route_eq_set32 (p : Particle) (f : BarnesHutTree → BarnesHutTree) (cs : Quad) :
    route p f cs = cs.set (selIdx p cs) (f (cs.get (selIdx p cs))) := by
  unfold route selIdx
  split_ifs <;> rfl

theorem selIdx_le32 (p : Particle) (cs : Quad) : selIdx p cs ≤ 4 := by
  unfold selIdx
  split_ifs <;> omega

theorem selIdx_contains32 (p : Particle) (cs : Quad) (h : selIdx p cs < 4) :
    (cs.get (selIdx p cs)).Contains p = true := by
  unfold selIdx at h ⊢
  split_ifs at h ⊢ with a0 a1 a2 a3
  · exact a0
  · exact a1
  · exact a2
  · exact a3
  · exact absurd h (by decide)

theorem selIdx_first32 (p : Particle) (cs : Quad) (j : Nat) (h : j < selIdx p cs) :
    (cs.get j).Contains p = false := by
  unfold selIdx at h
  split_ifs at h with a0 a1 a2 a3
  · exact absurd h (by omega)
  · interval_cases j; simpa [Quad.get] using a0
  · interval_cases j
    · simpa [Quad.get] using a0
    · simpa [Quad.get] using a1
  · interval_cases j
    · simpa [Quad.get] using a0
    · simpa [Quad.get] using a1
    · simpa [Quad.get] using a2
  · rcases j with _ | _ | _ | _ | j
    · simpa [Quad.get] using a0
    · simpa [Quad.get] using a1
    · simpa [Quad.get] using a2
    · simpa [Quad.get] using a3
    · exact absurd h (by omega)

theorem selIdx_none32 (p : Particle) (cs : Quad) (h : selIdx p cs = 4) :
    cs.c0.Contains p = false ∧ cs.c1.Contains p = false ∧ cs.c2.Contains p = false ∧
      cs.c3.Contains p = false := by
  have h0 := selIdx_first32 p cs 0 (by omega)
  have h1 := selIdx_first32 p cs 1 (by omega)
  have h2 := selIdx_first32 p cs 2 (by omega)
  have h3 := selIdx_first32 p cs 3 (by omega)
  exact ⟨h0, h1, h2, h3⟩

/-- The selection depends only on the squares of the children. -/
theorem selIdx_congr32 (p : Particle) (cs cs' : Quad)
    (h : ∀ j, j < 4 → (cs'.get j).Contains p = (cs.get j).Contains p) :
    selIdx p cs' = selIdx p cs := by
  have h0 := h 0 (by decide)
  have h1 := h 1 (by decide)
  have h2 := h 2 (by decide)
  have h3 := h 3 (by decide)
  simp only [Quad.get] at h0 h1 h2 h3
  simp only [selIdx, h0, h1, h2, h3]

theorem get_set_self32 (cs : Quad) (i : Nat) (c : BarnesHutTree) (h : i < 4) :
    (cs.set i c).get i = c := by
  interval_cases i <;> rfl

theorem get_set_other32 (cs : Quad) (i j : Nat) (c : BarnesHutTree) (h : j ≠ i) (hj : j < 4) :
    (cs.set i c).get j = cs.get j := by
  interval_cases j <;> rcases i with _ | _ | _ | _ | i <;> first | rfl | exact absurd rfl h

theorem get_set32 (cs : Quad) (i j : Nat) (c : BarnesHutTree) (hj : j < 4) :
    (cs.set i c).get j = if j = i then c else cs.get j := by
  by_cases h : j = i
  · subst h; rw [get_set_self32 _ _ _ hj, if_pos rfl]
  · rw [get_set_other32 _ _ _ _ h hj, if_neg h]

theorem Quad.eta32 (cs : Quad) : (⟨cs.get 0, cs.get 1, cs.get 2, cs.get 3⟩ : Quad) = cs := rfl

theorem Quad.ext_get32 (cs cs' : Quad) (h : ∀ j, j < 4 → cs.get j = cs'.get j) : cs = cs' := by
  have h0 := h 0 (by decide)
  have h1 := h 1 (by decide)
  have h2 := h 2 (by decide)
  have h3 := h 3 (by decide)
  simp only [Quad.get] at h0 h1 h2 h3
  cases cs; cases cs'; simp_all

theorem Quad.all_get32 {P : BarnesHutTree → Prop} {cs : Quad} (h : cs.All P) (j : Nat) :
    P (cs.get j) := by
  rcases j with _ | _ | _ | j
  · exact h.1
  · exact h.2.1
  · exact h.2.2.1
  · exact h.2.2.2

theorem route_all32 (P : BarnesHutTree → Prop) (p : Particle) (f : BarnesHutTree → BarnesHutTree)
    (cs : Quad) (h : cs.All P) (hf : ∀ c, P c → c.Contains p = true → P (f c)) :
    (route p f cs).All P := by
  obtain ⟨h0, h1, h2, h3⟩ := h
  unfold route
  split_ifs with a0 a1 a2 a3
  · exact ⟨hf _ h0 a0, h1, h2, h3⟩
  · exact ⟨h0, hf _ h1 a1, h2, h3⟩
  · exact ⟨h0, h1, hf _ h2 a2, h3⟩
  · exact ⟨h0, h1, h2, hf _ h3 a3⟩
  · exact ⟨h0, h1, h2, h3⟩

/-- Bookkeeping of the routing loop: the particle ends up stored or logged, and
nothing else changes. -/
theorem route_perm32 (p : Particle) (f : BarnesHutTree → BarnesHutTree)
    (g : BarnesHutTree → List (Loss × Particle)) (cs : Quad)
    (hf : ∀ c, c.Contains p = true →
      (storedParticles (f c) ++ (g c).map Prod.snd).Perm (p :: storedParticles c)) :
    ((route p f cs).stored ++ (routeLog p g cs).map Prod.snd).Perm (p :: cs.stored) := by
  unfold route routeLog Quad.stored
  split_ifs with a0 a1 a2 a3
  · have e := hf _ a0
    rw [List.perm_iff_count] at e ⊢
    intro a
    have := e a
    simp only [List.count_append, List.count_cons] at this ⊢
    omega
  · have e := hf _ a1
    rw [List.perm_iff_count] at e ⊢
    intro a
    have := e a
    simp only [List.count_append, List.count_cons] at this ⊢
    omega
  · have e := hf _ a2
    rw [List.perm_iff_count] at e ⊢
    intro a
    have := e a
    simp only [List.count_append, List.count_cons] at this ⊢
    omega
  · have e := hf _ a3
    rw [List.perm_iff_count] at e ⊢
    intro a
    have := e a
    simp only [List.count_append, List.count_cons] at this ⊢
    omega
  · simp only [List.map_cons, List.map_nil]
    rw [List.perm_iff_count]
    intro a
    simp only [List.count_append, List.count_cons, List.count_nil]
    omega

/-! ### The equations of insertAux -/

theorem insertAux_out32 (n : Nat) (t : BarnesHutTree) (p : Particle) (level : Nat)
    (h : t.Contains p = false ∨ level > cMaxTreeLevel) : insertAux n t p level = t := by
  cases n with
  | zero => rfl
  | succ n =>
    rcases h with h | h
    · simp [insertAux, h]
    · simp [insertAux, h]

theorem insertAux_store32 (n : Nat) (t : BarnesHutTree) (p : Particle) (level : Nat)
    (hc : t.Contains p = true) (hl : level ≤ cMaxTreeLevel) (hleaf : t.data.isLeaf = true)
    (hn : t.data.particle_ = none) :
    insertAux (n + 1) t p level = t.setData { t.data with particle_ := some p } := by
  simp [insertAux, hc, Nat.not_lt.mpr hl, hleaf, hn]

theorem insertAux_split32 (n : Nat) (t : BarnesHutTree) (p q : Particle) (level : Nat)
    (hc : t.Contains p = true) (hl : level ≤ cMaxTreeLevel) (hleaf : t.data.isLeaf = true)
    (hq : t.data.particle_ = some q) :
    insertAux (n + 1) t p level =
      quad { t.data with
              isLeaf := false
              totalMass := F32.add q.mass p.mass
              massCenter :=
                (((p.position.scaleR p.mass).addScaled q.position q.mass).scaleR
                  (F32.div (F32.fin 1) (F32.add q.mass p.mass))) }
        (route p (fun c => insertAux n c p (level + 1))
          (route q (fun c => insertAux n c q (level + 1)) (splitChildren t))).c0
        (route p (fun c => insertAux n c p (level + 1))
          (route q (fun c => insertAux n c q (level + 1)) (splitChildren t))).c1
        (route p (fun c => insertAux n c p (level + 1))
          (route q (fun c => insertAux n c q (level + 1)) (splitChildren t))).c2
        (route p (fun c => insertAux n c p (level + 1))
          (route q (fun c => insertAux n c q (level + 1)) (splitChildren t))).c3 := by
  simp [insertAux, hc, Nat.not_lt.mpr hl, hleaf, hq]

theorem insertAux_internal32 (n : Nat) (d : NodeFields) (c0 c1 c2 c3 : BarnesHutTree)
    (p : Particle) (level : Nat)
    (hc : (quad d c0 c1 c2 c3).Contains p = true) (hl : level ≤ cMaxTreeLevel)
    (hleaf : d.isLeaf = false) :
    insertAux (n + 1) (quad d c0 c1 c2 c3) p level =
      quad { d with
              massCenter :=
                (((d.massCenter.scaleR d.totalMass).addScaled p.position p.mass).scaleR
                  (F32.div (F32.fin 1) (F32.add d.totalMass p.mass)))
              totalMass := F32.add d.totalMass p.mass }
        (route p (fun c => insertAux n c p (level + 1)) ⟨c0, c1, c2, c3⟩).c0
        (route p (fun c => insertAux n c p (level + 1)) ⟨c0, c1, c2, c3⟩).c1
        (route p (fun c => insertAux n c p (level + 1)) ⟨c0, c1, c2, c3⟩).c2
        (route p (fun c => insertAux n c p (level + 1)) ⟨c0, c1, c2, c3⟩).c3 := by
  simp [insertAux, hc, Nat.not_lt.mpr hl, hleaf]

theorem insertAux_internal_bare32 (n : Nat) (d : NodeFields) (p : Particle) (level : Nat)
    (hc : (bare d).Contains p = true) (hl : level ≤ cMaxTreeLevel)
    (hleaf : d.isLeaf = false) :
    insertAux (n + 1) (bare d) p level =
      bare { d with
              massCenter :=
                (((d.massCenter.scaleR d.totalMass).addScaled p.position p.mass).scaleR
                  (F32.div (F32.fin 1) (F32.add d.totalMass p.mass)))
              totalMass := F32.add d.totalMass p.mass } := by
  simp [insertAux, hc, Nat.not_lt.mpr hl, hleaf]

theorem lossesAux_out32 (n : Nat) (t : BarnesHutTree) (p : Particle) (level : Nat)
    (h : t.Contains p = false) : lossesAux n t p level = [] := by
  cases n <;> simp [lossesAux, h]

theorem lossesAux_deep32 (n : Nat) (t : BarnesHutTree) (p : Particle) (level : Nat)
    (hc : t.Contains p = true) (h : level > cMaxTreeLevel) :
    lossesAux n t p level = [(Loss.depth, p)] := by
  cases n <;> simp [lossesAux, h, hc]

theorem lossesAux_store32 (n : Nat) (t : BarnesHutTree) (p : Particle) (level : Nat)
    (hl : level ≤ cMaxTreeLevel) (hleaf : t.data.isLeaf = true)
    (hn : t.data.particle_ = none) : lossesAux n t p level = [] := by
  cases n <;> simp [lossesAux, Nat.not_lt.mpr hl, hleaf, hn]

theorem lossesAux_split32 (n : Nat) (t : BarnesHutTree) (p q : Particle) (level : Nat)
    (hc : t.Contains p = true) (hl : level ≤ cMaxTreeLevel) (hleaf : t.data.isLeaf = true)
    (hq : t.data.particle_ = some q) :
    lossesAux (n + 1) t p level =
      routeLog q (fun c => lossesAux n c q (level + 1)) (splitChildren t) ++
        routeLog p (fun c => lossesAux n c p (level + 1))
          (route q (fun c => insertAux n c q (level + 1)) (splitChildren t)) := by
  simp [lossesAux, hc, Nat.not_lt.mpr hl, hleaf, hq]

theorem lossesAux_internal32 (n : Nat) (d : NodeFields) (c0 c1 c2 c3 : BarnesHutTree)
    (p : Particle) (level : Nat)
    (hc : (quad d c0 c1 c2 c3).Contains p = true) (hl : level ≤ cMaxTreeLevel)
    (hleaf : d.isLeaf = false) :
    lossesAux (n + 1) (quad d c0 c1 c2 c3) p level =
      routeLog p (fun c => lossesAux n c p (level + 1)) ⟨c0, c1, c2, c3⟩ := by
  simp [lossesAux, hc, Nat.not_lt.mpr hl, hleaf]

theorem lossesAux_internal_bare32 (n : Nat) (d : NodeFields) (p : Particle) (level : Nat)
    (hc : (bare d).Contains p = true) (hl : level ≤ cMaxTreeLevel)
    (hleaf : d.isLeaf = false) :
    lossesAux (n + 1) (bare d) p level = [(Loss.routing, p)] := by
  simp [lossesAux, hc, Nat.not_lt.mpr hl, hleaf]

theorem insertAux_frame32 (n : Nat) (t : BarnesHutTree) (p : Particle) (level : Nat) :
    (insertAux n t p level).data.point = t.data.point ∧
      (insertAux n t p level).data.length = t.data.length ∧
      (insertAux n t p level).data.oppositePoint = t.data.oppositePoint := by
  by_cases hc : t.Contains p = true
  swap
  · rw [insertAux_out32 n t p level (Or.inl (by simpa using hc))]; simp
  by_cases hl : level ≤ cMaxTreeLevel
  swap
  · rw [insertAux_out32 n t p level (Or.inr (by omega))]; simp
  cases n with
  | zero => simp [insertAux]
  | succ n =>
    by_cases hleaf : t.data.isLeaf = true
    · cases hq : t.data.particle_ with
      | none => rw [insertAux_store32 n t p level hc hl hleaf hq]; simp
      | some q => rw [insertAux_split32 n t p q level hc hl hleaf hq]; simp
    · have hleaf : t.data.isLeaf = false := by simpa using hleaf
      cases t with
      | bare d => rw [insertAux_internal_bare32 n d p level hc hl hleaf]; simp
      | quad d c0 c1 c2 c3 => rw [insertAux_internal32 n d c0 c1 c2 c3 p level hc hl hleaf]; simp

/-! ### Insert unfolds as the source reads

The recursion counter of insertAux never runs out: Insert satisfies the
equations of the source, with Insert itself in the recursive positions. -/

theorem Insert_eq_succ32 (t : BarnesHutTree) (p : Particle) (level : Nat)
    (hl : level ≤ cMaxTreeLevel) :
    Insert t p level = insertAux (cMaxTreeLevel + 2 - (level + 1) + 1) t p level := by
  unfold Insert
  congr 1
  omega

theorem losses_eq_succ32 (t : BarnesHutTree) (p : Particle) (level : Nat)
    (hl : level ≤ cMaxTreeLevel) :
    losses t p level = lossesAux (cMaxTreeLevel + 2 - (level + 1) + 1) t p level := by
  unfold losses
  congr 1
  omega

/-- The result does not depend on the counter once it covers the levels that are
left: any counter of at least 52 - level gives the value of Insert, so every call
of Insert returns. -/
theorem insertAux_enough32 (n : Nat) :
    ∀ (t : BarnesHutTree) (p : Particle) (level : Nat), cMaxTreeLevel + 2 ≤ level + n →
      insertAux n t p level = Insert t p level := by
  have key : ∀ (n m : Nat) (t : BarnesHutTree) (p : Particle) (level : Nat),
      cMaxTreeLevel + 2 ≤ level + n → cMaxTreeLevel + 2 ≤ level + m →
      insertAux n t p level = insertAux m t p level := by
    intro n
    induction n with
    | zero =>
      intro m t p level hn _
      rw [insertAux_out32 0 t p level (Or.inr (by omega)),
        insertAux_out32 m t p level (Or.inr (by omega))]
    | succ n ih =>
      intro m t p level hn hm
      by_cases hl : level ≤ cMaxTreeLevel
      swap
      · rw [insertAux_out32 _ t p level (Or.inr (by omega)),
          insertAux_out32 m t p level (Or.inr (by omega))]
      obtain ⟨m, rfl⟩ : ∃ k, m = k + 1 := ⟨m - 1, by omega⟩
      have hfun : ∀ x : Particle, (fun c => insertAux n c x (level + 1)) =
          (fun c => insertAux m c x (level + 1)) :=
        fun x => funext (fun c => ih m c x (level + 1) (by omega) (by omega))
      simp only [insertAux, hfun]
  intro t p level hn
  exact key n _ t p level hn (by omega)

theorem Insert_out32 (t : BarnesHutTree) (p : Particle) (level : Nat)
    (h : t.Contains p = false ∨ level > cMaxTreeLevel) : Insert t p level = t :=
  insertAux_out32 _ t p level h

theorem Insert_store32 (t : BarnesHutTree) (p : Particle) (level : Nat)
    (hc : t.Contains p = true) (hl : level ≤ cMaxTreeLevel) (hleaf : t.data.isLeaf = true)
    (hn : t.data.particle_ = none) :
    Insert t p level = t.setData { t.data with particle_ := some p } := by
  rw [Insert_eq_succ32 t p level hl]
  exact insertAux_store32 _ t p level hc hl hleaf hn

theorem Insert_split32 (t : BarnesHutTree) (p q : Particle) (level : Nat)
    (hc : t.Contains p = true) (hl : level ≤ cMaxTreeLevel) (hleaf : t.data.isLeaf = true)
    (hq : t.data.particle_ = some q) :
    Insert t p level =
      quad { t.data with
              isLeaf := false
              totalMass := F32.add q.mass p.mass
              massCenter :=
                (((p.position.scaleR p.mass).addScaled q.position q.mass).scaleR
                  (F32.div (F32.fin 1) (F32.add q.mass p.mass))) }
        (route p (fun c => Insert c p (level + 1))
          (route q (fun c => Insert c q (level + 1)) (splitChildren t))).c0
        (route p (fun c => Insert c p (level + 1))
          (route q (fun c => Insert c q (level + 1)) (splitChildren t))).c1
        (route p (fun c => Insert c p (level + 1))
          (route q (fun c => Insert c q (level + 1)) (splitChildren t))).c2
        (route p (fun c => Insert c p (level + 1))
          (route q (fun c => Insert c q (level + 1)) (splitChildren t))).c3 := by
  rw [Insert_eq_succ32 t p level hl]
  exact insertAux_split32 _ t p q level hc hl hleaf hq

theorem Insert_internal32 (d : NodeFields) (c0 c1 c2 c3 : BarnesHutTree)
    (p : Particle) (level : Nat)
    (hc : (quad d c0 c1 c2 c3).Contains p = true) (hl : level ≤ cMaxTreeLevel)
    (hleaf : d.isLeaf = false) :
    Insert (quad d c0 c1 c2 c3) p level =
      quad { d with
              massCenter :=
                (((d.massCenter.scaleR d.totalMass).addScaled p.position p.mass).scaleR
                  (F32.div (F32.fin 1) (F32.add d.totalMass p.mass)))
              totalMass := F32.add d.totalMass p.mass }
        (route p (fun c => Insert c p (level + 1)) ⟨c0, c1, c2, c3⟩).c0
        (route p (fun c => Insert c p (level + 1)) ⟨c0, c1, c2, c3⟩).c1
        (route p (fun c => Insert c p (level + 1)) ⟨c0, c1, c2, c3⟩).c2
        (route p (fun c => Insert c p (level + 1)) ⟨c0, c1, c2, c3⟩).c3 := by
  rw [Insert_eq_succ32 _ p level hl]
  exact insertAux_internal32 _ d c0 c1 c2 c3 p level hc hl hleaf

theorem Insert_internal_bare32 (d : NodeFields) (p : Particle) (level : Nat)
    (hc : (bare d).Contains p = true) (hl : level ≤ cMaxTreeLevel)
    (hleaf : d.isLeaf = false) :
    Insert (bare d) p level =
      bare { d with
              massCenter :=
                (((d.massCenter.scaleR d.totalMass).addScaled p.position p.mass).scaleR
                  (F32.div (F32.fin 1) (F32.add d.totalMass p.mass)))
              totalMass := F32.add d.totalMass p.mass } := by
  rw [Insert_eq_succ32 _ p level hl]
  exact insertAux_internal_bare32 _ d p level hc hl hleaf

theorem losses_out32 (t : BarnesHutTree) (p : Particle) (level : Nat)
    (h : t.Contains p = false) : losses t p level = [] :=
  lossesAux_out32 _ t p level h

theorem losses_deep32 (t : BarnesHutTree) (p : Particle) (level : Nat)
    (hc : t.Contains p = true) (h : level > cMaxTreeLevel) :
    losses t p level = [(Loss.depth, p)] :=
  lossesAux_deep32 _ t p level hc h

theorem losses_store32 (t : BarnesHutTree) (p : Particle) (level : Nat)
    (hl : level ≤ cMaxTreeLevel) (hleaf : t.data.isLeaf = true)
    (hn : t.data.particle_ = none) : losses t p level = [] :=
  lossesAux_store32 _ t p level hl hleaf hn

theorem losses_split32 (t : BarnesHutTree) (p q : Particle) (level : Nat)
    (hc : t.Contains p = true) (hl : level ≤ cMaxTreeLevel) (hleaf : t.data.isLeaf = true)
    (hq : t.data.particle_ = some q) :
    losses t p level =
      routeLog q (fun c => losses c q (level + 1)) (splitChildren t) ++
        routeLog p (fun c => losses c p (level + 1))
          (route q (fun c => Insert c q (level + 1)) (splitChildren t)) := by
  rw [losses_eq_succ32 t p level hl]
  exact lossesAux_split32 _ t p q level hc hl hleaf hq

theorem losses_internal32 (d : NodeFields) (c0 c1 c2 c3 : BarnesHutTree)
    (p : Particle) (level : Nat)
    (hc : (quad d c0 c1 c2 c3).Contains p = true) (hl : level ≤ cMaxTreeLevel)
    (hleaf : d.isLeaf = false) :
    losses (quad d c0 c1 c2 c3) p level =
      routeLog p (fun c => losses c p (level + 1)) ⟨c0, c1, c2, c3⟩ := by
  rw [losses_eq_succ32 _ p level hl]
  exact lossesAux_internal32 _ d c0 c1 c2 c3 p level hc hl hleaf

theorem losses_internal_bare32 (d : NodeFields) (p : Particle) (level : Nat)
    (hc : (bare d).Contains p = true) (hl : level ≤ cMaxTreeLevel)
    (hleaf : d.isLeaf = false) :
    losses (bare d) p level = [(Loss.routing, p)] := by
  rw [losses_eq_succ32 _ p level hl]
  exact lossesAux_internal_bare32 _ d p level hc hl hleaf

theorem Insert_frame32 (t : BarnesHutTree) (p : Particle) (level : Nat) :
    (Insert t p level).data.point = t.data.point ∧
      (Insert t p level).data.length = t.data.length ∧
      (Insert t p level).data.oppositePoint = t.data.oppositePoint :=
  insertAux_frame32 _ t p level

theorem Insert_contains32 (t : BarnesHutTree) (p x : Particle) (level : Nat) :
    (Insert t p level).Contains x = t.Contains x :=
  Contains_congr32 _ _ _ (Insert_frame32 t p level).1 (Insert_frame32 t p level).2.2

/-! ### Bookkeeping of an insertion -/

theorem Quad.stored_of_empty32 {cs : Quad} (h : cs.All EmptyLeaf) : cs.stored = [] := by
  simp [Quad.stored, stored_EmptyLeaf32 _ h.1, stored_EmptyLeaf32 _ h.2.1,
    stored_EmptyLeaf32 _ h.2.2.1, stored_EmptyLeaf32 _ h.2.2.2]

/-- The inserted particle is accounted for: after Insert it is stored in a
reachable leaf or logged as lost, and every particle stored before is still stored
or logged as lost. No invariant of the tree is needed. -/
theorem Insert_perm32 (k : Nat) :
    ∀ (t : BarnesHutTree) (p : Particle) (level : Nat), cMaxTreeLevel + 1 ≤ level + k →
      (storedParticles (Insert t p level) ++ (losses t p level).map Prod.snd).Perm
        ((if t.Contains p = true then [p] else []) ++ storedParticles t) := by
  induction k with
  | zero =>
    intro t p level hk
    have hl : level > cMaxTreeLevel := by omega
    rw [Insert_out32 t p level (Or.inr hl)]
    by_cases hc : t.Contains p = true
    · rw [losses_deep32 t p level hc hl]
      simp only [hc, if_true, List.map_cons, List.map_nil]
      exact List.perm_append_comm
    · have hc : t.Contains p = false := by simpa using hc
      rw [losses_out32 t p level hc]
      simp [hc]
  | succ k ih =>
    intro t p level hk
    by_cases hc : t.Contains p = true
    swap
    · have hc : t.Contains p = false := by simpa using hc
      rw [Insert_out32 t p level (Or.inl hc), losses_out32 t p level hc]
      simp [hc]
    by_cases hl : level ≤ cMaxTreeLevel
    swap
    · have hl : level > cMaxTreeLevel := by omega
      rw [Insert_out32 t p level (Or.inr hl), losses_deep32 t p level hc hl]
      simp only [hc, if_true, List.map_cons, List.map_nil]
      exact List.perm_append_comm
    have hk1 : cMaxTreeLevel + 1 ≤ level + 1 + k := by omega
    have hstep : ∀ (x : Particle) (c : BarnesHutTree), c.Contains x = true →
        (storedParticles (Insert c x (level + 1)) ++
          (losses c x (level + 1)).map Prod.snd).Perm (x :: storedParticles c) := by
      intro x c hcx
      have := ih c x (level + 1) hk1
      simpa [hcx] using this
    simp only [hc, if_true]
    by_cases hleaf : t.data.isLeaf = true
    · cases hq : t.data.particle_ with
      | none =>
        rw [Insert_store32 t p level hc hl hleaf hq, losses_store32 t p level hl hleaf hq]
        have hs : storedParticles t = [] := stored_EmptyLeaf32 t ⟨hleaf, hq⟩
        have hs2 : storedParticles (t.setData { t.data with particle_ := some p }) = [p] := by
          rw [stored_of_leaf32 _ (by simpa using hleaf)]; simp
        rw [hs, hs2]; simp
      | some q =>
        rw [Insert_split32 t p q level hc hl hleaf hq, losses_split32 t p q level hc hl hleaf hq]
        have hst : storedParticles t = [q] := by rw [stored_of_leaf32 t hleaf, hq]; rfl
        have hperm1 := route_perm32 q (fun c => Insert c q (level + 1))
          (fun c => losses c q (level + 1)) (splitChildren t) (fun c hcc => hstep q c hcc)
        have hperm2 := route_perm32 p (fun c => Insert c p (level + 1))
          (fun c => losses c p (level + 1))
          (route q (fun c => Insert c q (level + 1)) (splitChildren t))
          (fun c hcc => hstep p c hcc)
        rw [Quad.stored_of_empty32 (splitChildren_empty32 t)] at hperm1
        rw [stored_quad_internal32 _ _ _ _ _ rfl, hst]
        have hfin : (Quad.stored (route p (fun c => Insert c p (level + 1))
              (route q (fun c => Insert c q (level + 1)) (splitChildren t))) ++
            (routeLog q (fun c => losses c q (level + 1)) (splitChildren t) ++
              routeLog p (fun c => losses c p (level + 1))
                (route q (fun c => Insert c q (level + 1)) (splitChildren t))).map Prod.snd).Perm
            ([p] ++ [q]) := by
          rw [List.perm_iff_count] at hperm1 hperm2 ⊢
          intro a
          have e1 := hperm1 a
          have e2 := hperm2 a
          simp only [List.count_append, List.count_cons, List.count_nil, List.map_append]
            at e1 e2 ⊢
          omega
        exact hfin
    · have hleaf : t.data.isLeaf = false := by simpa using hleaf
      cases t with
      | bare d =>
        simp only [data_bare32] at hleaf
        rw [Insert_internal_bare32 d p level hc hl hleaf,
          losses_internal_bare32 d p level hc hl hleaf,
          stored_bare_internal32 _ hleaf, stored_bare_internal32 _ (by exact hleaf)]
        simp
      | quad d c0 c1 c2 c3 =>
        simp only [data_quad32] at hleaf
        rw [Insert_internal32 d c0 c1 c2 c3 p level hc hl hleaf,
          losses_internal32 d c0 c1 c2 c3 p level hc hl hleaf,
          stored_quad_internal32 _ _ _ _ _ (by exact hleaf),
          stored_quad_internal32 _ _ _ _ _ hleaf]
        exact route_perm32 p (fun c => Insert c p (level + 1))
          (fun c => losses c p (level + 1)) ⟨c0, c1, c2, c3⟩ (fun c hcc => hstep p c hcc)

theorem LeafOK_of_leaf32 (t : BarnesHutTree) (h : t.data.isLeaf = true)
    (hc : ∀ q, t.data.particle_ = some q → NodeContains t.data q = true) : LeafOK t := by
  cases t with
  | bare d => exact fun _ => hc
  | quad d c0 c1 c2 c3 =>
    simp only [data_quad32] at h hc
    exact ⟨fun _ => hc, fun hf => by rw [h] at hf; exact absurd hf (by decide)⟩

theorem LeafOK_EmptyLeaf32 (t : BarnesHutTree) (h : EmptyLeaf t) : LeafOK t :=
  LeafOK_of_leaf32 t h.1 (by simp [h.2])

/-- Insert stores a particle only in a leaf that contains it. -/
theorem Insert_leafOK32 (k : Nat) :
    ∀ (t : BarnesHutTree) (p : Particle) (level : Nat), cMaxTreeLevel + 1 ≤ level + k →
      LeafOK t → LeafOK (Insert t p level) := by
  induction k with
  | zero =>
    intro t p level hk h
    rw [Insert_out32 t p level (Or.inr (by omega))]; exact h
  | succ k ih =>
    intro t p level hk h
    by_cases hc : t.Contains p = true
    swap
    · rw [Insert_out32 t p level (Or.inl (by simpa using hc))]; exact h
    by_cases hl : level ≤ cMaxTreeLevel
    swap
    · rw [Insert_out32 t p level (Or.inr (by omega))]; exact h
    have hk1 : cMaxTreeLevel + 1 ≤ level + 1 + k := by omega
    by_cases hleaf : t.data.isLeaf = true
    · cases hq : t.data.particle_ with
      | none =>
        rw [Insert_store32 t p level hc hl hleaf hq]
        apply LeafOK_of_leaf32 _ (by simpa using hleaf)
        intro x hx
        simp only [data_setData32, Option.some.injEq] at hx
        subst hx
        simpa [Contains, NodeContains] using hc
      | some q =>
        rw [Insert_split32 t p q level hc hl hleaf hq]
        have h0 : (splitChildren t).All LeafOK :=
          ⟨LeafOK_EmptyLeaf32 _ (splitChildren_empty32 t).1,
            LeafOK_EmptyLeaf32 _ (splitChildren_empty32 t).2.1,
            LeafOK_EmptyLeaf32 _ (splitChildren_empty32 t).2.2.1,
            LeafOK_EmptyLeaf32 _ (splitChildren_empty32 t).2.2.2⟩
        have h2 := route_all32 LeafOK p (fun c => Insert c p (level + 1)) _
          (route_all32 LeafOK q (fun c => Insert c q (level + 1)) _ h0
            (fun c hc' _ => ih c q _ hk1 hc')) (fun c hc' _ => ih c p _ hk1 hc')
        exact ⟨fun hf => absurd hf (by simp), fun _ => h2⟩
    · have hleaf : t.data.isLeaf = false := by simpa using hleaf
      cases t with
      | bare d =>
        simp only [data_bare32] at hleaf
        rw [Insert_internal_bare32 d p level hc hl hleaf]
        intro hf
        simp only [hleaf] at hf
        exact absurd hf (by decide)
      | quad d c0 c1 c2 c3 =>
        simp only [data_quad32] at hleaf
        rw [Insert_internal32 d c0 c1 c2 c3 p level hc hl hleaf]
        have h0 : Quad.All LeafOK ⟨c0, c1, c2, c3⟩ := h.2 hleaf
        have h1 := route_all32 LeafOK p (fun c => Insert c p (level + 1)) _ h0
          (fun c hc' _ => ih c p _ hk1 hc')
        refine ⟨fun hf => ?_, fun _ => h1⟩
        simp only [hleaf] at hf
        exact absurd hf (by decide)

/-! ### Lists of insertions -/

theorem InsertAllAt_nil32 (level : Nat) (t : BarnesHutTree) : InsertAllAt level t [] = t := rfl

theorem InsertAllAt_cons32 (level : Nat) (t : BarnesHutTree) (p : Particle)
    (ps : List Particle) :
    InsertAllAt level t (p :: ps) = InsertAllAt level (Insert t p level) ps := rfl

theorem InsertAllAt_append32 (level : Nat) (t : BarnesHutTree) (ps qs : List Particle) :
    InsertAllAt level t (ps ++ qs) = InsertAllAt level (InsertAllAt level t ps) qs := by
  simp [InsertAllAt, List.foldl_append]

theorem InsertAllAt_frame32 (level : Nat) (ps : List Particle) : ∀ t : BarnesHutTree,
    (InsertAllAt level t ps).data.point = t.data.point ∧
      (InsertAllAt level t ps).data.length = t.data.length ∧
      (InsertAllAt level t ps).data.oppositePoint = t.data.oppositePoint := by
  induction ps with
  | nil => intro t; exact ⟨rfl, rfl, rfl⟩
  | cons p ps ih =>
    intro t
    rw [InsertAllAt_cons32]
    obtain ⟨h1, h2, h3⟩ := ih (Insert t p level)
    obtain ⟨e1, e2, e3⟩ := Insert_frame32 t p level
    exact ⟨h1.trans e1, h2.trans e2, h3.trans e3⟩

theorem InsertAllAt_contains32 (level : Nat) (ps : List Particle) (t : BarnesHutTree)
    (x : Particle) : (InsertAllAt level t ps).Contains x = t.Contains x :=
  Contains_congr32 _ _ _ (InsertAllAt_frame32 level ps t).1 (InsertAllAt_frame32 level ps t).2.2

theorem InsertAllAt_out32 (level : Nat) (hl : level > cMaxTreeLevel) (ps : List Particle) :
    ∀ t : BarnesHutTree, InsertAllAt level t ps = t := by
  induction ps with
  | nil => intro t; rfl
  | cons p ps ih =>
    intro t
    rw [InsertAllAt_cons32, Insert_out32 t p level (Or.inr hl)]
    exact ih t

/-- Bookkeeping of a whole build: what is stored in the end, together with what
was logged as lost, is what was inserted inside the square of the node on top of
what was stored before. -/
theorem InsertAllAt_perm32 (level : Nat) (ps : List Particle) : ∀ t : BarnesHutTree,
    (storedParticles (InsertAllAt level t ps) ++ (lossesAllAt level t ps).map Prod.snd).Perm
      (ps.filter (fun p => t.Contains p) ++ storedParticles t) := by
  induction ps with
  | nil => intro t; simp [InsertAllAt, lossesAllAt]
  | cons p ps ih =>
    intro t
    have hp1 := Insert_perm32 (cMaxTreeLevel + 1) t p level (by omega)
    have hp2 := ih (Insert t p level)
    rw [InsertAllAt_cons32]
    have hfilt : ps.filter (fun x => (Insert t p level).Contains x) =
        ps.filter (fun x => t.Contains x) := by
      congr 1; funext x; rw [Insert_contains32]
    rw [hfilt] at hp2
    simp only [lossesAllAt, List.filter_cons, List.map_append]
    rw [List.perm_iff_count] at hp1 hp2 ⊢
    intro a
    have e1 := hp1 a
    have e2 := hp2 a
    by_cases hc : t.Contains p = true
    · simp only [hc, if_true, List.count_append, List.count_cons, List.count_nil] at e1 e2 ⊢
      omega
    · simp only [hc, Bool.false_eq_true, if_false, List.count_append, List.count_cons,
        List.count_nil, List.nil_append] at e1 e2 ⊢
      omega

/-- A logged particle was dropped at the depth limit or lost by a routing loop. -/
theorem losses_split_perm32 (log : List (Loss × Particle)) :
    (log.map Prod.snd).Perm
      (((log.filter (fun e => decide (e.1 = Loss.depth))).map Prod.snd) ++
        ((log.filter (fun e => decide (e.1 = Loss.routing))).map Prod.snd)) := by
  induction log with
  | nil => simp
  | cons e log ih =>
    obtain ⟨k, x⟩ := e
    cases k
    · simpa [List.filter_cons] using ih
    · simp only [List.map_cons, List.filter_cons, reduceCtorEq, decide_False,
        Bool.false_eq_true, if_false, decide_True, if_true]
      exact (List.Perm.cons x ih).trans List.perm_middle.symm

theorem InsertAllAt_account32 (level : Nat) (ps : List Particle) (t : BarnesHutTree) :
    (storedParticles (InsertAllAt level t ps) ++ droppedAllAt level t ps ++
        lostAllAt level t ps).Perm
      (ps.filter (fun p => t.Contains p) ++ storedParticles t) := by
  have h1 := InsertAllAt_perm32 level ps t
  have h2 := losses_split_perm32 (lossesAllAt level t ps)
  unfold droppedAllAt lostAllAt
  rw [List.append_assoc]
  exact (List.Perm.append_left _ h2.symm).trans h1

theorem route_get32 (p : Particle) (f : BarnesHutTree → BarnesHutTree) (cs : Quad) (j : Nat)
    (hj : j < 4) :
    (route p f cs).get j = if j = selIdx p cs then f (cs.get j) else cs.get j := by
  rw [route_eq_set32, get_set32 _ _ _ _ hj]
  by_cases h : j = selIdx p cs
  · rw [if_pos h, if_pos h, ← h]
  · rw [if_neg h, if_neg h]

theorem route_selIdx32 (p y : Particle) (level : Nat) (cs : Quad) :
    selIdx y (route p (fun c => Insert c p level) cs) = selIdx y cs := by
  apply selIdx_congr32
  intro j hj
  rw [route_get32 _ _ _ _ hj]
  by_cases h : j = selIdx p cs
  · rw [if_pos h]; exact Insert_contains32 _ _ _ _
  · rw [if_neg h]

theorem routeAll_nil32 (level : Nat) (cs : Quad) : routeAll level cs [] = cs := rfl

theorem routeAll_cons32 (level : Nat) (cs : Quad) (x : Particle) (l : List Particle) :
    routeAll level cs (x :: l) = routeAll level (route x (fun c => Insert c x level) cs) l :=
  rfl

/-- Child j of a node receives, in the order of arrival, the particles for which
the routing loop selects it. -/
theorem routeAll_get32 (level : Nat) (l : List Particle) : ∀ (cs : Quad) (j : Nat), j < 4 →
    (routeAll level cs l).get j =
      InsertAllAt level (cs.get j) (l.filter (fun x => decide (selIdx x cs = j))) := by
  induction l with
  | nil => intro cs j _; rfl
  | cons x l ih =>
    intro cs j hj
    rw [routeAll_cons32, ih _ j hj]
    have hf : l.filter (fun y => decide (selIdx y (route x (fun c => Insert c x level) cs) = j)) =
        l.filter (fun y => decide (selIdx y cs = j)) := by
      congr 1; funext y; rw [route_selIdx32]
    rw [hf, route_get32 _ _ _ _ hj, List.filter_cons]
    by_cases h : selIdx x cs = j
    · rw [if_pos h.symm]
      simp only [h, decide_True, if_true]
      rfl
    · rw [if_neg (fun e => h e.symm)]
      simp only [h, decide_False, Bool.false_eq_true, if_false]

/-- Particles outside the square of the node do not enter a build. -/
theorem InsertAllAt_filter32 (level : Nat) (ps : List Particle) : ∀ t : BarnesHutTree,
    InsertAllAt level t ps = InsertAllAt level t (ps.filter (fun p => t.Contains p)) := by
  induction ps with
  | nil => intro t; rfl
  | cons p ps ih =>
    intro t
    have hfilt : ps.filter (fun x => (Insert t p level).Contains x) =
        ps.filter (fun x => t.Contains x) := by
      congr 1; funext x; rw [Insert_contains32]
    rw [InsertAllAt_cons32, ih, hfilt, List.filter_cons]
    by_cases hc : t.Contains p = true
    · rw [if_pos hc, InsertAllAt_cons32]
    · rw [if_neg hc, Insert_out32 t p level (Or.inl (by simpa using hc))]

/-- An internal node through which the particles of l pass: its aggregates are
updated once per particle in the order of l, its children receive the particles
its routing loop hands them. -/
theorem InsertAllAt_internal32 (level : Nat) (hl : level ≤ cMaxTreeLevel) (l : List Particle) :
    ∀ (d : NodeFields) (cs : Quad), d.isLeaf = false →
      (∀ x ∈ l, NodeContains d x = true) →
      InsertAllAt level (quad d cs.c0 cs.c1 cs.c2 cs.c3) l =
        quad { d with
                totalMass := (l.foldl updateAggregates (d.totalMass, d.massCenter)).1
                massCenter := (l.foldl updateAggregates (d.totalMass, d.massCenter)).2 }
          (routeAll (level + 1) cs l).c0 (routeAll (level + 1) cs l).c1
          (routeAll (level + 1) cs l).c2 (routeAll (level + 1) cs l).c3 := by
  induction l with
  | nil => intro d cs _ _; rfl
  | cons x l ih =>
    intro d cs hleaf hc
    have hcx : (quad d cs.c0 cs.c1 cs.c2 cs.c3).Contains x = true :=
      hc x (List.mem_cons_self _ _)
    rw [InsertAllAt_cons32, Insert_internal32 d cs.c0 cs.c1 cs.c2 cs.c3 x level hcx hl hleaf]
    have := ih { d with
                  massCenter :=
                    (((d.massCenter.scaleR d.totalMass).addScaled x.position x.mass).scaleR
                      (F32.div (F32.fin 1) (F32.add d.totalMass x.mass)))
                  totalMass := F32.add d.totalMass x.mass }
      (route x (fun c => Insert c x (level + 1)) cs) hleaf
      (fun y hy => by
        have := hc y (List.mem_cons_of_mem _ hy)
        simpa [NodeContains] using this)
    rw [this]
    rfl

/-- An empty leaf through which at least two particles pass: the first is
stored, the second splits the leaf, and from then on the node is internal. -/
theorem InsertAllAt_split32 (level : Nat) (hl : level ≤ cMaxTreeLevel) (t : BarnesHutTree)
    (he : EmptyLeaf t) (q p : Particle) (rest : List Particle)
    (hc : ∀ x ∈ q :: p :: rest, t.Contains x = true) :
    InsertAllAt level t (q :: p :: rest) =
      quad { t.data with
              particle_ := some q
              isLeaf := false
              totalMass := (rest.foldl updateAggregates (splitAggregates q p)).1
              massCenter := (rest.foldl updateAggregates (splitAggregates q p)).2 }
        (routeAll (level + 1) (splitChildren t) (q :: p :: rest)).c0
        (routeAll (level + 1) (splitChildren t) (q :: p :: rest)).c1
        (routeAll (level + 1) (splitChildren t) (q :: p :: rest)).c2
        (routeAll (level + 1) (splitChildren t) (q :: p :: rest)).c3 := by
  have hq : t.Contains q = true := hc q (by simp)
  have hp : t.Contains p = true := hc p (by simp)
  rw [InsertAllAt_cons32, Insert_store32 t q level hq hl he.1 he.2, InsertAllAt_cons32]
  have hp2 : (t.setData { t.data with particle_ := some q }).Contains p = true :=
    (Contains_setData32 t { t.data with particle_ := some q } p rfl rfl).trans hp
  have hsc : splitChildren (t.setData { t.data with particle_ := some q }) = splitChildren t :=
    splitChildren_setData32 t { t.data with particle_ := some q } rfl rfl
  rw [Insert_split32 _ p q level hp2 hl (by simpa using he.1) (by simp), hsc]
  have := InsertAllAt_internal32 level hl rest
    { t.data with
        particle_ := some q
        isLeaf := false
        totalMass := F32.add q.mass p.mass
        massCenter :=
          (((p.position.scaleR p.mass).addScaled q.position q.mass).scaleR
            (F32.div (F32.fin 1) (F32.add q.mass p.mass))) }
    (route p (fun c => Insert c p (level + 1))
      (route q (fun c => Insert c q (level + 1)) (splitChildren t))) rfl
    (fun y hy => by
      have := hc y (List.mem_cons_of_mem _ (List.mem_cons_of_mem _ hy))
      simpa [Contains, NodeContains] using this)
  simp only [data_setData32]
  exact this

/-- The data members of the root of a build from an empty leaf, by the number of
inserted particles that lie in its square. -/
theorem InsertAllAt_root32 (level : Nat) (hl : level ≤ cMaxTreeLevel) (t : BarnesHutTree)
    (he : EmptyLeaf t) (ps : List Particle) :
    (InsertAllAt level t ps).data =
      match ps.filter (fun p => t.Contains p) with
      | [] => t.data
      | [q] => { t.data with particle_ := some q }
      | q :: p :: rest =>
        { t.data with
            particle_ := some q
            isLeaf := false
            totalMass := (rest.foldl updateAggregates (splitAggregates q p)).1
            massCenter := (rest.foldl updateAggregates (splitAggregates q p)).2 } := by
  rw [InsertAllAt_filter32]
  have hall : ∀ x ∈ ps.filter (fun p => t.Contains p), t.Contains x = true :=
    fun x hx => (List.mem_filter.mp hx).2
  rcases hf : ps.filter (fun p => t.Contains p) with _ | ⟨q, _ | ⟨p, rest⟩⟩
  · rfl
  · rw [hf] at hall
    rw [InsertAllAt_cons32, Insert_store32 t q level (hall q (by simp)) hl he.1 he.2]
    simp [InsertAllAt]
  · rw [hf] at hall
    rw [InsertAllAt_split32 level hl t he q p rest hall]
    rfl

/-! ### Aggregates of the nodes of a build -/

theorem reachable_self32 (t : BarnesHutTree) : t ∈ reachableNodes t := by
  cases t with
  | bare d => simp [reachableNodes]
  | quad d c0 c1 c2 c3 =>
    by_cases h : d.isLeaf = true <;> simp [reachableNodes, h]

theorem reachable_leaf32 (t : BarnesHutTree) (h : t.data.isLeaf = true) :
    reachableNodes t = [t] := by
  cases t with
  | bare d => rfl
  | quad d c0 c1 c2 c3 =>
    simp only [data_quad32] at h
    simp [reachableNodes, h]

theorem reachable_quad32 (d : NodeFields) (cs : Quad) (h : d.isLeaf = false)
    (n : BarnesHutTree) (hn : n ∈ reachableNodes (quad d cs.c0 cs.c1 cs.c2 cs.c3)) :
    n = quad d cs.c0 cs.c1 cs.c2 cs.c3 ∨ ∃ j, j < 4 ∧ n ∈ reachableNodes (cs.get j) := by
  simp only [reachableNodes, h, Bool.false_eq_true, if_false, List.mem_cons,
    List.mem_append] at hn
  rcases hn with h | ((h | h) | h) | h
  · exact Or.inl h
  · exact Or.inr ⟨0, by decide, h⟩
  · exact Or.inr ⟨1, by decide, h⟩
  · exact Or.inr ⟨2, by decide, h⟩
  · exact Or.inr ⟨3, by decide, h⟩

theorem updateAggregates_mass32 (l : List Particle) : ∀ a : F32 × float3,
    (l.foldl updateAggregates a).1 = l.foldl (fun m x => F32.add m x.mass) a.1 := by
  induction l with
  | nil => intro a; rfl
  | cons x l ih => intro a; simp only [List.foldl_cons]; rw [ih]; rfl

theorem aggregatesOf_mass32 (l : List Particle) (a : F32 × float3)
    (h : aggregatesOf l = some a) : a.1 = massAccumulated l ∧ 2 ≤ l.length := by
  rcases l with _ | ⟨q, _ | ⟨p, rest⟩⟩
  · simp [aggregatesOf] at h
  · simp [aggregatesOf] at h
  · simp only [aggregatesOf, Option.some.injEq] at h
    subst h
    refine ⟨?_, by simp⟩
    rw [updateAggregates_mass32]
    rfl

/-- Every reachable internal node of a build is itself the build, from an empty
leaf with the same square, of the list of the particles that reached it: a
sublist of the inserted list, in the order of insertion. Its aggregates are
those accumulated over that list. -/
theorem reachable_replay32 (k : Nat) :
    ∀ (level : Nat) (t : BarnesHutTree) (ps : List Particle),
      cMaxTreeLevel + 1 ≤ level + k → EmptyLeaf t →
      ∀ n ∈ reachableNodes (InsertAllAt level t ps), n.data.isLeaf = false →
        ∃ (n0 : BarnesHutTree) (l : List Particle) (lv : Nat),
          EmptyLeaf n0 ∧ lv ≤ cMaxTreeLevel ∧ l.Sublist ps ∧
          (∀ x ∈ l, n0.Contains x = true) ∧ n = InsertAllAt lv n0 l ∧
          aggregatesOf l = some (n.data.totalMass, n.data.massCenter) := by
  induction k with
  | zero =>
    intro level t ps hk he n hn hleaf
    rw [InsertAllAt_out32 level (by omega), reachable_leaf32 t he.1, List.mem_singleton] at hn
    rw [hn, he.1] at hleaf
    exact absurd hleaf (by decide)
  | succ k ih =>
    intro level t ps hk he n hn hleaf
    by_cases hl : level ≤ cMaxTreeLevel
    swap
    · rw [InsertAllAt_out32 level (by omega), reachable_leaf32 t he.1, List.mem_singleton] at hn
      rw [hn, he.1] at hleaf
      exact absurd hleaf (by decide)
    rw [InsertAllAt_filter32] at hn
    have hall : ∀ x ∈ ps.filter (fun p => t.Contains p), t.Contains x = true :=
      fun x hx => (List.mem_filter.mp hx).2
    have hsub : (ps.filter (fun p => t.Contains p)).Sublist ps := List.filter_sublist _
    rcases hf : ps.filter (fun p => t.Contains p) with _ | ⟨q, _ | ⟨p, rest⟩⟩
    · rw [hf, InsertAllAt_nil32, reachable_leaf32 t he.1, List.mem_singleton] at hn
      rw [hn, he.1] at hleaf
      exact absurd hleaf (by decide)
    · rw [hf] at hall hn
      rw [InsertAllAt_cons32, Insert_store32 t q level (hall q (by simp)) hl he.1 he.2,
        InsertAllAt_nil32, reachable_leaf32 _ (by simpa using he.1), List.mem_singleton] at hn
      rw [hn] at hleaf
      simp only [data_setData32, he.1] at hleaf
      exact absurd hleaf (by decide)
    · rw [hf] at hall hn hsub
      have hsplit := InsertAllAt_split32 level hl t he q p rest hall
      rw [hsplit] at hn
      rcases reachable_quad32 _ (routeAll (level + 1) (splitChildren t) (q :: p :: rest)) rfl
        n hn with h | ⟨j, hj, h⟩
      · refine ⟨t, q :: p :: rest, level, he, hl, hsub, hall, ?_, ?_⟩
        · rw [h, hsplit]
        · rw [h]; rfl
      · rw [routeAll_get32 _ _ _ _ hj] at h
        obtain ⟨n0, l, lv, h0, h1, h2, h3, h4, h5⟩ :=
          ih (level + 1) _ _ (by omega) (Quad.all_get32 (splitChildren_empty32 t) j) n h hleaf
        exact ⟨n0, l, lv, h0, h1, (h2.trans (List.filter_sublist _)).trans hsub, h3, h4, h5⟩

/-- C2 (amended). Mass accumulation over binary32: after a list of particles has
been inserted with level 0 into an empty root, every reachable internal node n is
the build, from the empty leaf n0 with its square and at its level lv, of the list
l of the particles whose insertion reached it. The list l is a sublist of the
inserted list (insertion order), has at least two members, and all of them lie in
the square of n. The totalMass of n is the binary32 sum of the masses of l
accumulated in that order. The members of l are exactly the particles stored in
the reachable leaves below n together with the particles that were dropped at the
depth limit or lost by a routing loop below n; when there are none of the latter,
totalMass is the binary32 sum, in insertion order, of the masses of the particles
stored below n. -/
theorem mass_accumulated_in_order32 (t : BarnesHutTree) (ps : List Particle)
    (he : EmptyLeaf t) :
    ∀ n ∈ reachableNodes (InsertAll t ps), n.data.isLeaf = false →
      ∃ (n0 : BarnesHutTree) (l : List Particle) (lv : Nat),
        EmptyLeaf n0 ∧ lv ≤ 50 ∧ n = InsertAllAt lv n0 l ∧
        l.Sublist ps ∧ 2 ≤ l.length ∧ (∀ x ∈ l, n.Contains x = true) ∧
        n.data.totalMass = massAccumulated l ∧
        (storedParticles n ++ droppedAllAt lv n0 l ++ lostAllAt lv n0 l).Perm l ∧
        (droppedAllAt lv n0 l = [] → lostAllAt lv n0 l = [] → (storedParticles n).Perm l) := by
  intro n hn hleaf
  obtain ⟨n0, l, lv, h0, h1, h2, h3, h4, h5⟩ :=
    reachable_replay32 (cMaxTreeLevel + 1) 0 t ps (by omega) he n hn hleaf
  obtain ⟨hm, hlen⟩ := aggregatesOf_mass32 l _ h5
  have hperm : (storedParticles n ++ droppedAllAt lv n0 l ++ lostAllAt lv n0 l).Perm l := by
    have := InsertAllAt_account32 lv l n0
    rw [stored_EmptyLeaf32 n0 h0, List.append_nil, List.filter_eq_self.mpr h3, ← h4] at this
    exact this
  refine ⟨n0, l, lv, h0, h1, h4, h2, hlen, ?_, hm, hperm, ?_⟩
  · intro x hx
    rw [h4, InsertAllAt_contains32]
    exact h3 x hx
  · intro hd hlost
    rw [hd, hlost, List.append_nil, List.append_nil] at hperm
    exact hperm

/-- Instance of C2 (amended): the two close particles of the unit root; the root
is internal, both particles reached it, and its totalMass is 1 + 1. -/
theorem mass_accumulated_in_order32_witness :
    EmptyLeaf unitRoot ∧
    InsertAll unitRoot [nearA, nearB] ∈ reachableNodes (InsertAll unitRoot [nearA, nearB]) ∧
    (InsertAll unitRoot [nearA, nearB]).data.isLeaf = false ∧
    ∃ (n0 : BarnesHutTree) (l : List Particle) (lv : Nat),
      EmptyLeaf n0 ∧ lv ≤ 50 ∧ InsertAll unitRoot [nearA, nearB] = InsertAllAt lv n0 l ∧
      l.Sublist [nearA, nearB] ∧ 2 ≤ l.length ∧
      (∀ x ∈ l, (InsertAll unitRoot [nearA, nearB]).Contains x = true) ∧
      (InsertAll unitRoot [nearA, nearB]).data.totalMass = massAccumulated l ∧
      (storedParticles (InsertAll unitRoot [nearA, nearB]) ++ droppedAllAt lv n0 l ++
        lostAllAt lv n0 l).Perm l ∧
      (droppedAllAt lv n0 l = [] → lostAllAt lv n0 l = [] →
        (storedParticles (InsertAll unitRoot [nearA, nearB])).Perm l) :=
  ⟨EmptyLeaf_new32 _ _, reachable_self32 _, by decide!,
    mass_accumulated_in_order32 unitRoot [nearA, nearB] (EmptyLeaf_new32 _ _)
      (InsertAll unitRoot [nearA, nearB]) (reachable_self32 _) (by decide!)⟩

/-- C2, counterexamples over binary32, all in the unit root. (1) The two close
particles nearA, nearB of mass 1: nothing is dropped at the depth limit, the root
is internal with totalMass 2, and only nearA (mass 1) is stored below it.
(2) Masses 2^24, 1, 1 at three corners, inserted in this order: all three are
stored, and totalMass is 16777216, not the sum 16777218 of their masses.
(3) Two particles of mass 1 at the origin: both are dropped at the depth limit,
nothing is stored, and the root has totalMass 2. -/
theorem mass_conservation_counterexample32 :
    (EmptyLeaf unitRoot ∧
      (InsertAll unitRoot [nearA, nearB]).data.isLeaf = false ∧
      droppedAll unitRoot [nearA, nearB] = [] ∧
      storedParticles (InsertAll unitRoot [nearA, nearB]) = [nearA] ∧
      (InsertAll unitRoot [nearA, nearB]).data.totalMass = F32.fin 2 ∧
      nearA.mass = F32.fin 1) ∧
    ((InsertAll unitRoot [bodyHeavy, bodyA, bodyE]).data.isLeaf = false ∧
      (storedParticles (InsertAll unitRoot [bodyHeavy, bodyA, bodyE])).Perm
        [bodyHeavy, bodyA, bodyE] ∧
      droppedAll unitRoot [bodyHeavy, bodyA, bodyE] = [] ∧
      lostAll unitRoot [bodyHeavy, bodyA, bodyE] = [] ∧
      (InsertAll unitRoot [bodyHeavy, bodyA, bodyE]).data.totalMass = F32.fin 16777216 ∧
      (16777216 : ℚ) + 1 + 1 ≠ 16777216) ∧
    ((InsertAll unitRoot [bodyA, bodyB]).data.isLeaf = false ∧
      droppedAll unitRoot [bodyA, bodyB] = [bodyA, bodyB] ∧
      storedParticles (InsertAll unitRoot [bodyA, bodyB]) = [] ∧
      (InsertAll unitRoot [bodyA, bodyB]).data.totalMass = F32.fin 2) := by
  refine ⟨⟨EmptyLeaf_new32 _ _, ?_, ?_, ?_, ?_, rfl⟩, ⟨?_, ?_, ?_, ?_, ?_, by norm_num⟩,
    ⟨?_, ?_, ?_, ?_⟩⟩
  all_goals decide!

/-! ### Reset and rebuild -/

theorem Reset_data32 (t : BarnesHutTree) :
    t.Reset.data = { t.data with isLeaf := true, particle_ := none } := by
  simp [Reset]

/-- The aggregates of the root after a build from an empty leaf: accumulated over
the inserted particles inside the root square when there are at least two of
them, and left as they were otherwise. -/
theorem InsertAll_aggregates32 (t : BarnesHutTree) (he : EmptyLeaf t) (ps : List Particle) :
    ((InsertAll t ps).data.totalMass, (InsertAll t ps).data.massCenter) =
      (aggregatesOf (ps.filter (fun p => t.Contains p))).getD
        (t.data.totalMass, t.data.massCenter) := by
  have h := InsertAllAt_root32 0 (by decide) t he ps
  unfold InsertAll
  rw [h]
  rcases ps.filter (fun p => t.Contains p) with _ | ⟨q, _ | ⟨p, rest⟩⟩ <;> rfl

theorem aggregatesOf_short32 (l : List Particle) (h : l.length < 2) : aggregatesOf l = none := by
  rcases l with _ | ⟨q, _ | ⟨p, rest⟩⟩
  · rfl
  · rfl
  · simp at h; omega

theorem aggregatesOf_long32 (l : List Particle) (h : 2 ≤ l.length) :
    ∃ a, aggregatesOf l = some a := by
  rcases l with _ | ⟨q, _ | ⟨p, rest⟩⟩
  · simp at h
  · simp at h
  · exact ⟨_, rfl⟩

/-- C7 (amended). Reset and rebuild over binary32, for every root node, every list
of particles and every permutation of it: the tree is built with level 0, Reset is
called on the root, and the permuted list is inserted with level 0. When at least
two of the particles lie in the root square, the root then has the binary32
totalMass and massCenter accumulated over these particles in the order of the
second list; they depend neither on the first build nor on what the root held
before it, and for another order they can differ from those of the original build
in the last place. When fewer than two lie in the root square, the root keeps the
totalMass and massCenter of the original build. For a root that was an empty leaf
before the first build, the rebuild gives exactly the totalMass and massCenter of
a build of the permuted list from that root, and in the same order exactly those
of the original build. -/
theorem reset_rebuild_aggregates32 (t : BarnesHutTree) (ps ps' : List Particle)
    (hperm : ps.Perm ps') :
    (2 ≤ (ps'.filter (fun p => t.Contains p)).length →
      aggregatesOf (ps'.filter (fun p => t.Contains p)) =
        some ((InsertAll (Reset (InsertAll t ps)) ps').data.totalMass,
          (InsertAll (Reset (InsertAll t ps)) ps').data.massCenter)) ∧
    ((ps'.filter (fun p => t.Contains p)).length < 2 →
      (InsertAll (Reset (InsertAll t ps)) ps').data.totalMass = (InsertAll t ps).data.totalMass ∧
      (InsertAll (Reset (InsertAll t ps)) ps').data.massCenter =
        (InsertAll t ps).data.massCenter) ∧
    (EmptyLeaf t →
      (InsertAll (Reset (InsertAll t ps)) ps').data.totalMass =
        (InsertAll t ps').data.totalMass ∧
      (InsertAll (Reset (InsertAll t ps)) ps').data.massCenter =
        (InsertAll t ps').data.massCenter) ∧
    (EmptyLeaf t →
      (InsertAll (Reset (InsertAll t ps)) ps).data.totalMass = (InsertAll t ps).data.totalMass ∧
      (InsertAll (Reset (InsertAll t ps)) ps).data.massCenter =
        (InsertAll t ps).data.massCenter) := by
  have hcont : ∀ x, (Reset (InsertAll t ps)).Contains x = t.Contains x := fun x => by
    rw [Contains_Reset32]; exact InsertAllAt_contains32 0 ps t x
  have hfilt : ∀ qs : List Particle,
      qs.filter (fun p => (Reset (InsertAll t ps)).Contains p) =
        qs.filter (fun p => t.Contains p) := fun qs => by
    congr 1; funext x; rw [hcont]
  have hre : ∀ qs : List Particle,
      ((InsertAll (Reset (InsertAll t ps)) qs).data.totalMass,
        (InsertAll (Reset (InsertAll t ps)) qs).data.massCenter) =
      (aggregatesOf (qs.filter (fun p => t.Contains p))).getD
        ((InsertAll t ps).data.totalMass, (InsertAll t ps).data.massCenter) := fun qs => by
    rw [InsertAll_aggregates32 _ (EmptyLeaf_Reset32 _) qs, hfilt]
    simp only [Reset_data32]
  have key : EmptyLeaf t → ∀ qs : List Particle, ps.Perm qs →
      ((InsertAll (Reset (InsertAll t ps)) qs).data.totalMass,
        (InsertAll (Reset (InsertAll t ps)) qs).data.massCenter) =
      ((InsertAll t qs).data.totalMass, (InsertAll t qs).data.massCenter) := by
    intro he qs hq
    rw [hre qs, InsertAll_aggregates32 t he qs]
    by_cases hlen : 2 ≤ (qs.filter (fun p => t.Contains p)).length
    · obtain ⟨a, ha⟩ := aggregatesOf_long32 _ hlen
      rw [ha]; rfl
    · have hlen2 : (ps.filter (fun p => t.Contains p)).length < 2 := by
        rw [(hq.filter _).length_eq]; omega
      rw [aggregatesOf_short32 _ (by omega)]
      simp only [Option.getD_none]
      have := InsertAll_aggregates32 t he ps
      rw [aggregatesOf_short32 _ hlen2] at this
      exact this
  refine ⟨?_, ?_, ?_, ?_⟩
  · intro hlen
    obtain ⟨a, ha⟩ := aggregatesOf_long32 _ hlen
    have h3 := hre ps'
    rw [ha] at h3
    rw [ha]
    exact congrArg some h3.symm
  · intro hlen
    have h3 := hre ps'
    rw [aggregatesOf_short32 _ hlen] at h3
    simpa only [Option.getD_none, Prod.mk.injEq] using h3
  · intro he
    have h1 := key he ps' hperm
    simpa only [Prod.mk.injEq] using h1
  · intro he
    have h2 := key he ps (List.Perm.refl _)
    simpa only [Prod.mk.injEq] using h2

/-- Instance of C7 (amended): three particles at three corners of the unit root,
rebuilt in another order. -/
theorem reset_rebuild_aggregates32_witness :
    [bodyA, bodyE, bodyC].Perm [bodyC, bodyA, bodyE] ∧ EmptyLeaf unitRoot ∧
    (InsertAll (Reset (InsertAll unitRoot [bodyA, bodyE, bodyC])) [bodyC, bodyA, bodyE]).data.totalMass =
      (InsertAll unitRoot [bodyC, bodyA, bodyE]).data.totalMass ∧
    (InsertAll (Reset (InsertAll unitRoot [bodyA, bodyE, bodyC])) [bodyA, bodyE, bodyC]).data.massCenter =
      (InsertAll unitRoot [bodyA, bodyE, bodyC]).data.massCenter :=
  ⟨by decide, EmptyLeaf_new32 _ _,
    ((reset_rebuild_aggregates32 unitRoot [bodyA, bodyE, bodyC] [bodyC, bodyA, bodyE]
      (by decide)).2.2.1 (EmptyLeaf_new32 _ _)).1,
    ((reset_rebuild_aggregates32 unitRoot [bodyA, bodyE, bodyC] [bodyC, bodyA, bodyE]
      (by decide)).2.2.2 (EmptyLeaf_new32 _ _)).2⟩

/-- C7, counterexamples over binary32. (1) Order: the unit root and masses 1, 1,
2^24 at three corners. The original build in the order 1, 1, 2^24 gives totalMass
(1 + 1) + 2^24 = 16777218; after Reset, the order 2^24, 1, 1 gives
(2^24 + 1) + 1 = 16777216, and the massCenter differs as well. (2) Root: a root
that is a leaf holding the particle at (1, 1) when the build starts. The build of
the particles at (0, 0) and (1, 0) gives totalMass 3; after Reset the same list in
the same order gives totalMass 2. -/
theorem reset_reinsert_counterexample32 :
    (EmptyLeaf unitRoot ∧ [bodyA, bodyE, bodyHeavy].Perm [bodyHeavy, bodyA, bodyE] ∧
      (InsertAll unitRoot [bodyA, bodyE, bodyHeavy]).data.totalMass = F32.fin 16777218 ∧
      (InsertAll (Reset (InsertAll unitRoot [bodyA, bodyE, bodyHeavy]))
        [bodyHeavy, bodyA, bodyE]).data.totalMass = F32.fin 16777216 ∧
      (InsertAll (Reset (InsertAll unitRoot [bodyA, bodyE, bodyHeavy]))
        [bodyHeavy, bodyA, bodyE]).data.massCenter ≠
        (InsertAll unitRoot [bodyA, bodyE, bodyHeavy]).data.massCenter) ∧
    (storedParticles (Insert unitRoot bodyC 0) = [bodyC] ∧
      (InsertAll (Insert unitRoot bodyC 0) [bodyA, bodyE]).data.totalMass = F32.fin 3 ∧
      (InsertAll (Reset (InsertAll (Insert unitRoot bodyC 0) [bodyA, bodyE]))
        [bodyA, bodyE]).data.totalMass = F32.fin 2) := by
  refine ⟨⟨EmptyLeaf_new32 _ _, ?_, ?_, ?_, ?_⟩, ⟨?_, ?_, ?_⟩⟩
  all_goals decide!

/-! ### Particles at one position -/

theorem Contains_sameXY32 (t : BarnesHutTree) (p q : Particle) (h : SameXY p q) :
    t.Contains p = t.Contains q := by
  simp [Contains, NodeContains, h.1, h.2]

theorem selIdx_sameXY32 (p q : Particle) (cs : Quad) (h : SameXY p q) :
    selIdx p cs = selIdx q cs := by
  simp [selIdx, Contains_sameXY32 _ p q h]

theorem stored_quad_get32 (d : NodeFields) (cs : Quad) (h : d.isLeaf = false)
    (hall : ∀ j, j < 4 → storedParticles (cs.get j) = []) :
    storedParticles (quad d cs.c0 cs.c1 cs.c2 cs.c3) = [] := by
  have h0 := hall 0 (by decide)
  have h1 := hall 1 (by decide)
  have h2 := hall 2 (by decide)
  have h3 := hall 3 (by decide)
  simp only [Quad.get] at h0 h1 h2 h3
  simp [storedParticles, h, h0, h1, h2, h3]

/-- At least two particles at one position inside the square of an empty leaf:
whatever the level, nothing is stored below the node afterwards. -/
theorem cluster_stored32 (x : Particle) (k : Nat) :
    ∀ (level : Nat) (t : BarnesHutTree) (ps : List Particle),
      cMaxTreeLevel + 1 ≤ level + k → EmptyLeaf t → t.Contains x = true →
      (∀ p ∈ ps, SameXY p x) → 2 ≤ ps.length →
      storedParticles (InsertAllAt level t ps) = [] := by
  induction k with
  | zero =>
    intro level t ps hk he _ _ _
    rw [InsertAllAt_out32 level (by omega)]
    exact stored_EmptyLeaf32 t he
  | succ k ih =>
    intro level t ps hk he hx hxy hlen
    by_cases hl : level ≤ cMaxTreeLevel
    swap
    · rw [InsertAllAt_out32 level (by omega)]
      exact stored_EmptyLeaf32 t he
    have hall : ∀ y ∈ ps, t.Contains y = true := fun y hy => by
      rw [Contains_sameXY32 t y x (hxy y hy)]; exact hx
    rcases ps with _ | ⟨q, _ | ⟨p, rest⟩⟩
    · simp at hlen
    · simp at hlen
    · rw [InsertAllAt_split32 level hl t he q p rest hall]
      apply stored_quad_get32 _ _ rfl
      intro j hj
      rw [routeAll_get32 _ _ _ _ hj]
      by_cases hsel : selIdx x (splitChildren t) = j
      · have hfilt : (q :: p :: rest).filter
            (fun y => decide (selIdx y (splitChildren t) = j)) = q :: p :: rest := by
          apply List.filter_eq_self.mpr
          intro y hy
          rw [selIdx_sameXY32 y x _ (hxy y hy), hsel]
          simp
        rw [hfilt]
        apply ih (level + 1) _ _ (by omega) (Quad.all_get32 (splitChildren_empty32 t) j) _ hxy hlen
        rw [← hsel]
        exact selIdx_contains32 x _ (by omega)
      · have hfilt : (q :: p :: rest).filter
            (fun y => decide (selIdx y (splitChildren t) = j)) = [] := by
          apply List.filter_eq_nil_iff.mpr
          intro y hy
          rw [selIdx_sameXY32 y x _ (hxy y hy)]
          simpa using hsel
        rw [hfilt, InsertAllAt_nil32]
        exact stored_EmptyLeaf32 _ (Quad.all_get32 (splitChildren_empty32 t) j)

/-- C9 (amended). Degenerate cluster over binary32: at least two particles with
identical coordinates inside the square of an empty root are inserted one after
another with level 0. Every call of Insert returns (the recursion is bounded by
the depth check), and afterwards no reachable leaf references any of the
particles, the first one included: each of them ended at the depth check or in a
routing loop that found no child containing it. The same holds for every longer
list, hence after every later insertion. A single particle is stored in the root
leaf. -/
theorem degenerate_cluster_none_retained32 (t : BarnesHutTree) (x : Particle)
    (ps : List Particle) (he : EmptyLeaf t) (hx : t.Contains x = true)
    (hxy : ∀ p ∈ ps, SameXY p x) (hk : 2 ≤ ps.length) :
    storedParticles (InsertAll t ps) = [] ∧
    (droppedAll t ps ++ lostAll t ps).Perm ps ∧
    (∀ p ∈ ps, p ∈ droppedAll t ps ∨ p ∈ lostAll t ps) ∧
    (∀ (n : Nat) (t' : BarnesHutTree) (p : Particle), cMaxTreeLevel + 2 ≤ n →
      insertAux n t' p 0 = Insert t' p 0) ∧
    storedParticles (InsertAll t [x]) = [x] := by
  have hst : storedParticles (InsertAll t ps) = [] :=
    cluster_stored32 x (cMaxTreeLevel + 1) 0 t ps (by omega) he hx hxy hk
  have hall : ∀ y ∈ ps, t.Contains y = true := fun y hy => by
    rw [Contains_sameXY32 t y x (hxy y hy)]; exact hx
  have hperm : (droppedAll t ps ++ lostAll t ps).Perm ps := by
    have := InsertAllAt_account32 0 ps t
    rw [stored_EmptyLeaf32 t he, List.append_nil, List.filter_eq_self.mpr hall] at this
    unfold InsertAll at hst
    rw [hst, List.nil_append] at this
    exact this
  refine ⟨hst, hperm, ?_, ?_, ?_⟩
  · intro p hp
    exact List.mem_append.mp (hperm.symm.subset hp)
  · intro n t' p hn
    exact insertAux_enough32 n t' p 0 (by omega)
  · unfold InsertAll
    rw [InsertAllAt_cons32, InsertAllAt_nil32,
      Insert_store32 t x 0 hx (by decide) he.1 he.2, stored_of_leaf32 _ (by simpa using he.1)]
    simp

/-- Instance of C9 (amended): two particles at the origin of the unit root. -/
theorem degenerate_cluster_none_retained32_witness :
    EmptyLeaf unitRoot ∧ unitRoot.Contains bodyA = true ∧
    (∀ p ∈ [bodyA, bodyB], SameXY p bodyA) ∧ 2 ≤ [bodyA, bodyB].length ∧
    storedParticles (InsertAll unitRoot [bodyA, bodyB]) = [] :=
  ⟨EmptyLeaf_new32 _ _, by decide!, by simp [SameXY, bodyA, bodyB], by decide,
    (degenerate_cluster_none_retained32 unitRoot bodyA [bodyA, bodyB] (EmptyLeaf_new32 _ _)
      (by decide!) (by simp [SameXY, bodyA, bodyB]) (by decide)).1⟩

/-- C9, counterexamples over binary32 in the unit root. (1) Two particles at the
origin: the first is stored after its insertion; the second insertion pushes both
down to level 51, where both are dropped, and the first is no longer stored.
(2) Two particles at (0.1f, 0.3f): the first is stored after its insertion; after
the second insertion neither is stored, and neither was dropped at the depth
limit: both fell out of a routing loop (at level 26, where no child contains
them). -/
theorem degenerate_cluster_counterexample32 :
    (storedParticles (InsertAll unitRoot [bodyA]) = [bodyA] ∧
      storedParticles (InsertAll unitRoot [bodyA, bodyB]) = [] ∧
      droppedAll unitRoot [bodyA, bodyB] = [bodyA, bodyB] ∧
      lostAll unitRoot [bodyA, bodyB] = []) ∧
    (storedParticles (InsertAll unitRoot [tenthA]) = [tenthA] ∧
      storedParticles (InsertAll unitRoot [tenthA, tenthB]) = [] ∧
      droppedAll unitRoot [tenthA, tenthB] = [] ∧
      lostAll unitRoot [tenthA, tenthB] = [tenthA, tenthB]) := by
  refine ⟨⟨?_, ?_, ?_, ?_⟩, ⟨?_, ?_, ?_, ?_⟩⟩
  all_goals decide!

/-! ### Geometry of the split -/

theorem Geom_node32 (t : BarnesHutTree) (h : Geom t) : GeomNode t.data := by
  cases t with
  | bare d => exact h
  | quad d c0 c1 c2 c3 => exact h.1

theorem Geom_setData32 (t : BarnesHutTree) (d : NodeFields) (h : Geom t)
    (hp : d.point = t.data.point) (hl : d.length = t.data.length)
    (ho : d.oppositePoint = t.data.oppositePoint) : Geom (t.setData d) := by
  cases t with
  | bare d0 =>
    simp only [setData, Geom, GeomNode, data_bare32] at *
    rw [ho, hp, hl]; exact h
  | quad d0 c0 c1 c2 c3 =>
    simp only [setData, Geom, GeomNode, ChildGeom, data_quad32] at *
    rw [ho, hp, hl]; exact h

theorem Geom_Reset32 (t : BarnesHutTree) (h : Geom t) : Geom t.Reset :=
  Geom_setData32 t _ h rfl rfl rfl

theorem Geom_new32 (point : float3) (length : F32) : Geom (new point length) := by
  simp [new, Geom, GeomNode]

theorem route_childGeom32 (d : NodeFields) (p : Particle) (f : BarnesHutTree → BarnesHutTree)
    (cs : Quad) (h : ChildGeom d cs)
    (hf : ∀ c, (f c).data.point = c.data.point ∧ (f c).data.length = c.data.length) :
    ChildGeom d (route p f cs) := by
  obtain ⟨h0, h1, h2, h3⟩ := h
  unfold route
  split_ifs with a0 a1 a2 a3
  · exact ⟨by rw [(hf _).1, (hf _).2]; exact h0, h1, h2, h3⟩
  · exact ⟨h0, by rw [(hf _).1, (hf _).2]; exact h1, h2, h3⟩
  · exact ⟨h0, h1, by rw [(hf _).1, (hf _).2]; exact h2, h3⟩
  · exact ⟨h0, h1, h2, by rw [(hf _).1, (hf _).2]; exact h3⟩
  · exact ⟨h0, h1, h2, h3⟩

theorem splitChildren_spec32 (t : BarnesHutTree) (h : Geom t) :
    ChildGeom t.data (splitChildren t) ∧ (splitChildren t).All Geom := by
  cases t with
  | bare d =>
    refine ⟨?_, ?_⟩
    · simp [splitChildren, ChildGeom, new]
    · exact ⟨Geom_new32 _ _, Geom_new32 _ _, Geom_new32 _ _, Geom_new32 _ _⟩
  | quad d c0 c1 c2 c3 =>
    obtain ⟨-, hg, g0, g1, g2, g3⟩ := h
    refine ⟨?_, ?_⟩
    · simpa [splitChildren, ChildGeom, Reset] using hg
    · exact ⟨Geom_Reset32 _ g0, Geom_Reset32 _ g1, Geom_Reset32 _ g2, Geom_Reset32 _ g3⟩

theorem Insert_geom32 (k : Nat) :
    ∀ (t : BarnesHutTree) (p : Particle) (level : Nat), cMaxTreeLevel + 1 ≤ level + k →
      Geom t → Geom (Insert t p level) := by
  induction k with
  | zero =>
    intro t p level hk h
    rw [Insert_out32 t p level (Or.inr (by omega))]; exact h
  | succ k ih =>
    intro t p level hk h
    by_cases hc : t.Contains p = true
    swap
    · rw [Insert_out32 t p level (Or.inl (by simpa using hc))]; exact h
    by_cases hl : level ≤ cMaxTreeLevel
    swap
    · rw [Insert_out32 t p level (Or.inr (by omega))]; exact h
    have hk1 : cMaxTreeLevel + 1 ≤ level + 1 + k := by omega
    have hfr : ∀ (x : Particle) (c : BarnesHutTree),
        (Insert c x (level + 1)).data.point = c.data.point ∧
          (Insert c x (level + 1)).data.length = c.data.length := fun x c =>
      ⟨(Insert_frame32 c x (level + 1)).1, (Insert_frame32 c x (level + 1)).2.1⟩
    by_cases hleaf : t.data.isLeaf = true
    · cases hq : t.data.particle_ with
      | none =>
        rw [Insert_store32 t p level hc hl hleaf hq]
        exact Geom_setData32 t _ h rfl rfl rfl
      | some q =>
        rw [Insert_split32 t p q level hc hl hleaf hq]
        obtain ⟨hg, hall⟩ := splitChildren_spec32 t h
        have hg2 := route_childGeom32 t.data p (fun c => Insert c p (level + 1)) _
          (route_childGeom32 t.data q (fun c => Insert c q (level + 1)) _ hg (hfr q)) (hfr p)
        have hall2 := route_all32 Geom p (fun c => Insert c p (level + 1)) _
          (route_all32 Geom q (fun c => Insert c q (level + 1)) _ hall
            (fun c hc _ => ih c q _ hk1 hc)) (fun c hc _ => ih c p _ hk1 hc)
        exact ⟨Geom_node32 t h, hg2, hall2.1, hall2.2.1, hall2.2.2.1, hall2.2.2.2⟩
    · have hleaf : t.data.isLeaf = false := by simpa using hleaf
      cases t with
      | bare d =>
        rw [Insert_internal_bare32 d p level hc hl hleaf]
        exact h
      | quad d c0 c1 c2 c3 =>
        rw [Insert_internal32 d c0 c1 c2 c3 p level hc hl hleaf]
        obtain ⟨hd, hg, g0, g1, g2, g3⟩ := h
        have hg2 := route_childGeom32 d p (fun c => Insert c p (level + 1)) _ hg (hfr p)
        have hall2 := route_all32 Geom p (fun c => Insert c p (level + 1)) ⟨c0, c1, c2, c3⟩
          ⟨g0, g1, g2, g3⟩ (fun c hc _ => ih c p _ hk1 hc)
        exact ⟨hd, hg2, hall2.1, hall2.2.1, hall2.2.2.1, hall2.2.2.2⟩

/-- Every tree the code can build has the geometry Geom, and every leaf of it that
references a particle contains it. -/
theorem Built_geom32 (t : BarnesHutTree) (h : Built t) : Geom t ∧ LeafOK t := by
  induction h with
  | new point length => exact ⟨Geom_new32 _ _, LeafOK_EmptyLeaf32 _ (EmptyLeaf_new32 _ _)⟩
  | reset t _ ih => exact ⟨Geom_Reset32 t ih.1, LeafOK_EmptyLeaf32 _ (EmptyLeaf_Reset32 t)⟩
  | insert t p level _ ih =>
    exact ⟨Insert_geom32 (cMaxTreeLevel + 1) t p level (by omega) ih.1,
      Insert_leafOK32 (cMaxTreeLevel + 1) t p level (by omega) ih.2⟩

/-- C11 (amended). Split of an occupied leaf over binary32: a leaf holds particle
q; a particle p that its Contains test accepts is inserted with level ≤ 50.
Afterwards the node is internal, its square is unchanged, and it has four
children of side nl = 0.5f * length (a binary32 product) with origins, in array
order, (x0, y0), (x0 + nl, y0), (x0 + nl, y0 + nl), (x0, y0 + nl), each sum rounded
to binary32 (so x0 + nl is x0 when nl is below half a unit in the last place of
x0). Its totalMass is the binary32 sum q.mass + p.mass and its massCenter is, in
each coordinate, ((p.position * p.mass) + (q.position * q.mass)) * (1.0f /
totalMass) with every operation rounded to binary32 (an infinity or NaN when
totalMass is zero). The children are what the two routing loops make of the
children of the split: freshly constructed ones if the array was null, and
otherwise the old children after Reset, which are reused and not replaced. -/
theorem split_of_occupied_leaf32 (t : BarnesHutTree) (p q : Particle) (level : Nat)
    (hg : Geom t) (hleaf : t.data.isLeaf = true) (hq : t.data.particle_ = some q)
    (hin : t.Contains p = true) (hl : level ≤ 50) :
    ∃ (d1 : NodeFields) (c0 c1 c2 c3 : BarnesHutTree),
      Insert t p level = quad d1 c0 c1 c2 c3 ∧
      d1.isLeaf = false ∧
      (d1.point = t.data.point ∧ d1.length = t.data.length ∧
        d1.oppositePoint = t.data.oppositePoint) ∧
      (c0.data.point.m_x = t.data.point.m_x ∧ c0.data.point.m_y = t.data.point.m_y ∧
        c0.data.length = F32.mul (F32.fin (1 / 2)) t.data.length) ∧
      (c1.data.point.m_x = F32.add t.data.point.m_x (F32.mul (F32.fin (1 / 2)) t.data.length) ∧
        c1.data.point.m_y = t.data.point.m_y ∧
        c1.data.length = F32.mul (F32.fin (1 / 2)) t.data.length) ∧
      (c2.data.point.m_x = F32.add t.data.point.m_x (F32.mul (F32.fin (1 / 2)) t.data.length) ∧
        c2.data.point.m_y = F32.add t.data.point.m_y (F32.mul (F32.fin (1 / 2)) t.data.length) ∧
        c2.data.length = F32.mul (F32.fin (1 / 2)) t.data.length) ∧
      (c3.data.point.m_x = t.data.point.m_x ∧
        c3.data.point.m_y = F32.add t.data.point.m_y (F32.mul (F32.fin (1 / 2)) t.data.length) ∧
        c3.data.length = F32.mul (F32.fin (1 / 2)) t.data.length) ∧
      d1.totalMass = F32.add q.mass p.mass ∧
      (d1.massCenter.m_x =
          F32.mul (F32.add (F32.mul p.position.m_x p.mass) (F32.mul q.position.m_x q.mass))
            (F32.div (F32.fin 1) (F32.add q.mass p.mass)) ∧
        d1.massCenter.m_y =
          F32.mul (F32.add (F32.mul p.position.m_y p.mass) (F32.mul q.position.m_y q.mass))
            (F32.div (F32.fin 1) (F32.add q.mass p.mass)) ∧
        d1.massCenter.m_z =
          F32.mul (F32.add (F32.mul p.position.m_z p.mass) (F32.mul q.position.m_z q.mass))
            (F32.div (F32.fin 1) (F32.add q.mass p.mass))) ∧
      (⟨c0, c1, c2, c3⟩ : Quad) =
        route p (fun c => Insert c p (level + 1))
          (route q (fun c => Insert c q (level + 1)) (splitChildren t)) ∧
      (∀ (d : NodeFields) (a0 a1 a2 a3 : BarnesHutTree), t = quad d a0 a1 a2 a3 →
        splitChildren t = ⟨a0.Reset, a1.Reset, a2.Reset, a3.Reset⟩) ∧
      (∀ d : NodeFields, t = bare d →
        splitChildren t =
          ⟨new d.point (F32.mul (F32.fin (1 / 2)) d.length),
            new ⟨F32.add d.point.m_x (F32.mul (F32.fin (1 / 2)) d.length), d.point.m_y,
              F32.fin 0⟩ (F32.mul (F32.fin (1 / 2)) d.length),
            new ⟨F32.add d.point.m_x (F32.mul (F32.fin (1 / 2)) d.length),
              F32.add d.point.m_y (F32.mul (F32.fin (1 / 2)) d.length), F32.fin 0⟩
              (F32.mul (F32.fin (1 / 2)) d.length),
            new ⟨d.point.m_x, F32.add d.point.m_y (F32.mul (F32.fin (1 / 2)) d.length),
              F32.fin 0⟩ (F32.mul (F32.fin (1 / 2)) d.length)⟩) := by
  have heq := Insert_split32 t p q level hin hl hleaf hq
  obtain ⟨hcg, -⟩ := splitChildren_spec32 t hg
  have hfr : ∀ (x : Particle) (c : BarnesHutTree),
      (Insert c x (level + 1)).data.point = c.data.point ∧
        (Insert c x (level + 1)).data.length = c.data.length := fun x c =>
    ⟨(Insert_frame32 c x (level + 1)).1, (Insert_frame32 c x (level + 1)).2.1⟩
  have hcg2 := route_childGeom32 t.data p (fun c => Insert c p (level + 1)) _
    (route_childGeom32 t.data q (fun c => Insert c q (level + 1)) _ hcg (hfr q)) (hfr p)
  obtain ⟨⟨p0, l0⟩, ⟨p1, l1⟩, ⟨p2, l2⟩, ⟨p3, l3⟩⟩ := hcg2
  refine ⟨_, _, _, _, _, heq, rfl, ⟨rfl, rfl, rfl⟩, ⟨by rw [p0], by rw [p0], l0⟩,
    ⟨by rw [p1], by rw [p1], l1⟩, ⟨by rw [p2], by rw [p2], l2⟩, ⟨by rw [p3], by rw [p3], l3⟩,
    rfl, ⟨rfl, rfl, rfl⟩, rfl, ?_, ?_⟩
  · rintro d a0 a1 a2 a3 rfl; rfl
  · rintro d rfl; rfl

/-- Instance of C11 (amended): the unit root holds the particle at the origin and
receives the particle at (1, 1); afterwards it is internal with total mass 2. -/
theorem split_of_occupied_leaf32_witness :
    Geom (Insert unitRoot bodyA 0) ∧ (Insert unitRoot bodyA 0).data.isLeaf = true ∧
    (Insert unitRoot bodyA 0).data.particle_ = some bodyA ∧
    (Insert unitRoot bodyA 0).Contains bodyC = true ∧ 0 ≤ 50 ∧
    ∃ (d1 : NodeFields) (c0 c1 c2 c3 : BarnesHutTree),
      Insert (Insert unitRoot bodyA 0) bodyC 0 = quad d1 c0 c1 c2 c3 ∧
      d1.isLeaf = false ∧ d1.totalMass = F32.add bodyA.mass bodyC.mass :=
  ⟨Insert_geom32 51 _ _ _ (by decide) (Geom_new32 _ _), by decide!, by decide!, by decide!,
    by decide,
    (split_of_occupied_leaf32 (Insert unitRoot bodyA 0) bodyC bodyA 0
      (Insert_geom32 51 _ _ _ (by decide) (Geom_new32 _ _)) (by decide!) (by decide!)
      (by decide!) (by decide)).elim
      (fun d1 h => h.elim (fun c0 h => h.elim (fun c1 h => h.elim (fun c2 h => h.elim
        (fun c3 h => ⟨d1, c0, c1, c2, c3, h.1, h.2.1, h.2.2.2.2.2.2.2.1⟩)))))⟩

/-- C11, counterexamples over binary32. (1) The leaf thinLeaf with origin
(0.75, 0) and side 2^-24 holds thinQ and receives thinP, which its square
contains. The children have side 2^-25, and the x-origin of children 1 and 2 is
0.75, not x0 + length/2 = 0.75 + 2^-25 (which is not a binary32 number and rounds
to 0.75): the four quadrants have the same x-range [0.75, 0.75]. (2) The unit root
holds the particle of mass 1 at the origin and receives a particle of mass -1 at
(1, 1): totalMass is 0 and massCenter is (-inf, -inf, NaN), while
(p.mass * p.position + q.mass * q.position) / (p.mass + q.mass) is undefined. -/
theorem split_counterexample32 :
    (Geom thinLeaf ∧ thinLeaf.data.isLeaf = true ∧ thinLeaf.data.particle_ = some thinQ ∧
      thinLeaf.Contains thinP = true ∧
      thinLeaf.data.point.m_x = F32.fin (3 / 4) ∧ thinLeaf.data.length = F32.fin (1 / 16777216) ∧
      (childList (Insert thinLeaf thinP 0)).map (fun c => c.data.point.m_x) =
        [F32.fin (3 / 4), F32.fin (3 / 4), F32.fin (3 / 4), F32.fin (3 / 4)] ∧
      (childList (Insert thinLeaf thinP 0)).map (fun c => c.data.oppositePoint.m_x) =
        [F32.fin (3 / 4), F32.fin (3 / 4), F32.fin (3 / 4), F32.fin (3 / 4)] ∧
      (3 / 4 : ℚ) ≠ 3 / 4 + 1 / 16777216 / 2) ∧
    ((Insert unitRoot bodyA 0).data.particle_ = some bodyA ∧
      (Insert unitRoot bodyA 0).Contains bodyMinus = true ∧
      (Insert (Insert unitRoot bodyA 0) bodyMinus 0).data.totalMass = F32.fin 0 ∧
      (Insert (Insert unitRoot bodyA 0) bodyMinus 0).data.massCenter =
        ⟨F32.inf true, F32.inf true, F32.nan⟩) := by
  refine ⟨⟨Insert_geom32 51 _ _ _ (by decide) (Geom_new32 _ _), ?_, ?_, ?_, ?_, ?_, ?_, ?_,
    by norm_num⟩, ⟨?_, ?_, ?_, ?_⟩⟩
  all_goals decide!

/-! ### Routing -/

theorem F32.le_self32 (a b : F32) (h : F32.le a b = true) :
    F32.le a a = true ∧ F32.le b b = true := by
  cases a <;> cases b <;> simp_all [F32.le, F32.toRat]

theorem centre_in_all32 (d : NodeFields) (cs : Quad) (p : Particle)
    (hg : ChildGeom d cs) (hc : cs.All (fun c => GeomNode c.data))
    (hin : NodeContains d p = true)
    (hx : p.position.m_x = cs.c2.data.point.m_x) (hy : p.position.m_y = cs.c2.data.point.m_y)
    (h2 : cs.c2.Contains p = true) :
    cs.c0.Contains p = true ∧ cs.c1.Contains p = true ∧ cs.c2.Contains p = true ∧
      cs.c3.Contains p = true := by
  obtain ⟨⟨p0, l0⟩, ⟨p1, l1⟩, ⟨p2, l2⟩, ⟨p3, l3⟩⟩ := hg
  obtain ⟨g0, g1, g2, g3⟩ := hc
  rw [p2] at hx hy
  simp only at hx hy
  simp only [Contains, NodeContains, GeomNode, Bool.and_eq_true] at *
  rw [g2, p2, l2] at h2
  rw [g0, g1, g2, g3, p0, p1, p2, p3, l0, l1, l2, l3]
  simp only [float3.add, float3.splat] at h2 ⊢
  obtain ⟨⟨⟨hx0, -⟩, hy0⟩, -⟩ := hin
  obtain ⟨⟨⟨-, hx2⟩, -⟩, hy2⟩ := h2
  have rx := (F32.le_self32 _ _ hx0).2
  have ry := (F32.le_self32 _ _ hy0).2
  rw [hx] at rx hx0 hx2
  rw [hy] at ry hy0 hy2
  rw [hx, hy]
  exact ⟨⟨⟨⟨hx0, rx⟩, hy0⟩, ry⟩, ⟨⟨⟨rx, hx2⟩, hy0⟩, ry⟩, ⟨⟨⟨rx, hx2⟩, ry⟩, hy2⟩,
    ⟨⟨⟨hx0, rx⟩, ry⟩, hy2⟩⟩

/-- C12 (amended). Routing and boundary tie-break over binary32: an internal node
with four children and a particle in the closed square of the node. The routing
loop forwards the particle to at most one child: the first in array order whose
inclusive Contains test succeeds (no earlier child contains it), even when several
contain it; Insert replaces that child by the result of inserting into it at
level + 1 and leaves the three others as they were, and the same holds for the
routing loops of a split. When no child contains the particle, which binary32
rounding of the child squares makes possible, the loop ends without a call: the
aggregates of the node are updated, the children stay as they were and no leaf
stores the particle. A particle at the common corner of the four children of a
split (the centre of the node as the split computes it) that child 2, whose origin
it is, contains, is contained by all four children and is inserted only into
child 0. -/
theorem routing_first_match32 (d : NodeFields) (c0 c1 c2 c3 : BarnesHutTree) (p : Particle)
    (level : Nat) (hleaf : d.isLeaf = false) (hin : NodeContains d p = true)
    (hl : level ≤ 50) :
    selIdx p ⟨c0, c1, c2, c3⟩ ≤ 4 ∧
    (selIdx p ⟨c0, c1, c2, c3⟩ < 4 ↔
      (c0.Contains p = true ∨ c1.Contains p = true ∨ c2.Contains p = true ∨
        c3.Contains p = true)) ∧
    (selIdx p ⟨c0, c1, c2, c3⟩ < 4 →
      (Quad.get ⟨c0, c1, c2, c3⟩ (selIdx p ⟨c0, c1, c2, c3⟩)).Contains p = true) ∧
    (∀ j : Nat, j < selIdx p ⟨c0, c1, c2, c3⟩ →
      (Quad.get ⟨c0, c1, c2, c3⟩ j).Contains p = false) ∧
    (∀ f : BarnesHutTree → BarnesHutTree,
      route p f ⟨c0, c1, c2, c3⟩ =
        Quad.set ⟨c0, c1, c2, c3⟩ (selIdx p ⟨c0, c1, c2, c3⟩)
          (f (Quad.get ⟨c0, c1, c2, c3⟩ (selIdx p ⟨c0, c1, c2, c3⟩)))) ∧
    (∃ d1 : NodeFields,
      d1.totalMass = F32.add d.totalMass p.mass ∧
      Insert (quad d c0 c1 c2 c3) p level =
        quad d1
          (Quad.set ⟨c0, c1, c2, c3⟩ (selIdx p ⟨c0, c1, c2, c3⟩)
            (Insert (Quad.get ⟨c0, c1, c2, c3⟩ (selIdx p ⟨c0, c1, c2, c3⟩)) p (level + 1))).c0
          (Quad.set ⟨c0, c1, c2, c3⟩ (selIdx p ⟨c0, c1, c2, c3⟩)
            (Insert (Quad.get ⟨c0, c1, c2, c3⟩ (selIdx p ⟨c0, c1, c2, c3⟩)) p (level + 1))).c1
          (Quad.set ⟨c0, c1, c2, c3⟩ (selIdx p ⟨c0, c1, c2, c3⟩)
            (Insert (Quad.get ⟨c0, c1, c2, c3⟩ (selIdx p ⟨c0, c1, c2, c3⟩)) p (level + 1))).c2
          (Quad.set ⟨c0, c1, c2, c3⟩ (selIdx p ⟨c0, c1, c2, c3⟩)
            (Insert (Quad.get ⟨c0, c1, c2, c3⟩ (selIdx p ⟨c0, c1, c2, c3⟩)) p
              (level + 1))).c3) ∧
    (∀ (j : Nat) (c : BarnesHutTree), j < 4 → j ≠ selIdx p ⟨c0, c1, c2, c3⟩ →
      Quad.get (Quad.set ⟨c0, c1, c2, c3⟩ (selIdx p ⟨c0, c1, c2, c3⟩) c) j =
        Quad.get ⟨c0, c1, c2, c3⟩ j) ∧
    (selIdx p ⟨c0, c1, c2, c3⟩ = 4 →
      (∃ d1 : NodeFields, d1.totalMass = F32.add d.totalMass p.mass ∧
        Insert (quad d c0 c1 c2 c3) p level = quad d1 c0 c1 c2 c3) ∧
      losses (quad d c0 c1 c2 c3) p level = [(Loss.routing, p)] ∧
      storedParticles (Insert (quad d c0 c1 c2 c3) p level) =
        storedParticles (quad d c0 c1 c2 c3)) ∧
    (ChildGeom d ⟨c0, c1, c2, c3⟩ → Quad.All (fun c => GeomNode c.data) ⟨c0, c1, c2, c3⟩ →
      p.position.m_x = c2.data.point.m_x → p.position.m_y = c2.data.point.m_y →
      c2.Contains p = true →
      (c0.Contains p = true ∧ c1.Contains p = true ∧ c2.Contains p = true ∧
        c3.Contains p = true) ∧
      selIdx p ⟨c0, c1, c2, c3⟩ = 0 ∧
      ∃ d1 : NodeFields,
        Insert (quad d c0 c1 c2 c3) p level = quad d1 (Insert c0 p (level + 1)) c1 c2 c3) := by
  have hins := Insert_internal32 d c0 c1 c2 c3 p level hin hl hleaf
  have hiff : selIdx p ⟨c0, c1, c2, c3⟩ < 4 ↔
      (c0.Contains p = true ∨ c1.Contains p = true ∨ c2.Contains p = true ∨
        c3.Contains p = true) := by
    unfold selIdx
    constructor
    · intro h
      split_ifs at h with a0 a1 a2 a3
      · exact Or.inl a0
      · exact Or.inr (Or.inl a1)
      · exact Or.inr (Or.inr (Or.inl a2))
      · exact Or.inr (Or.inr (Or.inr a3))
      · exact absurd h (by decide)
    · intro h
      split_ifs with a0 a1 a2 a3
      · decide
      · decide
      · decide
      · decide
      · simp_all
  refine ⟨selIdx_le32 p _, hiff, selIdx_contains32 p _, fun j hj => selIdx_first32 p _ j hj,
    fun f => route_eq_set32 p f _, ?_, fun j c hj hne => get_set_other32 _ _ j c hne hj, ?_, ?_⟩
  · exact ⟨_, rfl, hins.trans (by rw [route_eq_set32])⟩
  · intro h4
    have hr : route p (fun c => Insert c p (level + 1)) ⟨c0, c1, c2, c3⟩ = ⟨c0, c1, c2, c3⟩ := by
      rw [route_eq_set32, h4]; rfl
    have hlog : routeLog p (fun c => losses c p (level + 1)) ⟨c0, c1, c2, c3⟩ =
        [(Loss.routing, p)] := by
      obtain ⟨n0, n1, n2, n3⟩ := selIdx_none32 p _ h4
      simp only at n0 n1 n2 n3
      simp [routeLog, n0, n1, n2, n3]
    refine ⟨⟨_, rfl, hins.trans (by rw [hr])⟩, ?_, ?_⟩
    · rw [losses_internal32 d c0 c1 c2 c3 p level hin hl hleaf, hlog]
    · rw [hins, hr, stored_quad_internal32 _ _ _ _ _ (by exact hleaf),
        stored_quad_internal32 _ _ _ _ _ hleaf]
  · intro hcg hall hx hy h2
    have h4 := centre_in_all32 d ⟨c0, c1, c2, c3⟩ p hcg hall hin hx hy h2
    have h0 : selIdx p ⟨c0, c1, c2, c3⟩ = 0 := by
      unfold selIdx; rw [if_pos h4.1]
    refine ⟨h4, h0, ?_⟩
    exact ⟨_, hins.trans (by rw [route_eq_set32, h0]; rfl)⟩

/-- Instance of C12 (amended): the unit square after a split and a particle
exactly at its centre (1/2, 1/2): all four quadrants contain it, the routing loop
selects child 0, and the other three children stay as they were. -/
theorem routing_first_match32_witness :
    unitNode.isLeaf = false ∧ NodeContains unitNode bodyCentre = true ∧ 0 ≤ 50 ∧
    ChildGeom unitNode ⟨unitChild0, unitChild1, unitChild2, unitChild3⟩ ∧
    (unitChild0.Contains bodyCentre = true ∧ unitChild1.Contains bodyCentre = true ∧
      unitChild2.Contains bodyCentre = true ∧ unitChild3.Contains bodyCentre = true) ∧
    selIdx bodyCentre ⟨unitChild0, unitChild1, unitChild2, unitChild3⟩ = 0 ∧
    ∃ d1 : NodeFields,
      Insert (quad unitNode unitChild0 unitChild1 unitChild2 unitChild3) bodyCentre 0 =
        quad d1 (Insert unitChild0 bodyCentre 1) unitChild1 unitChild2 unitChild3 :=
  ⟨rfl, by decide!, by decide,
    ⟨⟨by decide!, by decide!⟩, ⟨by decide!, by decide!⟩, ⟨by decide!, by decide!⟩,
      ⟨by decide!, by decide!⟩⟩,
    (routing_first_match32 unitNode unitChild0 unitChild1 unitChild2 unitChild3 bodyCentre 0
      rfl (by decide!) (by decide)).2.2.2.2.2.2.2.2
      ⟨⟨by decide!, by decide!⟩, ⟨by decide!, by decide!⟩, ⟨by decide!, by decide!⟩,
        ⟨by decide!, by decide!⟩⟩
      ⟨Geom_new32 _ _, Geom_new32 _ _, Geom_new32 _ _, Geom_new32 _ _⟩
      (by decide!) (by decide!) (by decide!)⟩

/-- C12, counterexample over binary32: the node that the split of thinLeaf
produces (origin (0.75, 0), side 2^-24, four children built by the split) and
the particle thinR on its right edge, at x = 0.75 + 2^-24. The closed square of the
node contains the particle, and none of the four children does: their x-range is
[0.75, 0.75]. Insert forwards it to no child; it is counted in totalMass and
stored nowhere. -/
theorem routing_counterexample32 :
    (Insert thinLeaf thinP 0).data.isLeaf = false ∧
    (Insert thinLeaf thinP 0).Contains thinR = true ∧
    (childList (Insert thinLeaf thinP 0)).map (fun c => c.Contains thinR) =
      [false, false, false, false] ∧
    losses (Insert thinLeaf thinP 0) thinR 0 = [(Loss.routing, thinR)] ∧
    storedParticles (Insert (Insert thinLeaf thinP 0) thinR 0) = [thinQ, thinP] ∧
    (Insert (Insert thinLeaf thinP 0) thinR 0).data.totalMass = F32.fin 3 := by
  refine ⟨?_, ?_, ?_, ?_, ?_, ?_⟩
  all_goals decide!

/-! ### ComputeAcceleration over binary32 -/

theorem ComputeAcceleration_empty32 (G : GravityLaw) (t : BarnesHutTree) (particle : Particle)
    (softFactor : F32) (he : EmptyLeaf t) :
    ComputeAcceleration G t particle softFactor = float3.zero := by
  obtain ⟨h1, h2⟩ := he
  cases t with
  | bare d0 =>
    simp only [data_bare32] at h1 h2
    simp [ComputeAcceleration, accelerationAt, h1, h2]
  | quad d0 a b c e =>
    simp only [data_quad32] at h1 h2
    simp [ComputeAcceleration, accelerationAt, h1, h2]

/-- An internal node that passes the test theta < 0.7f is replaced by the point
mass at its centroid, whatever it holds. -/
theorem compute_point_mass32 (G : GravityLaw) (t : BarnesHutTree) (particle : Particle)
    (softFactor : F32) (hleaf : t.data.isLeaf = false)
    (ht : F32.lt (F32.div t.data.length (t.data.massCenter.sub particle.position).norm)
      theta07 = true) :
    ComputeAcceleration G t particle softFactor =
      G.withNorm (t.data.massCenter.sub particle.position) t.data.totalMass softFactor
        (t.data.massCenter.sub particle.position).norm := by
  cases t with
  | bare d =>
    simp only [data_bare32] at hleaf ht
    simp [ComputeAcceleration, accelerationAt, hleaf, ht]
  | quad d c0 c1 c2 c3 =>
    simp only [data_quad32] at hleaf ht
    simp [ComputeAcceleration, accelerationAt, hleaf, ht]

/-- An internal node that fails the test theta < 0.7f is opened: the result is
the sum over its four children, accumulated from zero in array order. -/
theorem compute_opened32 (G : GravityLaw) (d : NodeFields) (c0 c1 c2 c3 : BarnesHutTree)
    (particle : Particle) (softFactor : F32) (hleaf : d.isLeaf = false)
    (ht : F32.lt (F32.div d.length (d.massCenter.sub particle.position).norm) theta07 = false) :
    ComputeAcceleration G (quad d c0 c1 c2 c3) particle softFactor =
      (((float3.zero.add (ComputeAcceleration G c0 particle softFactor)).add
        (ComputeAcceleration G c1 particle softFactor)).add
        (ComputeAcceleration G c2 particle softFactor)).add
        (ComputeAcceleration G c3 particle softFactor) := by
  simp [ComputeAcceleration, accelerationAt, hleaf, ht]

theorem F32.sub_self32 (a : F32) (h : a.isFinite = true) : F32.sub a a = F32.fin 0 := by
  cases a with
  | fin q =>
    by_cases hq : q = 0
    · subst hq; rfl
    · simp [F32.sub, F32.neg, hq, F32.add, F32.roundNE]
  | negZero => rfl
  | inf s => simp [F32.isFinite] at h
  | nan => simp [F32.isFinite] at h

theorem norm_zero32 : (⟨F32.fin 0, F32.fin 0, F32.fin 0⟩ : float3).norm = F32.fin 0 := by
  decide!

theorem div_zero_not_below32 (length : F32) (h : F32.lt (F32.fin 0) length = true) :
    F32.lt (F32.div length (F32.fin 0)) theta07 = false := by
  cases length with
  | fin q =>
    have hq : 0 < q := by simpa [F32.lt, F32.toRat] using h
    have hq0 : q ≠ 0 := ne_of_gt hq
    have hq1 : ¬ q < 0 := not_lt.mpr (le_of_lt hq)
    simp [F32.div, F32.isZero, F32.signBit, hq0, hq1, F32.lt, theta07]
  | negZero => simp [F32.lt, F32.toRat] at h
  | inf s =>
    cases s
    · simp [F32.div, F32.signBit, F32.lt, theta07]
    · simp [F32.lt] at h
  | nan => simp [F32.lt] at h

/-- C10 (amended). Opening-angle criterion of ComputeAcceleration over binary32 on
an internal node: with vec = massCenter - particle.position, r = vec.norm() and
theta = length / r computed in binary32, the result is the point-mass term
GravityAcceleration(vec, totalMass, softFactor, r) exactly when theta < 0.7f, and
otherwise the sum of ComputeAcceleration over the four children, accumulated from
zero in array order. The threshold is the binary32 literal 0.7f = 11744051 /
16777216, which is less than 7/10. With r = 0 and positive length the quotient is
+infinity and the node is opened; this is the case of a query particle with finite
coordinates exactly at the centroid. An empty leaf returns the zero vector. -/
theorem opening_angle_criterion32 (G : GravityLaw) (d : NodeFields)
    (c0 c1 c2 c3 : BarnesHutTree) (particle : Particle) (softFactor : F32)
    (hleaf : d.isLeaf = false) :
    (F32.lt (F32.div d.length (d.massCenter.sub particle.position).norm) theta07 = true →
      ComputeAcceleration G (quad d c0 c1 c2 c3) particle softFactor =
        G.withNorm (d.massCenter.sub particle.position) d.totalMass softFactor
          (d.massCenter.sub particle.position).norm) ∧
    (F32.lt (F32.div d.length (d.massCenter.sub particle.position).norm) theta07 = false →
      ComputeAcceleration G (quad d c0 c1 c2 c3) particle softFactor =
        (((float3.zero.add (ComputeAcceleration G c0 particle softFactor)).add
          (ComputeAcceleration G c1 particle softFactor)).add
          (ComputeAcceleration G c2 particle softFactor)).add
          (ComputeAcceleration G c3 particle softFactor)) ∧
    ((d.massCenter.sub particle.position).norm = F32.fin 0 →
      F32.lt (F32.fin 0) d.length = true →
      F32.lt (F32.div d.length (d.massCenter.sub particle.position).norm) theta07 = false) ∧
    (d.massCenter = particle.position → d.massCenter.m_x.isFinite = true →
      d.massCenter.m_y.isFinite = true → d.massCenter.m_z.isFinite = true →
      (d.massCenter.sub particle.position).norm = F32.fin 0) ∧
    (∀ t : BarnesHutTree, EmptyLeaf t →
      ComputeAcceleration G t particle softFactor = float3.zero) ∧
    (theta07 = F32.roundNE (7 / 10) ∧ F32.lt theta07 (F32.fin (7 / 10)) = true) := by
  refine ⟨fun h => compute_point_mass32 G (quad d c0 c1 c2 c3) particle softFactor hleaf h,
    fun h => compute_opened32 G d c0 c1 c2 c3 particle softFactor hleaf h, ?_, ?_,
    fun t he => ComputeAcceleration_empty32 G t particle softFactor he, ⟨by decide!, by decide!⟩⟩
  · intro hr hlen
    rw [hr]
    exact div_zero_not_below32 _ hlen
  · intro he hx hy hz
    rw [← he]
    simp only [float3.sub, F32.sub_self32 _ hx, F32.sub_self32 _ hy, F32.sub_self32 _ hz]
    exact norm_zero32

/-- Instance of C10 (amended): the unit node seen from (3, 4, 0), at distance 5
from its centroid, has theta = 0.2 and is replaced by its point mass. -/
theorem opening_angle_criterion32_witness :
    unitNode.isLeaf = false ∧
    F32.lt (F32.div unitNode.length (unitNode.massCenter.sub bodyFar.position).norm)
      theta07 = true ∧
    ∀ (G : GravityLaw) (s : F32),
      ComputeAcceleration G (quad unitNode unitChild0 unitChild1 unitChild2 unitChild3)
          bodyFar s =
        G.withNorm (unitNode.massCenter.sub bodyFar.position) unitNode.totalMass s
          (unitNode.massCenter.sub bodyFar.position).norm :=
  ⟨rfl, by decide!, fun G s =>
    (opening_angle_criterion32 G unitNode unitChild0 unitChild1 unitChild2 unitChild3
      bodyFar s rfl).1 (by decide!)⟩

/-- C10, counterexample over binary32: an internal node of side 0.7f whose
centroid (1, 0, 0) is at distance r = 1 from the query particle at the origin.
Every value is a binary32 number and no operation rounds: theta = 0.7f / 1 =
0.7f, which is below 0.7. The test theta < 0.7f fails, so the node is opened and
the result is the sum over its four (empty) children, the zero vector, for every
gravity law; for the claim the node would be replaced by its point mass. -/
theorem opening_angle_counterexample32 :
    openNode.data.isLeaf = false ∧ F32.lt (F32.fin 0) openNode.data.length = true ∧
    openNode.data.length = theta07 ∧ theta07.isBinary32 = true ∧
    openNode.data.massCenter.sub bodyA.position = vec 1 0 0 ∧
    (openNode.data.massCenter.sub bodyA.position).norm = F32.fin 1 ∧
    F32.div openNode.data.length (openNode.data.massCenter.sub bodyA.position).norm =
      F32.fin (11744051 / 16777216) ∧
    (0 < (1 : ℚ) ∧ (11744051 / 16777216 : ℚ) / 1 < 7 / 10) ∧
    ∀ (G : GravityLaw) (s : F32), ComputeAcceleration G openNode bodyA s = float3.zero := by
  refine ⟨rfl, by decide!, rfl, by decide!, by decide!, by decide!, by decide!,
    ⟨by norm_num, by norm_num⟩, ?_⟩
  intro G s
  unfold openNode
  rw [compute_opened32 G _ _ _ _ _ bodyA s rfl (by decide!),
    ComputeAcceleration_empty32 G _ bodyA s (EmptyLeaf_new32 _ _),
    ComputeAcceleration_empty32 G _ bodyA s (EmptyLeaf_new32 _ _),
    ComputeAcceleration_empty32 G _ bodyA s (EmptyLeaf_new32 _ _),
    ComputeAcceleration_empty32 G _ bodyA s (EmptyLeaf_new32 _ _)]
  decide!

/-- C4 fails on the code. The root offsetRoot has origin (1024, 1024) and side
2^-12; particle A of mass 1 is at its origin, particle B of mass 254 at
(1024, 1024 + 2^-12), on its upper edge. Both are stored in leaves, nothing is
dropped or lost, and the root is internal with totalMass 255. Its massCenter is
computed as ((B.y * 254) + (A.y * 1)) * (1 / 255) in binary32, which gives
y = 1024 + 3 * 2^-13, outside the square of the root (whose upper edge is
1024 + 2 * 2^-13). For A this puts the centroid at distance r = 3 * 2^-13, so
theta = length / r = 0.6667 is below 0.7f and the acceleration of A is the
point-mass term of the whole root, with totalMass 255 that counts A's own mass,
not the two-body term GravityAcceleration(B.position - A.position, 254, s). -/
theorem two_body_point_mass32 :
    EmptyLeaf offsetRoot ∧ offsetRoot.Contains offsetA = true ∧
    offsetRoot.Contains offsetB = true ∧ offsetA.position ≠ offsetB.position ∧
    storedParticles (InsertAll offsetRoot [offsetA, offsetB]) = [offsetA, offsetB] ∧
    droppedAll offsetRoot [offsetA, offsetB] = [] ∧ lostAll offsetRoot [offsetA, offsetB] = [] ∧
    (InsertAll offsetRoot [offsetA, offsetB]).data.totalMass = F32.fin 255 ∧
    (InsertAll offsetRoot [offsetA, offsetB]).data.massCenter = vec 1024 (8388611 / 8192) 0 ∧
    (InsertAll offsetRoot [offsetA, offsetB]).data.oppositePoint.m_y = F32.fin (4194305 / 4096) ∧
    F32.div (InsertAll offsetRoot [offsetA, offsetB]).data.length
      ((InsertAll offsetRoot [offsetA, offsetB]).data.massCenter.sub offsetA.position).norm =
      F32.fin (11184811 / 16777216) ∧
    offsetB.position.sub offsetA.position = vec 0 (1 / 4096) 0 ∧
    ∀ (G : GravityLaw) (s : F32),
      ComputeAcceleration G (InsertAll offsetRoot [offsetA, offsetB]) offsetA s =
        G.withNorm (vec 0 (3 / 8192) 0) (F32.fin 255) s (F32.fin (3 / 8192)) := by
  refine ⟨EmptyLeaf_new32 _ _, by decide!, by decide!, by decide!, by decide!, by decide!,
    by decide!, by decide!, by decide!, by decide!, by decide!, by decide!, ?_⟩
  intro G s
  rw [compute_point_mass32 G (InsertAll offsetRoot [offsetA, offsetB]) offsetA s (by decide!)
    (by decide!)]
  have h1 : (InsertAll offsetRoot [offsetA, offsetB]).data.massCenter.sub offsetA.position =
      vec 0 (3 / 8192) 0 := by decide!
  have h2 : (InsertAll offsetRoot [offsetA, offsetB]).data.totalMass = F32.fin 255 := by decide!
  have h3 : (vec 0 (3 / 8192) 0).norm = F32.fin (3 / 8192) := by decide!
  rw [h1, h2, h3]

/-! ### Reset, dropped insertions and self-interaction over binary32

The statements about Reset, about insertions that are no-ops and about the
point-mass branch do not depend on rounding; they hold for the tree over binary32
as they do over exact arithmetic. -/

/-- Reset over binary32: the node becomes an empty leaf, every other member and the
children with their subtrees are unchanged, and Reset is idempotent. -/
theorem Reset_frame32 (t : BarnesHutTree) :
    ((Reset t).data.isLeaf = true ∧ (Reset t).data.particle_ = none) ∧
    ((Reset t).data.point = t.data.point ∧ (Reset t).data.length = t.data.length ∧
      (Reset t).data.oppositePoint = t.data.oppositePoint ∧
      (Reset t).data.totalMass = t.data.totalMass ∧
      (Reset t).data.massCenter = t.data.massCenter) ∧
    (∀ (d : NodeFields) (c0 c1 c2 c3 : BarnesHutTree), t = quad d c0 c1 c2 c3 →
      Reset t = quad { d with isLeaf := true, particle_ := none } c0 c1 c2 c3) ∧
    Reset (Reset t) = Reset t := by
  refine ⟨⟨?_, ?_⟩, ⟨?_, ?_, ?_, ?_, ?_⟩, ?_, ?_⟩
  · simp [Reset]
  · simp [Reset]
  · simp [Reset]
  · simp [Reset]
  · simp [Reset]
  · simp [Reset]
  · simp [Reset]
  · rintro d c0 c1 c2 c3 rfl; rfl
  · cases t <;> rfl

/-- Insertions that are no-ops over binary32: when the Contains test fails or
level > 50, Insert returns the node unchanged; an empty leaf that contains the
particle stores it at level 50 and not at level 51. -/
theorem Insert_noop32 (t : BarnesHutTree) (p : Particle) (level : Nat) :
    ((t.Contains p = false ∨ level > 50) → Insert t p level = t) ∧
    (EmptyLeaf t → t.Contains p = true →
      Insert t p 50 = t.setData { t.data with particle_ := some p } ∧
      storedParticles (Insert t p 50) = [p] ∧
      Insert t p 51 = t) := by
  constructor
  · intro h
    exact Insert_out32 t p level h
  · intro he hc
    have h50 := Insert_store32 t p 50 hc (by decide) he.1 he.2
    refine ⟨h50, ?_, Insert_out32 t p 51 (Or.inr (by decide))⟩
    rw [h50, stored_of_leaf32 _ (by simpa using he.1)]
    simp

/-- Self-interaction over binary32: the particle at the origin and the particle
above the corner (1, 1) at height 4, both of mass 1, in the unit root. Both are
stored, the root has totalMass 2 and massCenter (1/2, 1/2, 2); for the particle at
the origin theta = 1 / sqrt(4.5) is below 0.7f, and its acceleration is the
point-mass term of the whole root, its own mass included. -/
theorem self_interaction32 :
    storedParticles (InsertAll unitRoot [bodyA, bodyHigh]) = [bodyA, bodyHigh] ∧
    (InsertAll unitRoot [bodyA, bodyHigh]).data.totalMass = F32.add bodyA.mass bodyHigh.mass ∧
    F32.lt (F32.div (InsertAll unitRoot [bodyA, bodyHigh]).data.length
      ((InsertAll unitRoot [bodyA, bodyHigh]).data.massCenter.sub bodyA.position).norm)
      theta07 = true ∧
    ∀ (G : GravityLaw) (s : F32),
      ComputeAcceleration G (InsertAll unitRoot [bodyA, bodyHigh]) bodyA s =
        G.withNorm (vec (1 / 2) (1 / 2) 2) (F32.fin 2) s (F32.fin (4448731 / 2097152)) := by
  refine ⟨by decide!, by decide!, by decide!, ?_⟩
  intro G s
  rw [compute_point_mass32 G (InsertAll unitRoot [bodyA, bodyHigh]) bodyA s (by decide!)
    (by decide!)]
  have h1 : (InsertAll unitRoot [bodyA, bodyHigh]).data.massCenter.sub bodyA.position =
      vec (1 / 2) (1 / 2) 2 := by decide!
  have h2 : (InsertAll unitRoot [bodyA, bodyHigh]).data.totalMass = F32.fin 2 := by decide!
  have h3 : (vec (1 / 2) (1 / 2) 2).norm = F32.fin (4448731 / 2097152) := by decide!
  rw [h1, h2, h3]

end BarnesHutTree

end Binary32

end Galaxy
